import Mathlib

/-! Hash syscalls of the VM: `src/flamenco/vm/syscall/fd_vm_syscall_hash.c`

A shallow embedding of `fd_vm_syscall_sol_sha256`, `fd_vm_syscall_sol_blake3` and
`fd_vm_syscall_sol_keccak256` (namespace `FdVm`), followed by the argument
checks and the loop control of the monitor command,
`src/app/shared/commands/monitor/monitor.c` (namespace `FdMonitor`).

* `ulong` values are natural numbers; where the C code can wrap (the product
  `vals_len*sizeof(fd_vm_vec_t)`) the reduction modulo `2^64` is explicit.
* The VM (`fd_vm_t`) is an explicit state: memory map, host memory, remaining
  compute units, log collector, recorded syscall error.  A ghost field `trace`
  records, in program order, every charge, translation and hash call that the
  syscall performs, so that ordering properties can be stated.
* The out-parameter `_ret` is passed in and returned.
* The macros, constants and hash primitives that the file uses but that are
  declared elsewhere in the repository are either parameters (`fd_vm_params`)
  or modelled from the specification; each such definition says so.
-/

set_option linter.unusedVariables false

namespace FdVm

/-! ## Integer helpers -/

/-- The largest `ulong`. -/
def ULONG_MAX : Nat := 2 ^ 64 - 1

/-- Modelled from the spec: `fd_ulong_max` (declared in util, not in src), the
larger of two `ulong`s. -/
def fd_ulong_max (a b : Nat) : Nat := if a < b then b else a

/-- Modelled from the spec: `fd_ulong_sat_mul` (declared in util, not in src).
"Cost components that multiply a per-byte rate by a length must saturate rather
than silently wrap on overflow": the 64-bit product, replaced by `ULONG_MAX`
when the multiplication carries out of 64 bits. -/
def fd_ulong_sat_mul (x y : Nat) : Nat :=
  if 2 ^ 64 ≤ x * y then ULONG_MAX else (x * y) % 2 ^ 64

/-! ## Parameters: constants and primitives declared outside src -/

/-- Modelled from the spec: the three fault kinds of the Address Translator
(section 4.1). -/
inductive fd_vm_fault where
  | OutOfBounds
  | Misaligned
  | ReadOnlyViolation
  deriving DecidableEq, Repr

/-- The constants and hash primitives that `fd_vm_syscall_hash.c` uses but that
are declared in headers outside src.  They are parameters of the embedding.
The three hash fields stand for the one-shot reference digests of the three
algorithms (a message, as a list of bytes, to its digest). -/
structure fd_vm_params where
  /-- Limit on the number of slices. -/
  FD_VM_SHA256_MAX_SLICES : Nat
  /-- Base cost of a hash syscall. -/
  FD_VM_SHA256_BASE_COST : Nat
  /-- Per-byte rate. -/
  FD_VM_SHA256_BYTE_COST : Nat
  /-- Minimum cost of a memory operation. -/
  FD_VM_MEM_OP_BASE_COST : Nat
  /-- Alignment of a Rust `u8`. -/
  FD_VM_ALIGN_RUST_U8 : Nat
  /-- Alignment of `fd_vm_vec_t`. -/
  FD_VM_VEC_ALIGN : Nat
  /-- Status code for too many slices. -/
  FD_VM_SYSCALL_ERR_TOO_MANY_SLICES : Int
  /-- Status code with which the translation macros return on a fault. -/
  FD_VM_ERR_FAULT : fd_vm_fault → Int
  /-- Status code with which `FD_VM_CU_UPDATE` returns on exhaustion. -/
  FD_VM_ERR_BUDGET : Int
  /-- Reference SHA-256. -/
  sha256 : List Nat → List Nat
  /-- Reference BLAKE3. -/
  blake3 : List Nat → List Nat
  /-- Reference Keccak-256. -/
  keccak256 : List Nat → List Nat

/-- Modelled from the spec: `FD_VM_SUCCESS` (section 6: "status `0` means
success"). -/
def FD_VM_SUCCESS : Int := 0

/-- The size in bytes of `fd_vm_vec_t`, a pair of `ulong`s `{ addr, len }`. -/
def sizeof_fd_vm_vec_t : Nat := 16

/-! ## The VM state -/

/-- Modelled from the spec: a Memory Region (section 3),
`{ virtual_base, length, host_base, writable }`. -/
structure fd_vm_region where
  virtual_base : Nat
  length : Nat
  host_base : Nat
  writable : Bool
  deriving DecidableEq, Repr

/-- Ghost events: the operations a syscall performs, in program order. -/
inductive fd_vm_event where
  /-- `FD_VM_CU_UPDATE( vm, cost )` was executed. -/
  | cu_update (cost : Nat)
  /-- A translation of `sz` bytes at `vaddr` was requested. -/
  | translate (vaddr align sz : Nat) (is_mut : Bool)
  /-- The bytes were fed to the hash accumulator. -/
  | hash_append (bytes : List Nat)
  /-- The hash accumulator was finalized into host address `haddr`. -/
  | hash_fini (haddr : Nat)
  deriving DecidableEq, Repr

/-- The part of `fd_vm_t` that the hash syscalls touch. -/
structure fd_vm_t where
  /-- The memory map. -/
  regions : List fd_vm_region
  /-- Host memory, one byte per host address. -/
  mem : Nat → Nat
  /-- Remaining compute units (`vm->cu`). -/
  cu : Nat
  /-- Messages handed to the log collector. -/
  log : List String
  /-- The error recorded by `FD_VM_ERR_FOR_LOG_SYSCALL`. -/
  syscall_err : Option Int
  /-- Ghost: operations performed so far. -/
  trace : List fd_vm_event

/-- The outcome of a macro that may `return` from the enclosing syscall: either
it yields a value and the syscall goes on, or the syscall returns `err`.  The
VM state is kept in both cases. -/
inductive fd_vm_res (α : Type) where
  | ok (val : α) (vm : fd_vm_t)
  | fail (err : Int) (vm : fd_vm_t)

/-- What a syscall leaves behind: the returned status, the VM and `*_ret`. -/
structure fd_vm_syscall_out where
  status : Int
  vm : fd_vm_t
  ret : Nat

/-! ## Host memory access -/

/-- The `len` bytes of host memory starting at `haddr`. -/
def read_bytes (mem : Nat → Nat) (haddr len : Nat) : List Nat :=
  (List.range len).map (fun k => mem (haddr + k))

/-- A little-endian `ulong` load from host memory. -/
def load_ulong (mem : Nat → Nat) (haddr : Nat) : Nat :=
  ((List.range 8).map (fun k => (mem (haddr + k) % 256) * 256 ^ k)).sum

/-- Store of a 32-byte digest at `haddr`: exactly the 32 bytes
`haddr .. haddr+31` are written. -/
def store_digest (mem : Nat → Nat) (haddr : Nat) (digest : List Nat) : Nat → Nat :=
  fun a => if haddr ≤ a ∧ a < haddr + 32 then digest.getD (a - haddr) 0 else mem a

/-! ## Address Translator and Compute Meter -/

/-- Modelled from the spec: the Address Translator (section 4.1); the macros
`FD_VM_TRANSLATE_MUT`, `FD_VM_MEM_HADDR_LD` and `FD_VM_MEM_SLICE_HADDR_LD` that
call it are not in src.  `OutOfBounds` if no single region fully contains
`[vaddr, vaddr+sz)`, `Misaligned` if `vaddr % align != 0`, `ReadOnlyViolation`
if mutability is requested but the region is not writable; otherwise
`host_base + (vaddr - region.virtual_base)`. -/
def fd_vm_translate (regions : List fd_vm_region) (vaddr sz align : Nat) (is_mut : Bool) :
    Except fd_vm_fault Nat :=
  match regions.find? (fun r => decide (r.virtual_base ≤ vaddr ∧ vaddr + sz ≤ r.virtual_base + r.length)) with
  | none => .error .OutOfBounds
  | some r =>
    if vaddr % align ≠ 0 then .error .Misaligned
    else if is_mut && !r.writable then .error .ReadOnlyViolation
    else .ok (r.host_base + (vaddr - r.virtual_base))

/-- Append a ghost event. -/
def fd_vm_t.emit (vm : fd_vm_t) (e : fd_vm_event) : fd_vm_t :=
  { vm with trace := vm.trace ++ [e] }

/-- Modelled from the spec: `FD_VM_CU_UPDATE` (Compute Meter, section 4.2; the
macro is not in src).  `charge(context, amount) → Ok | BudgetExhausted`; the
charge saturate-subtracts, so an amount above the remaining budget leaves it at
zero and makes the syscall return. -/
def FD_VM_CU_UPDATE (K : fd_vm_params) (vm : fd_vm_t) (cost : Nat) : fd_vm_res Unit :=
  let vm := vm.emit (.cu_update cost)
  if cost > vm.cu then .fail K.FD_VM_ERR_BUDGET { vm with cu := 0 }
  else .ok () { vm with cu := vm.cu - cost }

/-- Modelled from the spec: `FD_VM_MEM_HADDR_LD` (not in src), a read-only
translation that makes the syscall return on a fault. -/
def FD_VM_MEM_HADDR_LD (K : fd_vm_params) (vm : fd_vm_t) (vaddr align sz : Nat) : fd_vm_res Nat :=
  match fd_vm_translate vm.regions vaddr sz align false with
  | .ok haddr => .ok haddr (vm.emit (.translate vaddr align sz false))
  | .error f => .fail (K.FD_VM_ERR_FAULT f) (vm.emit (.translate vaddr align sz false))

/-- Modelled from the spec: `FD_VM_MEM_SLICE_HADDR_LD` (not in src), the
read-only translation of length-delimited data ("each step independently
enforces the bounds/alignment rules"). -/
def FD_VM_MEM_SLICE_HADDR_LD (K : fd_vm_params) (vm : fd_vm_t) (vaddr align sz : Nat) :
    fd_vm_res Nat :=
  FD_VM_MEM_HADDR_LD K vm vaddr align sz

/-- The fields of `fd_vm_haddr_query_t`. -/
structure fd_vm_haddr_query_t where
  vaddr : Nat
  align : Nat
  sz : Nat
  is_slice : Bool
  haddr : Nat := 0

/-- Modelled from the spec: `FD_VM_TRANSLATE_MUT` (not in src) for a query
array of one element: the query is translated as mutable and its `haddr` is
filled in; a fault makes the syscall return. -/
def FD_VM_TRANSLATE_MUT (K : fd_vm_params) (vm : fd_vm_t) (query : fd_vm_haddr_query_t) :
    fd_vm_res fd_vm_haddr_query_t :=
  match fd_vm_translate vm.regions query.vaddr query.sz query.align true with
  | .ok haddr =>
    .ok { query with haddr := haddr } (vm.emit (.translate query.vaddr query.align query.sz true))
  | .error f =>
    .fail (K.FD_VM_ERR_FAULT f) (vm.emit (.translate query.vaddr query.align query.sz true))

/-! ## Diagnostic Collector -/

/-- The text produced by the format
`"%s Hashing %lu sequences in one syscall is over the limit %lu"`. -/
def too_many_slices_msg (name : String) (vals_len limit : Nat) : String :=
  name ++ " Hashing " ++ Nat.repr vals_len ++ " sequences in one syscall is over the limit "
    ++ Nat.repr limit

/-- Modelled from the spec: `fd_log_collector_printf_dangerous_max_127` (not in
src), `report(context, message)`: fire-and-forget. -/
def fd_log_collector_printf_dangerous_max_127 (vm : fd_vm_t) (msg : String) : fd_vm_t :=
  { vm with log := vm.log ++ [msg] }

/-- Modelled from the spec: `FD_VM_ERR_FOR_LOG_SYSCALL` (not in src) records
the syscall error in the execution context. -/
def FD_VM_ERR_FOR_LOG_SYSCALL (vm : fd_vm_t) (err : Int) : fd_vm_t :=
  { vm with syscall_err := some err }

/-! ## Hash accumulators

Modelled from the spec (section 3, Hash Accumulator): "streaming state, created
fresh per syscall invocation, fed 0..N byte slices in guest-specified order,
and consumed exactly once to produce a fixed 32-byte digest".  The accumulator
is represented by the bytes fed so far; finalization applies the reference
digest of `fd_vm_params` and stores 32 bytes. -/

/-- Modelled from the spec: `fd_sha256_init` (ballet, not in src), a fresh
accumulator. -/
def fd_sha256_init : List Nat := []

/-- Modelled from the spec: `fd_sha256_append` (ballet, not in src) feeds the
`sz` bytes at host address `data`. -/
def fd_sha256_append (vm : fd_vm_t) (sha : List Nat) (data sz : Nat) : List Nat × fd_vm_t :=
  (sha ++ read_bytes vm.mem data sz, vm.emit (.hash_append (read_bytes vm.mem data sz)))

/-- Modelled from the spec: `fd_sha256_fini` (ballet, not in src) stores the
32-byte digest at host address `hash`. -/
def fd_sha256_fini (K : fd_vm_params) (vm : fd_vm_t) (sha : List Nat) (hash : Nat) : fd_vm_t :=
  { vm with mem := store_digest vm.mem hash (K.sha256 sha),
            trace := vm.trace ++ [.hash_fini hash] }

/-- Modelled from the spec: `fd_blake3_init` (ballet, not in src), a fresh
accumulator. -/
def fd_blake3_init : List Nat := []

/-- Modelled from the spec: `fd_blake3_append` (ballet, not in src) feeds the
`sz` bytes at host address `data`. -/
def fd_blake3_append (vm : fd_vm_t) (sha : List Nat) (data sz : Nat) : List Nat × fd_vm_t :=
  (sha ++ read_bytes vm.mem data sz, vm.emit (.hash_append (read_bytes vm.mem data sz)))

/-- Modelled from the spec: `fd_blake3_fini` (ballet, not in src) stores the
32-byte digest at host address `hash`. -/
def fd_blake3_fini (K : fd_vm_params) (vm : fd_vm_t) (sha : List Nat) (hash : Nat) : fd_vm_t :=
  { vm with mem := store_digest vm.mem hash (K.blake3 sha),
            trace := vm.trace ++ [.hash_fini hash] }

/-- Modelled from the spec: `fd_keccak256_init` (ballet, not in src), a fresh
accumulator. -/
def fd_keccak256_init : List Nat := []

/-- Modelled from the spec: `fd_keccak256_append` (ballet, not in src) feeds
the `sz` bytes at host address `data`. -/
def fd_keccak256_append (vm : fd_vm_t) (sha : List Nat) (data sz : Nat) : List Nat × fd_vm_t :=
  (sha ++ read_bytes vm.mem data sz, vm.emit (.hash_append (read_bytes vm.mem data sz)))

/-- Modelled from the spec: `fd_keccak256_fini` (ballet, not in src) stores the
32-byte digest at host address `hash`. -/
def fd_keccak256_fini (K : fd_vm_params) (vm : fd_vm_t) (sha : List Nat) (hash : Nat) : fd_vm_t :=
  { vm with mem := store_digest vm.mem hash (K.keccak256 sha),
            trace := vm.trace ++ [.hash_fini hash] }

/-! ## The three syscalls -/

/-- The cost expression of lines 74-75 (and 139-140, 204-205):
`fd_ulong_max( FD_VM_MEM_OP_BASE_COST, fd_ulong_sat_mul( FD_VM_SHA256_BYTE_COST, val_len / 2 ) )`. -/
def slice_cost (K : fd_vm_params) (val_len : Nat) : Nat :=
  fd_ulong_max K.FD_VM_MEM_OP_BASE_COST (fd_ulong_sat_mul K.FD_VM_SHA256_BYTE_COST (val_len / 2))

/-- The loop `for( ulong i=0UL; i<vals_len; i++ )` of `fd_vm_syscall_sol_sha256`
(lines 68-82).  The first numeric argument is the number of iterations left,
`vals_len - i`; the second is `i`. -/
def sha256_loop (K : fd_vm_params) (input_vec_haddr : Nat) :
    Nat → Nat → fd_vm_t → List Nat → fd_vm_res (List Nat)
  | 0, _, vm, sha => .ok sha vm
  | n + 1, i, vm, sha =>
    let val_len := load_ulong vm.mem (input_vec_haddr + sizeof_fd_vm_vec_t * i + 8)
    match FD_VM_MEM_SLICE_HADDR_LD K vm (load_ulong vm.mem (input_vec_haddr + sizeof_fd_vm_vec_t * i))
        K.FD_VM_ALIGN_RUST_U8 val_len with
    | .fail err vm => .fail err vm
    | .ok bytes vm =>
      let cost := slice_cost K val_len
      match FD_VM_CU_UPDATE K vm cost with
      | .fail err vm => .fail err vm
      | .ok _ vm =>
        let r := fd_sha256_append vm sha bytes val_len
        sha256_loop K input_vec_haddr n (i + 1) r.2 r.1

/-- Embedding of `fd_vm_syscall_sol_sha256` (lines 26-89). -/
def fd_vm_syscall_sol_sha256 (K : fd_vm_params) (vm : fd_vm_t)
    (vals_addr vals_len result_addr r4 r5 : Nat) (_ret : Nat) : fd_vm_syscall_out :=
  if K.FD_VM_SHA256_MAX_SLICES < vals_len then
    let vm := fd_log_collector_printf_dangerous_max_127 vm
      (too_many_slices_msg "Sha256" vals_len K.FD_VM_SHA256_MAX_SLICES)
    let vm := FD_VM_ERR_FOR_LOG_SYSCALL vm K.FD_VM_SYSCALL_ERR_TOO_MANY_SLICES
    ⟨K.FD_VM_SYSCALL_ERR_TOO_MANY_SLICES, vm, _ret⟩
  else
    match FD_VM_CU_UPDATE K vm K.FD_VM_SHA256_BASE_COST with
    | .fail err vm => ⟨err, vm, _ret⟩
    | .ok _ vm =>
      match FD_VM_TRANSLATE_MUT K vm ⟨result_addr, K.FD_VM_ALIGN_RUST_U8, 32, true, 0⟩ with
      | .fail err vm => ⟨err, vm, _ret⟩
      | .ok hash_result_query vm =>
        let sha := fd_sha256_init
        let hashed : fd_vm_res (List Nat) :=
          if vals_len > 0 then
            match FD_VM_MEM_HADDR_LD K vm vals_addr K.FD_VM_VEC_ALIGN
                ((vals_len * sizeof_fd_vm_vec_t) % 2 ^ 64) with
            | .fail err vm => .fail err vm
            | .ok input_vec_haddr vm => sha256_loop K input_vec_haddr vals_len 0 vm sha
          else .ok sha vm
        match hashed with
        | .fail err vm => ⟨err, vm, _ret⟩
        | .ok sha vm => ⟨FD_VM_SUCCESS, fd_sha256_fini K vm sha hash_result_query.haddr, 0⟩

/-- The loop of `fd_vm_syscall_sol_blake3` (lines 133-147). -/
def blake3_loop (K : fd_vm_params) (input_vec_haddr : Nat) :
    Nat → Nat → fd_vm_t → List Nat → fd_vm_res (List Nat)
  | 0, _, vm, sha => .ok sha vm
  | n + 1, i, vm, sha =>
    let val_len := load_ulong vm.mem (input_vec_haddr + sizeof_fd_vm_vec_t * i + 8)
    match FD_VM_MEM_SLICE_HADDR_LD K vm (load_ulong vm.mem (input_vec_haddr + sizeof_fd_vm_vec_t * i))
        K.FD_VM_ALIGN_RUST_U8 val_len with
    | .fail err vm => .fail err vm
    | .ok bytes vm =>
      let cost := slice_cost K val_len
      match FD_VM_CU_UPDATE K vm cost with
      | .fail err vm => .fail err vm
      | .ok _ vm =>
        let r := fd_blake3_append vm sha bytes val_len
        blake3_loop K input_vec_haddr n (i + 1) r.2 r.1

/-- Embedding of `fd_vm_syscall_sol_blake3` (lines 91-154). -/
def fd_vm_syscall_sol_blake3 (K : fd_vm_params) (vm : fd_vm_t)
    (vals_addr vals_len result_addr r4 r5 : Nat) (_ret : Nat) : fd_vm_syscall_out :=
  if K.FD_VM_SHA256_MAX_SLICES < vals_len then
    let vm := fd_log_collector_printf_dangerous_max_127 vm
      (too_many_slices_msg "Blake3" vals_len K.FD_VM_SHA256_MAX_SLICES)
    let vm := FD_VM_ERR_FOR_LOG_SYSCALL vm K.FD_VM_SYSCALL_ERR_TOO_MANY_SLICES
    ⟨K.FD_VM_SYSCALL_ERR_TOO_MANY_SLICES, vm, _ret⟩
  else
    match FD_VM_CU_UPDATE K vm K.FD_VM_SHA256_BASE_COST with
    | .fail err vm => ⟨err, vm, _ret⟩
    | .ok _ vm =>
      match FD_VM_TRANSLATE_MUT K vm ⟨result_addr, K.FD_VM_ALIGN_RUST_U8, 32, true, 0⟩ with
      | .fail err vm => ⟨err, vm, _ret⟩
      | .ok hash_result_query vm =>
        let sha := fd_blake3_init
        let hashed : fd_vm_res (List Nat) :=
          if vals_len > 0 then
            match FD_VM_MEM_HADDR_LD K vm vals_addr K.FD_VM_VEC_ALIGN
                ((vals_len * sizeof_fd_vm_vec_t) % 2 ^ 64) with
            | .fail err vm => .fail err vm
            | .ok input_vec_haddr vm => blake3_loop K input_vec_haddr vals_len 0 vm sha
          else .ok sha vm
        match hashed with
        | .fail err vm => ⟨err, vm, _ret⟩
        | .ok sha vm => ⟨FD_VM_SUCCESS, fd_blake3_fini K vm sha hash_result_query.haddr, 0⟩

/-- The loop of `fd_vm_syscall_sol_keccak256` (lines 198-212). -/
def keccak256_loop (K : fd_vm_params) (input_vec_haddr : Nat) :
    Nat → Nat → fd_vm_t → List Nat → fd_vm_res (List Nat)
  | 0, _, vm, sha => .ok sha vm
  | n + 1, i, vm, sha =>
    let val_len := load_ulong vm.mem (input_vec_haddr + sizeof_fd_vm_vec_t * i + 8)
    match FD_VM_MEM_SLICE_HADDR_LD K vm (load_ulong vm.mem (input_vec_haddr + sizeof_fd_vm_vec_t * i))
        K.FD_VM_ALIGN_RUST_U8 val_len with
    | .fail err vm => .fail err vm
    | .ok bytes vm =>
      let cost := slice_cost K val_len
      match FD_VM_CU_UPDATE K vm cost with
      | .fail err vm => .fail err vm
      | .ok _ vm =>
        let r := fd_keccak256_append vm sha bytes val_len
        keccak256_loop K input_vec_haddr n (i + 1) r.2 r.1

/-- Embedding of `fd_vm_syscall_sol_keccak256` (lines 156-219). -/
def fd_vm_syscall_sol_keccak256 (K : fd_vm_params) (vm : fd_vm_t)
    (vals_addr vals_len result_addr r4 r5 : Nat) (_ret : Nat) : fd_vm_syscall_out :=
  if K.FD_VM_SHA256_MAX_SLICES < vals_len then
    let vm := fd_log_collector_printf_dangerous_max_127 vm
      (too_many_slices_msg "Keccak256" vals_len K.FD_VM_SHA256_MAX_SLICES)
    let vm := FD_VM_ERR_FOR_LOG_SYSCALL vm K.FD_VM_SYSCALL_ERR_TOO_MANY_SLICES
    ⟨K.FD_VM_SYSCALL_ERR_TOO_MANY_SLICES, vm, _ret⟩
  else
    match FD_VM_CU_UPDATE K vm K.FD_VM_SHA256_BASE_COST with
    | .fail err vm => ⟨err, vm, _ret⟩
    | .ok _ vm =>
      match FD_VM_TRANSLATE_MUT K vm ⟨result_addr, K.FD_VM_ALIGN_RUST_U8, 32, true, 0⟩ with
      | .fail err vm => ⟨err, vm, _ret⟩
      | .ok hash_result_query vm =>
        let sha := fd_keccak256_init
        let hashed : fd_vm_res (List Nat) :=
          if vals_len > 0 then
            match FD_VM_MEM_HADDR_LD K vm vals_addr K.FD_VM_VEC_ALIGN
                ((vals_len * sizeof_fd_vm_vec_t) % 2 ^ 64) with
            | .fail err vm => .fail err vm
            | .ok input_vec_haddr vm => keccak256_loop K input_vec_haddr vals_len 0 vm sha
          else .ok sha vm
        match hashed with
        | .fail err vm => ⟨err, vm, _ret⟩
        | .ok sha vm => ⟨FD_VM_SUCCESS, fd_keccak256_fini K vm sha hash_result_query.haddr, 0⟩

/-! ## Common shape of the three syscalls

The three functions are copies of one another with the hash replaced.  The
definition below has the body of `fd_vm_syscall_sol_sha256` with the display
name and the digest as arguments; `sha256_eq_core`, `blake3_eq_core` and
`keccak256_eq_core` show that each embedding equals it, so that a property is
proved once and transferred. -/

/-- The body shared by the three syscalls, for a display name and a digest. -/
def hash_syscall_core (K : fd_vm_params) (name : String) (H : List Nat → List Nat)
    (vm : fd_vm_t) (vals_addr vals_len result_addr : Nat) (_ret : Nat) : fd_vm_syscall_out :=
  if K.FD_VM_SHA256_MAX_SLICES < vals_len then
    let vm := fd_log_collector_printf_dangerous_max_127 vm
      (too_many_slices_msg name vals_len K.FD_VM_SHA256_MAX_SLICES)
    let vm := FD_VM_ERR_FOR_LOG_SYSCALL vm K.FD_VM_SYSCALL_ERR_TOO_MANY_SLICES
    ⟨K.FD_VM_SYSCALL_ERR_TOO_MANY_SLICES, vm, _ret⟩
  else
    match FD_VM_CU_UPDATE K vm K.FD_VM_SHA256_BASE_COST with
    | .fail err vm => ⟨err, vm, _ret⟩
    | .ok _ vm =>
      match FD_VM_TRANSLATE_MUT K vm ⟨result_addr, K.FD_VM_ALIGN_RUST_U8, 32, true, 0⟩ with
      | .fail err vm => ⟨err, vm, _ret⟩
      | .ok hash_result_query vm =>
        let hashed : fd_vm_res (List Nat) :=
          if vals_len > 0 then
            match FD_VM_MEM_HADDR_LD K vm vals_addr K.FD_VM_VEC_ALIGN
                ((vals_len * sizeof_fd_vm_vec_t) % 2 ^ 64) with
            | .fail err vm => .fail err vm
            | .ok input_vec_haddr vm => sha256_loop K input_vec_haddr vals_len 0 vm []
          else .ok [] vm
        match hashed with
        | .fail err vm => ⟨err, vm, _ret⟩
        | .ok sha vm =>
          ⟨FD_VM_SUCCESS,
            { vm with mem := store_digest vm.mem hash_result_query.haddr (H sha),
                      trace := vm.trace ++ [.hash_fini hash_result_query.haddr] }, 0⟩

/-! ## Vocabulary of the statements -/

/-- The `addr` field of descriptor `i` of the array at host address `vh`. -/
def vec_addr (mem : Nat → Nat) (vh i : Nat) : Nat := load_ulong mem (vh + 16 * i)

/-- The `len` field of descriptor `i` of the array at host address `vh`. -/
def vec_len (mem : Nat → Nat) (vh i : Nat) : Nat := load_ulong mem (vh + 16 * i + 8)

/-- The translation request for the data of slice `i`. -/
def slice_xlat (K : fd_vm_params) (vm : fd_vm_t) (vh i : Nat) : Except fd_vm_fault Nat :=
  fd_vm_translate vm.regions (vec_addr vm.mem vh i) (vec_len vm.mem vh i) K.FD_VM_ALIGN_RUST_U8 false

/-- The bytes of slice `i` in memory `mem`, given its host address `ha i`. -/
def slice_bytes (mem : Nat → Nat) (vh : Nat) (ha : Nat → Nat) (i : Nat) : List Nat :=
  read_bytes mem (ha i) (vec_len mem vh i)

/-- The concatenation of slices `i .. i+n-1`, in index order. -/
def slices_concat (mem : Nat → Nat) (vh : Nat) (ha : Nat → Nat) (i n : Nat) : List Nat :=
  ((List.range' i n).map (slice_bytes mem vh ha)).flatten

/-- The sum of the per-slice costs of slices `i .. i+n-1`. -/
def slices_cost (K : fd_vm_params) (mem : Nat → Nat) (vh i n : Nat) : Nat :=
  ((List.range' i n).map (fun j => slice_cost K (vec_len mem vh j))).sum

/-- The operations of one complete loop iteration, for slice `i`. -/
def slice_events (K : fd_vm_params) (mem : Nat → Nat) (vh : Nat) (ha : Nat → Nat) (i : Nat) :
    List fd_vm_event :=
  [ .translate (vec_addr mem vh i) K.FD_VM_ALIGN_RUST_U8 (vec_len mem vh i) false,
    .cu_update (slice_cost K (vec_len mem vh i)),
    .hash_append (slice_bytes mem vh ha i) ]

/-- The operations of the loop iterations for slices `i .. i+n-1`. -/
def slices_events (K : fd_vm_params) (mem : Nat → Nat) (vh : Nat) (ha : Nat → Nat) (i n : Nat) :
    List fd_vm_event :=
  ((List.range' i n).map (slice_events K mem vh ha)).flatten

/-- The per-slice cost as the claim words it, over the unbounded naturals:
`max(FD_VM_MEM_OP_BASE_COST, satmul64(FD_VM_SHA256_BYTE_COST, val_len / 2))`
with `satmul64` the product clamped to `2^64-1`. -/
def claimed_slice_cost (K : fd_vm_params) (val_len : Nat) : Nat :=
  max K.FD_VM_MEM_OP_BASE_COST (min (K.FD_VM_SHA256_BYTE_COST * (val_len / 2)) (2 ^ 64 - 1))

/-- Modelled from the spec: what sections 6 and 7 say of the status codes,
whose values are declared outside src: "status `0` means success, any nonzero
value is an error code" and "all three categories are distinguishable error
codes". -/
def fd_vm_params.codes_distinct (K : fd_vm_params) : Prop :=
  K.FD_VM_SYSCALL_ERR_TOO_MANY_SLICES ≠ FD_VM_SUCCESS ∧
  K.FD_VM_ERR_BUDGET ≠ FD_VM_SUCCESS ∧
  (∀ f, K.FD_VM_ERR_FAULT f ≠ FD_VM_SUCCESS) ∧
  K.FD_VM_ERR_BUDGET ≠ K.FD_VM_SYSCALL_ERR_TOO_MANY_SLICES ∧
  (∀ f, K.FD_VM_ERR_FAULT f ≠ K.FD_VM_SYSCALL_ERR_TOO_MANY_SLICES) ∧
  (∀ f, K.FD_VM_ERR_FAULT f ≠ K.FD_VM_ERR_BUDGET)

/-! ## States reached along a call -/

/-- The VM state in which the loop stops at slice `i + k` after `k` complete
iterations: the first `k` costs are charged, `extra` lists the operations of
the interrupted iteration.  -/
def loop_stop (K : fd_vm_params) (vm : fd_vm_t) (vh : Nat) (ha : Nat → Nat) (i k cu : Nat)
    (extra : List fd_vm_event) : fd_vm_t :=
  { vm with cu := cu, trace := vm.trace ++ slices_events K vm.mem vh ha i k ++ extra }

/-- The VM after the base charge and the translations of the output buffer
and of the descriptor array, as the loop finds it. -/
def vm_at_loop (K : fd_vm_params) (vm : fd_vm_t) (vals_addr vals_len result_addr : Nat) : fd_vm_t :=
  { vm with
    cu := vm.cu - K.FD_VM_SHA256_BASE_COST,
    trace := vm.trace ++
      [ .cu_update K.FD_VM_SHA256_BASE_COST,
        .translate result_addr K.FD_VM_ALIGN_RUST_U8 32 true,
        .translate vals_addr K.FD_VM_VEC_ALIGN ((vals_len * sizeof_fd_vm_vec_t) % 2 ^ 64) false ] }

/-- The VM that a result carries. -/
def fd_vm_res.vm {α : Type} : fd_vm_res α → fd_vm_t
  | .ok _ vm => vm
  | .fail _ vm => vm

/-- The amounts passed to `FD_VM_CU_UPDATE`, in program order. -/
def charges (t : List fd_vm_event) : List Nat :=
  t.filterMap (fun e => match e with
    | .cu_update c => some c
    | _ => none)

/-- The host address of the data of slice `i` (0 when it does not translate). -/
def slice_haddr (K : fd_vm_params) (vm : fd_vm_t) (vh i : Nat) : Nat :=
  match slice_xlat K vm vh i with
  | .ok h => h
  | .error _ => 0

/-! ## Instances used to exhibit concrete runs -/

deriving instance DecidableEq for Except

/-- A stand-in for a 32-byte digest, used only to run the embedding on
concrete inputs. -/
def stand_in_digest (salt : Nat) (msg : List Nat) : List Nat :=
  (List.range 32).map (fun k => (salt + msg.sum + 31 * msg.length + k) % 256)

/-- An instance of the parameters: the limit and the costs are those of the
compute budget the source refers to, the status codes are pairwise distinct
negative values, the digests are stand-ins. -/
def K0 : fd_vm_params where
  FD_VM_SHA256_MAX_SLICES := 20000
  FD_VM_SHA256_BASE_COST := 85
  FD_VM_SHA256_BYTE_COST := 1
  FD_VM_MEM_OP_BASE_COST := 10
  FD_VM_ALIGN_RUST_U8 := 1
  FD_VM_VEC_ALIGN := 8
  FD_VM_SYSCALL_ERR_TOO_MANY_SLICES := -14
  FD_VM_ERR_FAULT := fun _ => -1
  FD_VM_ERR_BUDGET := -2
  sha256 := stand_in_digest 1
  blake3 := stand_in_digest 2
  keccak256 := stand_in_digest 3

/-- Contents of the input region: three descriptors `{1048, 0}`, `{1048, 3}`,
`{1051, 5}` followed by the eight data bytes `1 .. 8` (virtual address 1048). -/
def image0 : List Nat :=
  [ 24, 4, 0, 0, 0, 0, 0, 0,   0, 0, 0, 0, 0, 0, 0, 0,
    24, 4, 0, 0, 0, 0, 0, 0,   3, 0, 0, 0, 0, 0, 0, 0,
    27, 4, 0, 0, 0, 0, 0, 0,   5, 0, 0, 0, 0, 0, 0, 0,
    1, 2, 3, 4, 5, 6, 7, 8 ]

/-- A VM with a read-only input region at virtual address 1000 (host 5000)
holding `image0`, a writable region at virtual address 3000 (host 7000), and a
budget of 200 compute units. -/
def vm0 : fd_vm_t where
  regions := [ ⟨1000, 56, 5000, false⟩, ⟨3000, 64, 7000, true⟩ ]
  mem := fun a => if 5000 ≤ a then image0.getD (a - 5000) 0 else 0
  cu := 200
  log := []
  syscall_err := none
  trace := []

/-- Host addresses of the slice data of `vm0`. -/
def ha0 (j : Nat) : Nat := vec_addr vm0.mem 5000 j + 4000

/-! ## Outcomes named in the statements -/

/-- The call succeeded, `*_ret` is 0 and the 32 bytes at host address `rh` are
those of `digest`. -/
def hashed_outcome (out : fd_vm_syscall_out) (rh : Nat) (digest : List Nat) : Prop :=
  out.status = FD_VM_SUCCESS ∧ out.ret = 0 ∧ ∀ k, k < 32 → out.vm.mem (rh + k) = digest.getD k 0

/-- The call was rejected by the shape check and did nothing but hand `msg` to
the log collector and record the syscall error. -/
def rejected_outcome (K : fd_vm_params) (vm : fd_vm_t) (ret : Nat) (msg : String)
    (out : fd_vm_syscall_out) : Prop :=
  out.status = K.FD_VM_SYSCALL_ERR_TOO_MANY_SLICES ∧
  out.ret = ret ∧
  out.vm.cu = vm.cu ∧
  out.vm.mem = vm.mem ∧
  out.vm.regions = vm.regions ∧
  out.vm.trace = vm.trace ∧
  out.vm.log = vm.log ++ [msg] ∧
  out.vm.syscall_err = some K.FD_VM_SYSCALL_ERR_TOO_MANY_SLICES

/-- The call with no slices succeeded: the digest of the empty message is at
host address `rh`, exactly the base cost was charged, and the only operations
were the base charge, the translation of the output buffer and the
finalization. -/
def empty_outcome (K : fd_vm_params) (vm : fd_vm_t) (result_addr rh : Nat) (digest : List Nat)
    (out : fd_vm_syscall_out) : Prop :=
  hashed_outcome out rh digest ∧
  out.vm.cu + K.FD_VM_SHA256_BASE_COST = vm.cu ∧
  out.vm.trace = vm.trace ++ [ .cu_update K.FD_VM_SHA256_BASE_COST,
    .translate result_addr K.FD_VM_ALIGN_RUST_U8 32 true, .hash_fini rh ]

/-! ## One loop iteration and the total charge -/

/-- Sequencing of a step that may return with the rest of the loop. -/
def fd_vm_res.andThen {α β : Type} (r : fd_vm_res α) (k : α → fd_vm_t → fd_vm_res β) :
    fd_vm_res β :=
  match r with
  | .ok a vm => k a vm
  | .fail err vm => .fail err vm

/-- One loop iteration as the claim describes it, for a slice of length
`val_len` at virtual address `vaddr` whose data translated to host address
`hd`: the amount `claimed_slice_cost K val_len` is charged; if the budget
covers it the slice is fed to the accumulator, otherwise the syscall returns
the budget status. -/
def iteration_outcome (K : fd_vm_params) (vm : fd_vm_t) (sha : List Nat) (vaddr val_len hd : Nat) :
    fd_vm_res (List Nat) :=
  if claimed_slice_cost K val_len ≤ vm.cu then
    .ok (sha ++ read_bytes vm.mem hd val_len)
      { vm with
        cu := vm.cu - claimed_slice_cost K val_len,
        trace := vm.trace ++ [ .translate vaddr K.FD_VM_ALIGN_RUST_U8 val_len false,
          .cu_update (claimed_slice_cost K val_len),
          .hash_append (read_bytes vm.mem hd val_len) ] }
  else
    .fail K.FD_VM_ERR_BUDGET
      { vm with
        cu := 0,
        trace := vm.trace ++ [ .translate vaddr K.FD_VM_ALIGN_RUST_U8 val_len false,
          .cu_update (claimed_slice_cost K val_len) ] }

/-- The slice lengths of the `n` descriptors at host address `vh`. -/
def slice_lens (mem : Nat → Nat) (vh n : Nat) : List Nat :=
  (List.range n).map (vec_len mem vh)

/-- The budget went down by exactly the base cost plus the claimed cost of each
slice length, and these were the charges made, in this order, each once. -/
def charged_exactly (K : fd_vm_params) (vm : fd_vm_t) (lens : List Nat)
    (out : fd_vm_syscall_out) : Prop :=
  out.vm.cu + (K.FD_VM_SHA256_BASE_COST + (lens.map (claimed_slice_cost K)).sum) = vm.cu ∧
  charges out.vm.trace
    = charges vm.trace ++ K.FD_VM_SHA256_BASE_COST :: lens.map (claimed_slice_cost K)

/-! ## Where the translations of a call stop -/

/-- Whether a translation succeeded. -/
def xlat_ok (x : Except fd_vm_fault Nat) : Bool :=
  match x with
  | .ok _ => true
  | .error _ => false

/-- The translation request for the output buffer. -/
def result_xlat (K : fd_vm_params) (vm : fd_vm_t) (result_addr : Nat) : Except fd_vm_fault Nat :=
  fd_vm_translate vm.regions result_addr 32 K.FD_VM_ALIGN_RUST_U8 true

/-- The translation request for the descriptor array. -/
def vec_xlat (K : fd_vm_params) (vm : fd_vm_t) (vals_addr vals_len : Nat) :
    Except fd_vm_fault Nat :=
  fd_vm_translate vm.regions vals_addr ((vals_len * sizeof_fd_vm_vec_t) % 2 ^ 64)
    K.FD_VM_VEC_ALIGN false

/-- The host address of the descriptor array (0 when it does not translate). -/
def vec_haddr (K : fd_vm_params) (vm : fd_vm_t) (vals_addr vals_len : Nat) : Nat :=
  match vec_xlat K vm vals_addr vals_len with
  | .ok h => h
  | .error _ => 0

/-- The first translation of a call that does not succeed, in program order. -/
inductive fd_vm_stop where
  /-- The output buffer does not translate. -/
  | result
  /-- The descriptor array does not translate. -/
  | descriptors
  /-- The data of slice `m` is the first slice data that does not translate. -/
  | slice (m : Nat)
  /-- Every address translates. -/
  | none
  deriving DecidableEq, Repr

/-- The addresses of a call translate up to the stop `p`, and not at `p`. -/
def stops_at (K : fd_vm_params) (vm : fd_vm_t) (vals_addr vals_len result_addr : Nat) :
    fd_vm_stop → Prop
  | .result => xlat_ok (result_xlat K vm result_addr) = false
  | .descriptors =>
    xlat_ok (result_xlat K vm result_addr) = true ∧ 0 < vals_len ∧
      xlat_ok (vec_xlat K vm vals_addr vals_len) = false
  | .slice m =>
    xlat_ok (result_xlat K vm result_addr) = true ∧ m < vals_len ∧
      xlat_ok (vec_xlat K vm vals_addr vals_len) = true ∧
      (∀ j, j < m → xlat_ok (slice_xlat K vm (vec_haddr K vm vals_addr vals_len) j) = true) ∧
      xlat_ok (slice_xlat K vm (vec_haddr K vm vals_addr vals_len) m) = false
  | .none =>
    xlat_ok (result_xlat K vm result_addr) = true ∧
      (0 < vals_len →
        xlat_ok (vec_xlat K vm vals_addr vals_len) = true ∧
        ∀ j, j < vals_len →
          xlat_ok (slice_xlat K vm (vec_haddr K vm vals_addr vals_len) j) = true)

instance (K : fd_vm_params) (vm : fd_vm_t) (vals_addr vals_len result_addr : Nat)
    (p : fd_vm_stop) : Decidable (stops_at K vm vals_addr vals_len result_addr p) := by
  cases p <;> unfold stops_at <;> infer_instance

/-- The input region of `vm0` with the data address of descriptor 1 replaced by
the unmapped address 9000. -/
def image1 : List Nat :=
  [ 24, 4, 0, 0, 0, 0, 0, 0,   0, 0, 0, 0, 0, 0, 0, 0,
    40, 35, 0, 0, 0, 0, 0, 0,  3, 0, 0, 0, 0, 0, 0, 0,
    27, 4, 0, 0, 0, 0, 0, 0,   5, 0, 0, 0, 0, 0, 0, 0,
    1, 2, 3, 4, 5, 6, 7, 8 ]

/-- The VM `vm0` with `image1` in the input region. -/
def vm1 : fd_vm_t :=
  { vm0 with mem := fun a => if 5000 ≤ a then image1.getD (a - 5000) 0 else 0 }

/-- The input region of `vm0` with the data address of descriptor 1 replaced by
1054, whose 3 bytes run past the end of the region. -/
def image2 : List Nat :=
  [ 24, 4, 0, 0, 0, 0, 0, 0,   0, 0, 0, 0, 0, 0, 0, 0,
    30, 4, 0, 0, 0, 0, 0, 0,   3, 0, 0, 0, 0, 0, 0, 0,
    27, 4, 0, 0, 0, 0, 0, 0,   5, 0, 0, 0, 0, 0, 0, 0,
    1, 2, 3, 4, 5, 6, 7, 8 ]

/-- The VM `vm0` with `image2` in the input region. -/
def vm2 : fd_vm_t :=
  { vm0 with mem := fun a => if 5000 ≤ a then image2.getD (a - 5000) 0 else 0 }

/-- The slice costs that a call stopping at `p` reaches: those of the slices
before the stop. -/
def stop_cost (K : fd_vm_params) (vm : fd_vm_t) (vals_addr vals_len : Nat) : fd_vm_stop → Nat
  | .slice m => slices_cost K vm.mem (vec_haddr K vm vals_addr vals_len) 0 m
  | .none => slices_cost K vm.mem (vec_haddr K vm vals_addr vals_len) 0 vals_len
  | _ => 0

/-- The number of slices whose cost a call stopping at `p` reaches: none when
the output buffer or the descriptor array does not translate, the `m` slices
before the first slice data that does not translate, all `vals_len` slices
when every address translates. -/
def stop_slices (vals_len : Nat) : fd_vm_stop → Nat
  | .slice m => m
  | .none => vals_len
  | _ => 0

/-- What two calls returning `out1` and `out2` took from the budget, given the
stops `p1` and `p2` of their translations.  Over the slice limit nothing is
charged.  Within the limit each call is charged the base cost plus the costs
of the slices before its own stop, and no more than the whole budget: a call
that stops at `result_addr` or at the descriptor array is charged the base
cost alone, a call that stops at the data of slice `m` the base cost and the
costs of slices `0 .. m-1`.  Two calls that reach the same number of slices
are charged the same, and a call that reaches fewer slices is never charged
more. -/
def charged_by_stop (K : fd_vm_params) (vm1 vm2 : fd_vm_t)
    (vals_addr1 vals_addr2 vals_len : Nat) (p1 p2 : fd_vm_stop)
    (out1 out2 : fd_vm_syscall_out) : Prop :=
  (K.FD_VM_SHA256_MAX_SLICES < vals_len →
    vm1.cu - out1.vm.cu = 0 ∧ vm2.cu - out2.vm.cu = 0) ∧
  (vals_len ≤ K.FD_VM_SHA256_MAX_SLICES →
    vm1.cu - out1.vm.cu
      = min vm1.cu (K.FD_VM_SHA256_BASE_COST + stop_cost K vm1 vals_addr1 vals_len p1) ∧
    vm2.cu - out2.vm.cu
      = min vm2.cu (K.FD_VM_SHA256_BASE_COST + stop_cost K vm2 vals_addr2 vals_len p2)) ∧
  (stop_slices vals_len p1 = stop_slices vals_len p2 →
    vm1.cu - out1.vm.cu = vm2.cu - out2.vm.cu) ∧
  (stop_slices vals_len p1 ≤ stop_slices vals_len p2 →
    vm1.cu - out1.vm.cu ≤ vm2.cu - out2.vm.cu)

/-! ## Outcomes of the early returns -/

/-- The call returned the fault `f` met at the data of slice `i`: the base
cost and the costs of slices `0 .. i-1` stay charged and nothing else is,
memory and `*_ret` are untouched, and the last operation is the translation of
the data of slice `i`. -/
def slice_fault_outcome (K : fd_vm_params) (vm : fd_vm_t) (vals_addr vals_len result_addr ret : Nat)
    (vh : Nat) (ha : Nat → Nat) (i : Nat) (f : fd_vm_fault) (out : fd_vm_syscall_out) : Prop :=
  out.status = K.FD_VM_ERR_FAULT f ∧
  out.vm.cu + (K.FD_VM_SHA256_BASE_COST + slices_cost K vm.mem vh 0 i) = vm.cu ∧
  out.vm.mem = vm.mem ∧
  out.ret = ret ∧
  out.vm.trace = vm.trace ++
    [ .cu_update K.FD_VM_SHA256_BASE_COST,
      .translate result_addr K.FD_VM_ALIGN_RUST_U8 32 true,
      .translate vals_addr K.FD_VM_VEC_ALIGN ((vals_len * sizeof_fd_vm_vec_t) % 2 ^ 64) false ]
    ++ slices_events K vm.mem vh ha 0 i
    ++ [ .translate (vec_addr vm.mem vh i) K.FD_VM_ALIGN_RUST_U8 (vec_len vm.mem vh i) false ]

/-- The call returned the fault `f` met at the output buffer: exactly the base
cost was charged, memory and `*_ret` are untouched, and the only operations
were the base charge and the translation of the output buffer. -/
def result_fault_outcome (K : fd_vm_params) (vm : fd_vm_t) (result_addr ret : Nat)
    (f : fd_vm_fault) (out : fd_vm_syscall_out) : Prop :=
  out.status = K.FD_VM_ERR_FAULT f ∧
  out.vm.cu + K.FD_VM_SHA256_BASE_COST = vm.cu ∧
  out.vm.mem = vm.mem ∧
  out.ret = ret ∧
  out.vm.trace = vm.trace ++
    [ .cu_update K.FD_VM_SHA256_BASE_COST, .translate result_addr K.FD_VM_ALIGN_RUST_U8 32 true ]

/-- A charge of the call exceeds the budget remaining when it is made: the
base cost, or the cost of some slice `k` reached after the output buffer, the
descriptor array and the data of slices `0 .. k` translated. -/
def budget_exhausted (K : fd_vm_params) (vm : fd_vm_t) (vals_addr vals_len result_addr : Nat) :
    Prop :=
  vm.cu < K.FD_VM_SHA256_BASE_COST ∨
  ∃ k, k < vals_len ∧
    xlat_ok (result_xlat K vm result_addr) = true ∧
    xlat_ok (vec_xlat K vm vals_addr vals_len) = true ∧
    (∀ j, j < k + 1 → xlat_ok (slice_xlat K vm (vec_haddr K vm vals_addr vals_len) j) = true) ∧
    K.FD_VM_SHA256_BASE_COST + slices_cost K vm.mem (vec_haddr K vm vals_addr vals_len) 0 k
      ≤ vm.cu ∧
    vm.cu < K.FD_VM_SHA256_BASE_COST
      + slices_cost K vm.mem (vec_haddr K vm vals_addr vals_len) 0 (k + 1)

/-- The call returned the budget status, which is not success; the budget is
at zero, memory and `*_ret` are untouched and the accumulator was not
finalized. -/
def budget_outcome (K : fd_vm_params) (vm : fd_vm_t) (ret : Nat) (out : fd_vm_syscall_out) : Prop :=
  out.status = K.FD_VM_ERR_BUDGET ∧
  out.status ≠ FD_VM_SUCCESS ∧
  out.vm.cu = 0 ∧
  out.vm.mem = vm.mem ∧
  out.ret = ret ∧
  ∃ t, out.vm.trace = vm.trace ++ t ∧ ∀ h, fd_vm_event.hash_fini h ∉ t

/-! ## Vocabulary of claims C11 - C17 -/

/-- The per-slice cost computed over the unbounded naturals and then clamped to
`2^64-1`. -/
def clamped_slice_cost (K : fd_vm_params) (len : Nat) : Nat :=
  min (max K.FD_VM_MEM_OP_BASE_COST (K.FD_VM_SHA256_BYTE_COST * (len / 2))) (2 ^ 64 - 1)

/-- An instance of the parameters with the largest 64-bit per-byte rate. -/
def K1 : fd_vm_params := { K0 with FD_VM_SHA256_BYTE_COST := 2 ^ 64 - 1 }

/-- The message a call hashes: the concatenation, in index order, of the slices
named by the descriptor array, read from the memory of `vm`. -/
def hashed_message (K : fd_vm_params) (vm : fd_vm_t) (vals_addr vals_len : Nat) : List Nat :=
  slices_concat vm.mem (vec_haddr K vm vals_addr vals_len)
    (slice_haddr K vm (vec_haddr K vm vals_addr vals_len)) 0 vals_len

/-- The result register after a call that was entered with `*_ret = ret`: 0 if
the returned status is `FD_VM_SUCCESS` (which is 0), and untouched otherwise. -/
def ret_written_on_success_only (ret : Nat) (out : fd_vm_syscall_out) : Prop :=
  (out.status = FD_VM_SUCCESS → out.status = 0 ∧ out.ret = 0) ∧
  (out.status ≠ FD_VM_SUCCESS → out.ret = ret)

/-- Relative to the memory `mem` before the call, `out` has exactly the 32
bytes at the translated address of `result_addr` overwritten, with the bytes
of `digest`; every other byte keeps its value. -/
def overwrites_exactly (K : fd_vm_params) (vm : fd_vm_t) (result_addr : Nat) (digest : List Nat)
    (out : fd_vm_syscall_out) : Prop :=
  ∃ rh, result_xlat K vm result_addr = .ok rh ∧
    (∀ k, k < 32 → out.vm.mem (rh + k) = digest.getD k 0) ∧
    (∀ a, a < rh ∨ rh + 32 ≤ a → out.vm.mem a = vm.mem a)

/-- Contents of a writable region at virtual address 3000: three descriptors
`{3048, 0}`, `{3048, 3}`, `{3051, 5}` followed by the data bytes `1 .. 8`. -/
def image3 : List Nat :=
  [ 232, 11, 0, 0, 0, 0, 0, 0,  0, 0, 0, 0, 0, 0, 0, 0,
    232, 11, 0, 0, 0, 0, 0, 0,  3, 0, 0, 0, 0, 0, 0, 0,
    235, 11, 0, 0, 0, 0, 0, 0,  5, 0, 0, 0, 0, 0, 0, 0,
    1, 2, 3, 4, 5, 6, 7, 8 ]

/-- A VM with a single writable region at virtual address 3000 (host 7000)
that holds both the input `image3` and the output buffer. -/
def vm3 : fd_vm_t where
  regions := [ ⟨3000, 128, 7000, true⟩ ]
  mem := fun a => if 7000 ≤ a then image3.getD (a - 7000) 0 else 0
  cu := 200
  log := []
  syscall_err := none
  trace := []

/-- Two outcomes of one call agree in the status, in `*_ret`, in the remaining
budget, in the sequence of operations (charges, translations, hash calls), in
the memory map, in the recorded error, and in every byte of memory outside the
32 bytes of the translated output buffer of `result_addr`. -/
def same_dispatch (K : fd_vm_params) (vm : fd_vm_t) (result_addr : Nat)
    (a b : fd_vm_syscall_out) : Prop :=
  a.status = b.status ∧ a.ret = b.ret ∧ a.vm.cu = b.vm.cu ∧ a.vm.trace = b.vm.trace ∧
  a.vm.regions = b.vm.regions ∧ a.vm.syscall_err = b.vm.syscall_err ∧
  ∀ addr, (∀ rh, result_xlat K vm result_addr = .ok rh → addr < rh ∨ rh + 32 ≤ addr) →
    a.vm.mem addr = b.vm.mem addr

/-- The log after a call: the too-many-slices message carrying the display
name `name` when the limit is exceeded, and nothing new otherwise. -/
def logged (K : fd_vm_params) (vm : fd_vm_t) (name : String) (vals_len : Nat)
    (out : fd_vm_syscall_out) : Prop :=
  out.vm.log = if K.FD_VM_SHA256_MAX_SLICES < vals_len
    then vm.log ++ [too_many_slices_msg name vals_len K.FD_VM_SHA256_MAX_SLICES]
    else vm.log

/-- The message starts with the display name, has at most `bound` characters
and so fits the 127-character limit of the log collector call. -/
def bounded_msg (name : String) (bound : Nat) (msg : String) : Prop :=
  (∃ rest, msg = name ++ rest) ∧ msg.length ≤ bound ∧ msg.length < 127

/-- The three hash algorithms. -/
inductive hash_alg where
  | sha256
  | blake3
  | keccak256
  deriving DecidableEq, Repr

/-- The hash syscall of an algorithm. -/
def fd_vm_syscall_sol (alg : hash_alg) (K : fd_vm_params) (vm : fd_vm_t)
    (vals_addr vals_len result_addr r4 r5 ret : Nat) : fd_vm_syscall_out :=
  match alg with
  | .sha256 => fd_vm_syscall_sol_sha256 K vm vals_addr vals_len result_addr r4 r5 ret
  | .blake3 => fd_vm_syscall_sol_blake3 K vm vals_addr vals_len result_addr r4 r5 ret
  | .keccak256 => fd_vm_syscall_sol_keccak256 K vm vals_addr vals_len result_addr r4 r5 ret

/-- A call meets a translation fault: its translations stop at some `p` other
than `none`, and the budget covers the charges made before that translation. -/
def fault_reached (K : fd_vm_params) (vm : fd_vm_t) (vals_addr vals_len result_addr : Nat) :
    Prop :=
  ∃ p, p ≠ fd_vm_stop.none ∧ stops_at K vm vals_addr vals_len result_addr p ∧
    K.FD_VM_SHA256_BASE_COST + stop_cost K vm vals_addr vals_len p ≤ vm.cu

/-- Three statuses are pairwise different and none is 0. -/
def distinguishable (a b c : Int) : Prop :=
  a ≠ b ∧ a ≠ c ∧ b ≠ c ∧ a ≠ 0 ∧ b ≠ 0 ∧ c ≠ 0

/-- The operations of a call up to and including the translation of the
descriptor array, requested with size `sz`. -/
def ops_to_descriptors (K : fd_vm_params) (vals_addr result_addr sz : Nat) : List fd_vm_event :=
  [ .cu_update K.FD_VM_SHA256_BASE_COST,
    .translate result_addr K.FD_VM_ALIGN_RUST_U8 32 true,
    .translate vals_addr K.FD_VM_VEC_ALIGN sz false ]

/-- The call requested the descriptor array as one block of exactly
`vals_len * 16` bytes. -/
def descriptors_requested (K : fd_vm_params) (vm : fd_vm_t) (vals_addr vals_len result_addr : Nat)
    (out : fd_vm_syscall_out) : Prop :=
  ∃ rest, out.vm.trace
    = vm.trace ++ ops_to_descriptors K vals_addr result_addr (vals_len * 16) ++ rest

end FdVm

/-! ## The monitor command: `src/app/shared/commands/monitor/monitor.c`

`long` values are integers, wrapped to 64 bits where the C code subtracts
them.  `FD_LOG_ERR` logs its message and terminates the process: a function
that reaches it yields `Except.error` with the message. -/

namespace FdMonitor

/-- The command line as `monitor_cmd_args` sees it through the
`fd_env_strip_cmdline_*` functions and `fd_tickcount`, which are declared in
util, outside src: each function is a parameter, from the key (and the
default) to the value returned. -/
structure fd_env_cmdline where
  /-- `fd_env_strip_cmdline_long( pargc, pargv, key, NULL, dflt )`. -/
  strip_cmdline_long : String → Int → Int
  /-- `fd_env_strip_cmdline_uint( pargc, pargv, key, NULL, dflt )`. -/
  strip_cmdline_uint : String → Nat → Nat
  /-- `fd_env_strip_cmdline_contains( pargc, pargv, key )`. -/
  strip_cmdline_contains : String → Bool
  /-- `fd_tickcount()`. -/
  tickcount : Int

/-- The fields of `args->monitor` that `monitor_cmd_args` sets (the
floating-point field `ns_per_tic` is not represented). -/
structure monitor_args_t where
  drain_output_fd : Int
  dt_min : Int
  dt_max : Int
  duration : Int
  seed : Nat
  with_bench : Bool
  with_sankey : Bool
  deriving DecidableEq, Repr

/-- Embedding of `monitor_cmd_args` (lines 24-41). -/
def monitor_cmd_args (env : fd_env_cmdline) : Except String monitor_args_t :=
  let args : monitor_args_t :=
    { drain_output_fd := -1,
      dt_min := env.strip_cmdline_long "--dt-min" 6666667,
      dt_max := env.strip_cmdline_long "--dt-max" 133333333,
      duration := env.strip_cmdline_long "--duration" 0,
      seed := env.strip_cmdline_uint "--seed" (env.tickcount % 2 ^ 32).toNat,
      with_bench := env.strip_cmdline_contains "--bench",
      with_sankey := env.strip_cmdline_contains "--sankey" }
  if args.dt_min < 0 then .error "--dt-min should be positive"
  else if args.dt_max < args.dt_min then .error "--dt-max should be at least --dt-min"
  else if args.duration < 0 then .error "--duration should be non-negative"
  else .ok args

/-- A command line that gives `--dt-min`, `--dt-max` and `--duration` the
values `dt_min`, `dt_max` and `duration`, and nothing else. -/
def cmdline_of (dt_min dt_max duration : Int) : fd_env_cmdline where
  strip_cmdline_long := fun key dflt =>
    if key = "--dt-min" then dt_min
    else if key = "--dt-max" then dt_max
    else if key = "--duration" then duration
    else dflt
  strip_cmdline_uint := fun _ dflt => dflt
  strip_cmdline_contains := fun _ => false
  tickcount := 42

/-- The largest `long`. -/
def LONG_MAX : Int := 2 ^ 63 - 1

/-- A 64-bit two's complement result of `long` arithmetic. -/
def wrap_long (x : Int) : Int := (x + 2 ^ 63) % 2 ^ 64 - 2 ^ 63

/-- What one iteration of the snapshot loop observes: the wallclock `now` of
`fd_tempo_observe_pair` and the character `c` returned by `fd_getchar`
(declared in `helper.h`, outside src). -/
structure monitor_obs where
  now : Int
  c : Int

/-- How a run of the snapshot loop stands: the number of pretty prints so far
(writes of the whole monitor buffer, line 525) and whether the loop has been
left. -/
structure monitor_run where
  prints : Nat
  stopped : Bool
  deriving DecidableEq, Repr

/-- The value of `stop` computed at lines 305-306. -/
def monitor_stop (then_ duration : Int) : Int :=
  if duration = 0 then LONG_MAX else wrap_long (then_ + duration)

/-- The control flow of the loop `for(;;)` of `run_monitor` (lines 329-535),
for at most `fuel` iterations; `iter` counts the iterations done and indexes
the observations.  Ctrl-D (`'\x04'`) leaves the loop before the print of that
iteration (line 358); after the print the loop is left when `stop1` is set or
`(now-stop)>=0L` (line 527).  The contents printed are not represented. -/
def monitor_loop (stop : Int) (stop1 : Bool) (obs : Nat → monitor_obs) :
    Nat → Nat → Nat → monitor_run
  | 0, _, prints => ⟨prints, false⟩
  | fuel + 1, iter, prints =>
    if (obs iter).c = 4 then ⟨prints, true⟩
    else if stop1 || decide (0 ≤ wrap_long ((obs iter).now - stop)) then ⟨prints + 1, true⟩
    else monitor_loop stop stop1 obs fuel (iter + 1) (prints + 1)

/-- The control flow of `run_monitor` (lines 271-536) from the first
observation `then_` on, for at most `fuel` iterations of the loop. -/
def run_monitor (duration then_ : Int) (stop1 : Bool) (obs : Nat → monitor_obs) (fuel : Nat) :
    monitor_run :=
  monitor_loop (monitor_stop then_ duration) stop1 obs fuel 0 0

/-- Observations of a run in which no key is pressed: iteration `i` sees the
wallclock `1000 + 10 * (i + 1)` and no character. -/
def quiet_obs (i : Nat) : monitor_obs := ⟨1000 + 10 * (i + 1), 0⟩

/-! ## `find_producer_out_idx` -/

/-- The fields of `fd_topo_tile_t` (declared in disco/topo, outside src) that
`find_producer_out_idx` reads; the arrays are functions from the index. -/
structure fd_topo_tile_t where
  in_cnt : Nat
  in_link_id : Nat → Nat
  in_link_reliable : Nat → Bool
  out_cnt : Nat
  out_link_id : Nat → Nat

/-- The fields of `fd_topo_t` (declared in disco/topo, outside src) that
`find_producer_out_idx` reads. -/
structure fd_topo_t where
  tile_cnt : Nat
  tiles : Nat → fd_topo_tile_t

/-- Where the loop nest of `find_producer_out_idx` stands: it has executed
`return v`, or it goes on with the counter `reliable_cons_cnt = cnt`. -/
inductive scan_t where
  | ret (v : Nat)
  | go (cnt : Nat)
  deriving DecidableEq, Repr

/-- The loop over `k` (lines 137-142) for input `j` of tile `i`; the first
numeric argument is the number of iterations left, `producer->out_cnt - k`.
The pointer `consumer` is the index of the tile it points to, so
`consumer==consumer_tile` is `consumer = i`; `reliable_cons_cnt++` is a 64-bit
increment. -/
def find_loop_k (topo : fd_topo_t) (producer : fd_topo_tile_t) (consumer consumer_in_idx : Nat)
    (i j : Nat) : Nat → Nat → Nat → scan_t
  | 0, _, cnt => .go cnt
  | n + 1, k, cnt =>
    if (topo.tiles i).in_link_id j = producer.out_link_id k
        ∧ (topo.tiles i).in_link_reliable j = true then
      if consumer = i ∧ consumer_in_idx = j then .ret cnt
      else find_loop_k topo producer consumer consumer_in_idx i j n (k + 1) ((cnt + 1) % 2 ^ 64)
    else find_loop_k topo producer consumer consumer_in_idx i j n (k + 1) cnt

/-- The loop over `j` (lines 136-143) for tile `i`. -/
def find_loop_j (topo : fd_topo_t) (producer : fd_topo_tile_t) (consumer consumer_in_idx : Nat)
    (i : Nat) : Nat → Nat → Nat → scan_t
  | 0, _, cnt => .go cnt
  | n + 1, j, cnt =>
    match find_loop_k topo producer consumer consumer_in_idx i j producer.out_cnt 0 cnt with
    | .ret v => .ret v
    | .go cnt => find_loop_j topo producer consumer consumer_in_idx i n (j + 1) cnt

/-- The loop over `i` (lines 134-144). -/
def find_loop_i (topo : fd_topo_t) (producer : fd_topo_tile_t) (consumer consumer_in_idx : Nat) :
    Nat → Nat → Nat → scan_t
  | 0, _, cnt => .go cnt
  | n + 1, i, cnt =>
    match find_loop_j topo producer consumer consumer_in_idx i (topo.tiles i).in_cnt 0 cnt with
    | .ret v => .ret v
    | .go cnt => find_loop_i topo producer consumer consumer_in_idx n (i + 1) cnt

/-- Embedding of `find_producer_out_idx` (lines 117-147). -/
def find_producer_out_idx (topo : fd_topo_t) (producer : fd_topo_tile_t)
    (consumer consumer_in_idx : Nat) : Nat :=
  match find_loop_i topo producer consumer consumer_in_idx topo.tile_cnt 0 0 with
  | .ret v => v
  | .go _ => FdVm.ULONG_MAX

/-- A (tile, in, out) triple. -/
abbrev triple_t : Type := Nat × Nat × Nat

/-- All (tile, in, out) triples in tile-then-input-then-output order. -/
def topo_triples (topo : fd_topo_t) (producer : fd_topo_tile_t) : List triple_t :=
  (List.range topo.tile_cnt).flatMap (fun i =>
    (List.range (topo.tiles i).in_cnt).flatMap (fun j =>
      (List.range producer.out_cnt).map (fun k => (i, j, k))))

/-- The triple matches: the input is reliable and its link id is that of the
output. -/
def triple_matches (topo : fd_topo_t) (producer : fd_topo_tile_t) (t : triple_t) : Bool :=
  decide ((topo.tiles t.1).in_link_id t.2.1 = producer.out_link_id t.2.2
    ∧ (topo.tiles t.1).in_link_reliable t.2.1 = true)

/-- The matching triples, in order. -/
def matching_triples (topo : fd_topo_t) (producer : fd_topo_tile_t) : List triple_t :=
  (topo_triples topo producer).filter (triple_matches topo producer)

/-- The triple is one of input `consumer_in_idx` of tile `consumer`. -/
def triple_of_input (consumer consumer_in_idx : Nat) (t : triple_t) : Bool :=
  decide (consumer = t.1 ∧ consumer_in_idx = t.2.1)

/-- Input `consumer_in_idx` of tile `consumer` is a reliable input whose link
id equals one of the producer's `out_link_id` entries. -/
def reliable_input_of (topo : fd_topo_t) (producer : fd_topo_tile_t)
    (consumer consumer_in_idx : Nat) : Prop :=
  consumer < topo.tile_cnt ∧ consumer_in_idx < (topo.tiles consumer).in_cnt ∧
  (topo.tiles consumer).in_link_reliable consumer_in_idx = true ∧
  ∃ k, k < producer.out_cnt ∧
    (topo.tiles consumer).in_link_id consumer_in_idx = producer.out_link_id k

/-- The number of matching triples that precede the first match of the
input. -/
def preceding_matches (topo : fd_topo_t) (producer : fd_topo_tile_t)
    (consumer consumer_in_idx : Nat) : Nat :=
  ((matching_triples topo producer).takeWhile
    (fun t => !triple_of_input consumer consumer_in_idx t)).length

/-- A tile with the given input links (id, reliable) and output links. -/
def tile_of (ins : List (Nat × Bool)) (outs : List Nat) : fd_topo_tile_t where
  in_cnt := ins.length
  in_link_id := fun j => (ins.getD j (0, false)).1
  in_link_reliable := fun j => (ins.getD j (0, false)).2
  out_cnt := outs.length
  out_link_id := fun k => outs.getD k 0

/-- A topology of three tiles: tile 0 produces links 7 and 8; tile 1 consumes
link 7 reliably and link 9 reliably; tile 2 consumes link 8 unreliably and
link 7 reliably. -/
def topo0 : fd_topo_t where
  tile_cnt := 3
  tiles := fun i =>
    if i = 0 then tile_of [] [7, 8]
    else if i = 1 then tile_of [(7, true), (9, true)] [9]
    else tile_of [(8, false), (7, true)] []

/-- The loop nest of `find_producer_out_idx` run over an explicit list of
triples: a matching triple of the wanted input returns the counter, any other
matching triple increments it. -/
def scan_list (topo : fd_topo_t) (producer : fd_topo_tile_t) (consumer consumer_in_idx : Nat) :
    List triple_t → Nat → scan_t
  | [], cnt => .go cnt
  | t :: ts, cnt =>
    if triple_matches topo producer t then
      if triple_of_input consumer consumer_in_idx t then .ret cnt
      else scan_list topo producer consumer consumer_in_idx ts ((cnt + 1) % 2 ^ 64)
    else scan_list topo producer consumer consumer_in_idx ts cnt

/-! ## `drain_to_buffer` -/

/-- Size of the monitor text buffers `buffer` and `buffer2`. -/
def FD_MONITOR_TEXT_BUF_SZ : Nat := 131072

/-- Outcomes of `read( fd, buffer2, *buf_sz )`: `-1` with `errno == EAGAIN`,
`-1` with another `errno`, or `nread` bytes placed in `buffer2`. -/
inductive read_t where
  | eagain
  | failed
  | data (bytes : List Nat)
  deriving DecidableEq, Repr

/-- What surrounds `drain_to_buffer`: the bytes of `TEXT_NEWLINE` (defined in
`helper.h`, outside src), the result of the `n`-th `read` of the descriptor as
a function of the requested size, and whether the `n`-th `write_stdout` call
returns (`false`: it ends in `FD_LOG_ERR`). -/
structure drain_env where
  TEXT_NEWLINE : List Nat
  rd : Nat → Nat → read_t
  wr : Nat → Bool

/-- Ghost record of a run: every `fd_memcpy` into the text buffer, with the
offset `*buf - buffer` it writes at, its length and the value of `*buf_sz`
just before it; and the cursor after every complete line. -/
inductive drain_event where
  | copy (off len buf_sz : Nat)
  | line_done (buf buf_sz : Nat)
  deriving DecidableEq, Repr

/-- State of `drain_to_buffer`: `buf` is the offset `*buf - buffer`, `buf_sz`
is `*buf_sz`, `buffer` the contents of the text buffer, `stdout` the blocks
written by `write_stdout`, `events` the ghost record. -/
structure drain_t where
  buf : Nat
  buf_sz : Nat
  buffer : Nat → Nat
  stdout : List (List Nat)
  events : List drain_event

/-- Subtraction of `ulong` values, modulo `2^64`. -/
def sub_ulong (a b : Nat) : Nat := (a + 2 ^ 64 - b) % 2 ^ 64

/-- Copy of `len` bytes of `src` to offset `off` of the text buffer. -/
def fd_memcpy (dst : Nat → Nat) (off : Nat) (src : List Nat) (len : Nat) : Nat → Nat :=
  fun a => if off ≤ a ∧ a < off + len then src.getD (a - off) 0 else dst a

/-- The index of the first byte `c` among the `n` bytes of `s` from index
`ptr` on, if there is one. -/
def memchr (s : List Nat) (ptr c n : Nat) : Option Nat :=
  if ((s.drop ptr).take n).findIdx (fun b => b == c) < ((s.drop ptr).take n).length then
    some (ptr + ((s.drop ptr).take n).findIdx (fun b => b == c))
  else none

/-- Call `write_stdout( buffer, n )`: the first `n` bytes of the text buffer
reach stdout, or the call ends in `FD_LOG_ERR` (result `error`, with the state
at that point). -/
def write_stdout (E : drain_env) (n : Nat) (st : drain_t) : Except drain_t drain_t :=
  if E.wr st.stdout.length then
    .ok { st with stdout := st.stdout ++ [FdVm.read_bytes st.buffer 0 n] }
  else .error st

/-- The guard before each copy: when `*buf_sz < need` the buffer is written
out and the cursor is reset to the start of the buffer. -/
def drain_flush (E : drain_env) (need : Nat) (st : drain_t) : Except drain_t drain_t :=
  if st.buf_sz < need then
    match write_stdout E (sub_ulong FD_MONITOR_TEXT_BUF_SZ st.buf_sz) st with
    | .ok st1 => .ok { st1 with buf := 0, buf_sz := FD_MONITOR_TEXT_BUF_SZ }
    | .error st1 => .error st1
  else .ok st

/-- The three statements `fd_memcpy( *buf, src, len ); *buf += len;
*buf_sz -= len;`. -/
def drain_copy (src : List Nat) (len : Nat) (st : drain_t) : drain_t :=
  { st with
    buffer := fd_memcpy st.buffer st.buf src len
    buf := st.buf + len
    buf_sz := sub_ulong st.buf_sz len
    events := st.events ++ [.copy st.buf len st.buf_sz] }

/-- Body of the inner loop for the line `ptr .. next` of the chunk read into
`buffer2`: the line is copied, then `TEXT_NEWLINE`. -/
def drain_line (E : drain_env) (chunk : List Nat) (ptr next : Nat) (st : drain_t) :
    Except drain_t drain_t :=
  match drain_flush E (next - ptr) st with
  | .error s => .error s
  | .ok st1 =>
    match drain_flush E E.TEXT_NEWLINE.length
        (drain_copy (chunk.drop ptr) (next - ptr) st1) with
    | .error s => .error s
    | .ok st2 =>
      .ok { drain_copy E.TEXT_NEWLINE E.TEXT_NEWLINE.length st2 with
            events := (drain_copy E.TEXT_NEWLINE E.TEXT_NEWLINE.length st2).events
              ++ [.line_done (drain_copy E.TEXT_NEWLINE E.TEXT_NEWLINE.length st2).buf
                    (drain_copy E.TEXT_NEWLINE E.TEXT_NEWLINE.length st2).buf_sz] }

/-- The inner loop `while(( next = memchr( ptr, 10, nread - (ptr - buffer2) )))`
over the `nread` bytes `chunk`; `ptr` is the offset `ptr - buffer2`.  Every
iteration moves `ptr` forward, so a fuel of `nread + 1` is never used up
(`drain_lines_fuel`). -/
def drain_lines (E : drain_env) (chunk : List Nat) : Nat → Nat → drain_t → Except drain_t drain_t
  | 0, _, st => .ok st
  | fuel + 1, ptr, st =>
    match memchr chunk ptr 10 (chunk.length - ptr) with
    | none => .ok st
    | some next =>
      match drain_line E chunk ptr next st with
      | .error s => .error s
      | .ok st1 => drain_lines E chunk fuel (next + 1) st1

/-- How a run of `drain_to_buffer` ends: the `break` on `EAGAIN`, an
`FD_LOG_ERR`, or still in the `while(1)` after the reads considered. -/
inductive drain_status where
  | returned
  | log_err
  | running
  deriving DecidableEq, Repr

/-- The outer `while(1)`, from the `call`-th read on, for at most `fuel`
reads. -/
def drain_loop (E : drain_env) : Nat → Nat → drain_t → drain_status × drain_t
  | 0, _, st => (.running, st)
  | fuel + 1, call, st =>
    match E.rd call st.buf_sz with
    | .eagain => (.returned, st)
    | .failed => (.log_err, st)
    | .data chunk =>
      match drain_lines E chunk (chunk.length + 1) 0 st with
      | .error s => (.log_err, s)
      | .ok st1 => drain_loop E fuel (call + 1) st1

/-- Run of `drain_to_buffer( buf, buf_sz, fd )` for at most `fuel` reads. -/
def drain_to_buffer (E : drain_env) (fuel : Nat) (st : drain_t) : drain_status × drain_t :=
  drain_loop E fuel 0 st

/-- The state carried by a result, whether the run went on or ended in
`FD_LOG_ERR`. -/
def drain_state_of : Except drain_t drain_t → drain_t
  | .ok s => s
  | .error s => s

/-- The cursor relation `*buf == buffer + (FD_MONITOR_TEXT_BUF_SZ - *buf_sz)`
with `*buf_sz <= FD_MONITOR_TEXT_BUF_SZ`. -/
def cursor_ok (buf buf_sz : Nat) : Prop :=
  buf_sz ≤ FD_MONITOR_TEXT_BUF_SZ ∧ buf = FD_MONITOR_TEXT_BUF_SZ - buf_sz

/-- What is asked of a recorded event: a copy of `len` bytes happens with
`len <= *buf_sz` and the cursor relation holding just before it (so the copy
stays inside the buffer and `*buf_sz -= len` does not underflow); after a line
the cursor relation holds. -/
def event_ok : drain_event → Prop
  | .copy off len buf_sz => len ≤ buf_sz ∧ cursor_ok off buf_sz
  | .line_done buf buf_sz => cursor_ok buf buf_sz

/-- The cursor relation holds and every recorded event is as asked. -/
def drain_ok (st : drain_t) : Prop :=
  cursor_ok st.buf st.buf_sz ∧ ∀ e ∈ st.events, event_ok e

/-- The bytes of a string, as `read` delivers them. -/
def bytes_of (s : String) : List Nat := s.toList.map Char.toNat

/-- An environment: `TEXT_NEWLINE` is the five bytes `ESC [ 0 K LF`; the first
read delivers (at most the requested number of bytes of) two lines and the
start of a third, the second read reports `EAGAIN`; `write_stdout` returns. -/
def env0 : drain_env :=
  { TEXT_NEWLINE := [27, 91, 48, 75, 10]
    rd := fun call req => if call = 0 then .data ((bytes_of "ab\ncde\nfg").take req) else .eagain
    wr := fun _ => true }

/-- Entry state with an empty text buffer. -/
def drain0 : drain_t :=
  { buf := 0, buf_sz := FD_MONITOR_TEXT_BUF_SZ, buffer := fun _ => 0, stdout := [], events := [] }

/-- Entry state with only 7 bytes left in the text buffer. -/
def drain1 : drain_t :=
  { buf := FD_MONITOR_TEXT_BUF_SZ - 7, buf_sz := 7, buffer := fun _ => 0, stdout := [],
    events := [] }

end FdMonitor

namespace FdVm

/-! ## Transfer lemmas -/

theorem blake3_loop_eq (K : fd_vm_params) (vh : Nat) :
    ∀ n i vm sha, blake3_loop K vh n i vm sha = sha256_loop K vh n i vm sha := by
  intro n
  induction n with
  | zero => intro i vm sha; rfl
  | succ n ih =>
    intro i vm sha
    simp only [blake3_loop, sha256_loop, fd_blake3_append, fd_sha256_append, ih]

theorem keccak256_loop_eq (K : fd_vm_params) (vh : Nat) :
    ∀ n i vm sha, keccak256_loop K vh n i vm sha = sha256_loop K vh n i vm sha := by
  intro n
  induction n with
  | zero => intro i vm sha; rfl
  | succ n ih =>
    intro i vm sha
    simp only [keccak256_loop, sha256_loop, fd_keccak256_append, fd_sha256_append, ih]

theorem sha256_eq_core (K : fd_vm_params) (vm : fd_vm_t) (vals_addr vals_len result_addr r4 r5 ret : Nat) :
    fd_vm_syscall_sol_sha256 K vm vals_addr vals_len result_addr r4 r5 ret
      = hash_syscall_core K "Sha256" K.sha256 vm vals_addr vals_len result_addr ret := by
  rfl

theorem blake3_eq_core (K : fd_vm_params) (vm : fd_vm_t) (vals_addr vals_len result_addr r4 r5 ret : Nat) :
    fd_vm_syscall_sol_blake3 K vm vals_addr vals_len result_addr r4 r5 ret
      = hash_syscall_core K "Blake3" K.blake3 vm vals_addr vals_len result_addr ret := by
  simp only [fd_vm_syscall_sol_blake3, hash_syscall_core, blake3_loop_eq, fd_blake3_init,
    fd_blake3_fini]

theorem keccak256_eq_core (K : fd_vm_params) (vm : fd_vm_t) (vals_addr vals_len result_addr r4 r5 ret : Nat) :
    fd_vm_syscall_sol_keccak256 K vm vals_addr vals_len result_addr r4 r5 ret
      = hash_syscall_core K "Keccak256" K.keccak256 vm vals_addr vals_len result_addr ret := by
  simp only [fd_vm_syscall_sol_keccak256, hash_syscall_core, keccak256_loop_eq, fd_keccak256_init,
    fd_keccak256_fini]

/-! ## The loop -/

theorem slices_cost_succ (K : fd_vm_params) (mem : Nat → Nat) (vh i n : Nat) :
    slices_cost K mem vh i (n + 1)
      = slice_cost K (vec_len mem vh i) + slices_cost K mem vh (i + 1) n := by
  simp [slices_cost, List.range'_succ]

theorem slices_concat_succ (mem : Nat → Nat) (vh : Nat) (ha : Nat → Nat) (i n : Nat) :
    slices_concat mem vh ha i (n + 1)
      = slice_bytes mem vh ha i ++ slices_concat mem vh ha (i + 1) n := by
  simp [slices_concat, List.range'_succ]

theorem slices_events_succ (K : fd_vm_params) (mem : Nat → Nat) (vh : Nat) (ha : Nat → Nat)
    (i n : Nat) :
    slices_events K mem vh ha i (n + 1)
      = slice_events K mem vh ha i ++ slices_events K mem vh ha (i + 1) n := by
  simp [slices_events, List.range'_succ]

/-- Forward run of the loop: when the data of slices `i .. i+n-1` translate and
the budget covers their costs, the loop feeds them in order and charges each
once. -/
theorem sha256_loop_ok (K : fd_vm_params) (vh : Nat) (ha : Nat → Nat) :
    ∀ (n i : Nat) (vm : fd_vm_t) (sha : List Nat),
      (∀ j, i ≤ j → j < i + n → slice_xlat K vm vh j = .ok (ha j)) →
      slices_cost K vm.mem vh i n ≤ vm.cu →
      sha256_loop K vh n i vm sha
        = .ok (sha ++ slices_concat vm.mem vh ha i n)
            { vm with cu := vm.cu - slices_cost K vm.mem vh i n,
                      trace := vm.trace ++ slices_events K vm.mem vh ha i n } := by
  intro n
  induction n with
  | zero =>
    intro i vm sha _ _
    cases vm
    simp [sha256_loop, slices_concat, slices_cost, slices_events]
  | succ n ih =>
    intro i vm sha hx hc
    have h0 := hx i (Nat.le_refl i) (by omega)
    rw [slices_cost_succ] at hc
    simp only [slice_xlat, vec_addr, vec_len] at h0
    simp only [sha256_loop, FD_VM_MEM_SLICE_HADDR_LD, FD_VM_MEM_HADDR_LD, sizeof_fd_vm_vec_t, h0,
      FD_VM_CU_UPDATE, fd_vm_t.emit, fd_sha256_append]
    have hle : ¬ slice_cost K (load_ulong vm.mem (vh + 16 * i + 8)) > vm.cu := by
      simp only [vec_len] at hc; omega
    simp only [hle, if_false]
    rw [ih]
    · simp only [slices_cost_succ, slices_concat_succ, slices_events_succ, slice_events,
        slice_bytes, vec_len, vec_addr, List.append_assoc, Nat.sub_sub, List.cons_append,
        List.nil_append]
    · intro j h1 h2
      have := hx j (by omega) (by omega)
      simpa [slice_xlat] using this
    · simp only [vec_len] at hc ⊢
      omega

/-- The loop stops at the first slice whose data does not translate: the
earlier slices stay charged, the faulting one is not. -/
theorem sha256_loop_fault (K : fd_vm_params) (vh : Nat) (ha : Nat → Nat) (f : fd_vm_fault) :
    ∀ (k n i : Nat) (vm : fd_vm_t) (sha : List Nat),
      k < n →
      (∀ j, i ≤ j → j < i + k → slice_xlat K vm vh j = .ok (ha j)) →
      slice_xlat K vm vh (i + k) = .error f →
      slices_cost K vm.mem vh i k ≤ vm.cu →
      sha256_loop K vh n i vm sha
        = .fail (K.FD_VM_ERR_FAULT f)
            (loop_stop K vm vh ha i k (vm.cu - slices_cost K vm.mem vh i k)
              [.translate (vec_addr vm.mem vh (i + k)) K.FD_VM_ALIGN_RUST_U8
                 (vec_len vm.mem vh (i + k)) false]) := by
  intro k
  induction k with
  | zero =>
    intro n i vm sha hk _ hf _
    obtain ⟨m, rfl⟩ : ∃ m, n = m + 1 := ⟨n - 1, by omega⟩
    simp only [slice_xlat, vec_addr, vec_len, Nat.add_zero] at hf
    cases vm
    simp_all [sha256_loop, FD_VM_MEM_SLICE_HADDR_LD, FD_VM_MEM_HADDR_LD, sizeof_fd_vm_vec_t,
      fd_vm_t.emit, loop_stop, slices_cost, slices_events, vec_addr, vec_len]
  | succ k ih =>
    intro n i vm sha hk hx hf hc
    obtain ⟨m, rfl⟩ : ∃ m, n = m + 1 := ⟨n - 1, by omega⟩
    have h0 := hx i (Nat.le_refl i) (by omega)
    rw [slices_cost_succ] at hc
    simp only [slice_xlat, vec_addr, vec_len] at h0
    simp only [sha256_loop, FD_VM_MEM_SLICE_HADDR_LD, FD_VM_MEM_HADDR_LD, sizeof_fd_vm_vec_t, h0,
      FD_VM_CU_UPDATE, fd_vm_t.emit, fd_sha256_append]
    have hle : ¬ slice_cost K (load_ulong vm.mem (vh + 16 * i + 8)) > vm.cu := by
      simp only [vec_len] at hc; omega
    simp only [hle, if_false]
    rw [ih m (i + 1)]
    · simp only [loop_stop, slices_cost_succ, slices_events_succ, slice_events,
        slice_bytes, vec_len, vec_addr, List.append_assoc, Nat.sub_sub, List.cons_append,
        List.nil_append, Nat.add_assoc, Nat.add_comm 1 k]
    · omega
    · intro j h1 h2
      have := hx j (by omega) (by omega)
      simpa [slice_xlat] using this
    · have : i + 1 + k = i + (k + 1) := by omega
      rw [this]
      simpa [slice_xlat] using hf
    · simp only [vec_len] at hc ⊢
      omega

/-- The loop stops at the first slice whose cost exceeds the remaining budget:
the budget is left at zero and the slice is not fed to the accumulator. -/
theorem sha256_loop_budget (K : fd_vm_params) (vh : Nat) (ha : Nat → Nat) :
    ∀ (k n i : Nat) (vm : fd_vm_t) (sha : List Nat),
      k < n →
      (∀ j, i ≤ j → j < i + (k + 1) → slice_xlat K vm vh j = .ok (ha j)) →
      slices_cost K vm.mem vh i k ≤ vm.cu →
      vm.cu < slices_cost K vm.mem vh i (k + 1) →
      sha256_loop K vh n i vm sha
        = .fail K.FD_VM_ERR_BUDGET
            (loop_stop K vm vh ha i k 0
              [.translate (vec_addr vm.mem vh (i + k)) K.FD_VM_ALIGN_RUST_U8
                 (vec_len vm.mem vh (i + k)) false,
               .cu_update (slice_cost K (vec_len vm.mem vh (i + k)))]) := by
  intro k
  induction k with
  | zero =>
    intro n i vm sha hk hx _ hlt
    obtain ⟨m, rfl⟩ : ∃ m, n = m + 1 := ⟨n - 1, by omega⟩
    have h0 := hx i (Nat.le_refl i) (by omega)
    simp only [slice_xlat, vec_addr, vec_len] at h0
    have hgt : slice_cost K (load_ulong vm.mem (vh + 16 * i + 8)) > vm.cu := by
      simpa [slices_cost, vec_len] using hlt
    cases vm
    simp_all [sha256_loop, FD_VM_MEM_SLICE_HADDR_LD, FD_VM_MEM_HADDR_LD, sizeof_fd_vm_vec_t,
      fd_vm_t.emit, loop_stop, slices_cost, slices_events, vec_addr, vec_len, FD_VM_CU_UPDATE]
  | succ k ih =>
    intro n i vm sha hk hx hc hlt
    obtain ⟨m, rfl⟩ : ∃ m, n = m + 1 := ⟨n - 1, by omega⟩
    have h0 := hx i (Nat.le_refl i) (by omega)
    rw [slices_cost_succ] at hc hlt
    simp only [slice_xlat, vec_addr, vec_len] at h0
    simp only [sha256_loop, FD_VM_MEM_SLICE_HADDR_LD, FD_VM_MEM_HADDR_LD, sizeof_fd_vm_vec_t, h0,
      FD_VM_CU_UPDATE, fd_vm_t.emit, fd_sha256_append]
    have hle : ¬ slice_cost K (load_ulong vm.mem (vh + 16 * i + 8)) > vm.cu := by
      simp only [vec_len] at hc; omega
    simp only [hle, if_false]
    rw [ih m (i + 1)]
    · simp only [loop_stop, slices_cost_succ, slices_events_succ, slice_events,
        slice_bytes, vec_len, vec_addr, List.append_assoc, Nat.sub_sub, List.cons_append,
        List.nil_append, Nat.add_assoc, Nat.add_comm 1 k]
    · omega
    · intro j h1 h2
      have := hx j (by omega) (by omega)
      simpa [slice_xlat] using this
    · simp only [vec_len] at hc ⊢
      omega
    · simp only [vec_len] at hc hlt ⊢
      omega

/-- A loop that runs to completion translated every slice and could pay for
every slice. -/
theorem sha256_loop_inv_ok (K : fd_vm_params) (vh : Nat) :
    ∀ (n i : Nat) (vm : fd_vm_t) (sha s : List Nat) (v : fd_vm_t),
      sha256_loop K vh n i vm sha = .ok s v →
      (∀ j, i ≤ j → j < i + n → ∃ h, slice_xlat K vm vh j = .ok h) ∧
        slices_cost K vm.mem vh i n ≤ vm.cu := by
  intro n
  induction n with
  | zero =>
    intro i vm sha s v _
    exact ⟨fun j h1 h2 => absurd h2 (by omega), by simp [slices_cost]⟩
  | succ n ih =>
    intro i vm sha s v h
    simp only [sha256_loop, FD_VM_MEM_SLICE_HADDR_LD, FD_VM_MEM_HADDR_LD, sizeof_fd_vm_vec_t,
      FD_VM_CU_UPDATE, fd_vm_t.emit, fd_sha256_append] at h
    cases hx : fd_vm_translate vm.regions (load_ulong vm.mem (vh + 16 * i))
        (load_ulong vm.mem (vh + 16 * i + 8)) K.FD_VM_ALIGN_RUST_U8 false with
    | error f => simp [hx] at h
    | ok hd =>
      simp only [hx] at h
      by_cases hgt : slice_cost K (load_ulong vm.mem (vh + 16 * i + 8)) > vm.cu
      · simp [hgt] at h
      · simp only [hgt, if_false] at h
        obtain ⟨h1, h2⟩ := ih _ _ _ _ _ h
        refine ⟨?_, ?_⟩
        · intro j hj1 hj2
          by_cases hji : j = i
          · subst hji
            exact ⟨hd, by simpa [slice_xlat, vec_addr, vec_len] using hx⟩
          · have := h1 j (by omega) (by omega)
            simpa [slice_xlat] using this
        · rw [slices_cost_succ]
          simp only [vec_len] at h2 ⊢
          omega

/-- A loop that stops early does so with the budget status or a fault status,
and leaves everything but the budget and the ghost trace as it was. -/
theorem sha256_loop_inv_fail (K : fd_vm_params) (vh : Nat) :
    ∀ (n i : Nat) (vm : fd_vm_t) (sha : List Nat) (e : Int) (v : fd_vm_t),
      sha256_loop K vh n i vm sha = .fail e v →
      (e = K.FD_VM_ERR_BUDGET ∨ ∃ f, e = K.FD_VM_ERR_FAULT f) ∧
        v.mem = vm.mem ∧ v.cu ≤ vm.cu ∧ v.regions = vm.regions ∧ v.log = vm.log ∧
        v.syscall_err = vm.syscall_err := by
  intro n
  induction n with
  | zero =>
    intro i vm sha e v h
    simp [sha256_loop] at h
  | succ n ih =>
    intro i vm sha e v h
    simp only [sha256_loop, FD_VM_MEM_SLICE_HADDR_LD, FD_VM_MEM_HADDR_LD, sizeof_fd_vm_vec_t,
      FD_VM_CU_UPDATE, fd_vm_t.emit, fd_sha256_append] at h
    cases hx : fd_vm_translate vm.regions (load_ulong vm.mem (vh + 16 * i))
        (load_ulong vm.mem (vh + 16 * i + 8)) K.FD_VM_ALIGN_RUST_U8 false with
    | error f =>
      simp only [hx, fd_vm_res.fail.injEq] at h
      obtain ⟨rfl, rfl⟩ := h
      exact ⟨Or.inr ⟨f, rfl⟩, rfl, Nat.le_refl _, rfl, rfl, rfl⟩
    | ok hd =>
      simp only [hx] at h
      by_cases hgt : slice_cost K (load_ulong vm.mem (vh + 16 * i + 8)) > vm.cu
      · simp only [hgt, if_true, fd_vm_res.fail.injEq] at h
        obtain ⟨rfl, rfl⟩ := h
        exact ⟨Or.inl rfl, rfl, Nat.zero_le _, rfl, rfl, rfl⟩
      · simp only [hgt, if_false] at h
        obtain ⟨h1, h2, h3, h4, h5, h6⟩ := ih _ _ _ _ _ h
        exact ⟨h1, h2, le_trans h3 (Nat.sub_le _ _), h4, h5, h6⟩

/-! ## The common body, path by path -/

theorem core_too_many (K : fd_vm_params) (name : String) (H : List Nat → List Nat) (vm : fd_vm_t)
    (vals_addr vals_len result_addr ret : Nat) (h : K.FD_VM_SHA256_MAX_SLICES < vals_len) :
    hash_syscall_core K name H vm vals_addr vals_len result_addr ret
      = ⟨K.FD_VM_SYSCALL_ERR_TOO_MANY_SLICES,
          { vm with
            log := vm.log ++ [too_many_slices_msg name vals_len K.FD_VM_SHA256_MAX_SLICES],
            syscall_err := some K.FD_VM_SYSCALL_ERR_TOO_MANY_SLICES }, ret⟩ := by
  simp [hash_syscall_core, h, fd_log_collector_printf_dangerous_max_127, FD_VM_ERR_FOR_LOG_SYSCALL]

theorem core_base_budget (K : fd_vm_params) (name : String) (H : List Nat → List Nat)
    (vm : fd_vm_t) (vals_addr vals_len result_addr ret : Nat)
    (h : vals_len ≤ K.FD_VM_SHA256_MAX_SLICES) (hcu : vm.cu < K.FD_VM_SHA256_BASE_COST) :
    hash_syscall_core K name H vm vals_addr vals_len result_addr ret
      = ⟨K.FD_VM_ERR_BUDGET,
          { vm with cu := 0, trace := vm.trace ++ [.cu_update K.FD_VM_SHA256_BASE_COST] }, ret⟩ := by
  have h1 : ¬ K.FD_VM_SHA256_MAX_SLICES < vals_len := by omega
  simp [hash_syscall_core, h1, FD_VM_CU_UPDATE, fd_vm_t.emit, hcu]

theorem core_result_fault (K : fd_vm_params) (name : String) (H : List Nat → List Nat)
    (vm : fd_vm_t) (vals_addr vals_len result_addr ret : Nat) (f : fd_vm_fault)
    (h : vals_len ≤ K.FD_VM_SHA256_MAX_SLICES) (hcu : K.FD_VM_SHA256_BASE_COST ≤ vm.cu)
    (hres : fd_vm_translate vm.regions result_addr 32 K.FD_VM_ALIGN_RUST_U8 true = .error f) :
    hash_syscall_core K name H vm vals_addr vals_len result_addr ret
      = ⟨K.FD_VM_ERR_FAULT f,
          { vm with
            cu := vm.cu - K.FD_VM_SHA256_BASE_COST,
            trace := vm.trace ++ [ .cu_update K.FD_VM_SHA256_BASE_COST,
              .translate result_addr K.FD_VM_ALIGN_RUST_U8 32 true ] }, ret⟩ := by
  have h1 : ¬ K.FD_VM_SHA256_MAX_SLICES < vals_len := by omega
  have h2 : ¬ K.FD_VM_SHA256_BASE_COST > vm.cu := by omega
  simp [hash_syscall_core, h1, FD_VM_CU_UPDATE, fd_vm_t.emit, h2, FD_VM_TRANSLATE_MUT, hres]

theorem core_empty (K : fd_vm_params) (name : String) (H : List Nat → List Nat)
    (vm : fd_vm_t) (vals_addr result_addr ret rh : Nat)
    (hcu : K.FD_VM_SHA256_BASE_COST ≤ vm.cu)
    (hres : fd_vm_translate vm.regions result_addr 32 K.FD_VM_ALIGN_RUST_U8 true = .ok rh) :
    hash_syscall_core K name H vm vals_addr 0 result_addr ret
      = ⟨FD_VM_SUCCESS,
          { vm with
            cu := vm.cu - K.FD_VM_SHA256_BASE_COST,
            mem := store_digest vm.mem rh (H []),
            trace := vm.trace ++ [ .cu_update K.FD_VM_SHA256_BASE_COST,
              .translate result_addr K.FD_VM_ALIGN_RUST_U8 32 true, .hash_fini rh ] }, 0⟩ := by
  have h2 : ¬ K.FD_VM_SHA256_BASE_COST > vm.cu := by omega
  simp [hash_syscall_core, FD_VM_CU_UPDATE, fd_vm_t.emit, h2, FD_VM_TRANSLATE_MUT, hres]

theorem core_vec_fault (K : fd_vm_params) (name : String) (H : List Nat → List Nat)
    (vm : fd_vm_t) (vals_addr vals_len result_addr ret rh : Nat) (f : fd_vm_fault)
    (h : vals_len ≤ K.FD_VM_SHA256_MAX_SLICES) (hpos : 0 < vals_len)
    (hcu : K.FD_VM_SHA256_BASE_COST ≤ vm.cu)
    (hres : fd_vm_translate vm.regions result_addr 32 K.FD_VM_ALIGN_RUST_U8 true = .ok rh)
    (hvec : fd_vm_translate vm.regions vals_addr ((vals_len * sizeof_fd_vm_vec_t) % 2 ^ 64)
      K.FD_VM_VEC_ALIGN false = .error f) :
    hash_syscall_core K name H vm vals_addr vals_len result_addr ret
      = ⟨K.FD_VM_ERR_FAULT f, vm_at_loop K vm vals_addr vals_len result_addr, ret⟩ := by
  have h1 : ¬ K.FD_VM_SHA256_MAX_SLICES < vals_len := by omega
  have h2 : ¬ K.FD_VM_SHA256_BASE_COST > vm.cu := by omega
  simp only [Nat.reducePow] at hvec
  simp [hash_syscall_core, h1, FD_VM_CU_UPDATE, fd_vm_t.emit, h2, FD_VM_TRANSLATE_MUT, hres,
    FD_VM_MEM_HADDR_LD, hvec, hpos, vm_at_loop]

/-- Once the descriptor array is translated, the call is the loop followed by
the finalization. -/
theorem core_at_loop (K : fd_vm_params) (name : String) (H : List Nat → List Nat)
    (vm : fd_vm_t) (vals_addr vals_len result_addr ret rh vh : Nat)
    (h : vals_len ≤ K.FD_VM_SHA256_MAX_SLICES) (hpos : 0 < vals_len)
    (hcu : K.FD_VM_SHA256_BASE_COST ≤ vm.cu)
    (hres : fd_vm_translate vm.regions result_addr 32 K.FD_VM_ALIGN_RUST_U8 true = .ok rh)
    (hvec : fd_vm_translate vm.regions vals_addr ((vals_len * sizeof_fd_vm_vec_t) % 2 ^ 64)
      K.FD_VM_VEC_ALIGN false = .ok vh) :
    hash_syscall_core K name H vm vals_addr vals_len result_addr ret
      = match sha256_loop K vh vals_len 0 (vm_at_loop K vm vals_addr vals_len result_addr) [] with
        | .fail err v => ⟨err, v, ret⟩
        | .ok sha v =>
          ⟨FD_VM_SUCCESS,
            { v with mem := store_digest v.mem rh (H sha), trace := v.trace ++ [.hash_fini rh] },
            0⟩ := by
  have h1 : ¬ K.FD_VM_SHA256_MAX_SLICES < vals_len := by omega
  have h2 : ¬ K.FD_VM_SHA256_BASE_COST > vm.cu := by omega
  simp only [Nat.reducePow] at hvec
  simp [hash_syscall_core, h1, FD_VM_CU_UPDATE, fd_vm_t.emit, h2, FD_VM_TRANSLATE_MUT, hres,
    FD_VM_MEM_HADDR_LD, hvec, hpos, vm_at_loop]

theorem slice_cost_eq_claimed (K : fd_vm_params) (val_len : Nat) :
    slice_cost K val_len = claimed_slice_cost K val_len := by
  unfold slice_cost claimed_slice_cost fd_ulong_max fd_ulong_sat_mul ULONG_MAX
  have hp : (2 : Nat) ^ 64 = 18446744073709551616 := by norm_num
  rw [hp]
  by_cases h : 18446744073709551616 ≤ K.FD_VM_SHA256_BYTE_COST * (val_len / 2)
  · rw [if_pos h, Nat.min_eq_right (by omega)]
    split_ifs with h2
    · rw [Nat.max_eq_right (by omega)]
    · rw [Nat.max_eq_left (by omega)]
  · rw [if_neg h, Nat.min_eq_left (by omega), Nat.mod_eq_of_lt (by omega)]
    split_ifs with h2
    · rw [Nat.max_eq_right (by omega)]
    · rw [Nat.max_eq_left (by omega)]

theorem charges_append (a b : List fd_vm_event) : charges (a ++ b) = charges a ++ charges b := by
  simp [charges, List.filterMap_append]

theorem charges_slices_events (K : fd_vm_params) (mem : Nat → Nat) (vh : Nat) (ha : Nat → Nat) :
    ∀ (n i : Nat), charges (slices_events K mem vh ha i n)
      = (List.range' i n).map (fun j => slice_cost K (vec_len mem vh j)) := by
  intro n
  induction n with
  | zero => intro i; simp [slices_events, charges]
  | succ n ih =>
    intro i
    rw [slices_events_succ, charges_append, ih, List.range'_succ]
    simp [slice_events, charges]

theorem slice_xlat_haddr (K : fd_vm_params) (vm : fd_vm_t) (vh j : Nat)
    (h : ∃ hd, slice_xlat K vm vh j = .ok hd) :
    slice_xlat K vm vh j = .ok (slice_haddr K vm vh j) := by
  obtain ⟨hd, hh⟩ := h
  simp [slice_haddr, hh]

/-- With the shape check passed, the status is success, the budget status or a
fault status. -/
theorem core_status (K : fd_vm_params) (name : String) (H : List Nat → List Nat)
    (vm : fd_vm_t) (vals_addr vals_len result_addr ret : Nat)
    (h : vals_len ≤ K.FD_VM_SHA256_MAX_SLICES) :
    (hash_syscall_core K name H vm vals_addr vals_len result_addr ret).status = FD_VM_SUCCESS ∨
    (hash_syscall_core K name H vm vals_addr vals_len result_addr ret).status = K.FD_VM_ERR_BUDGET ∨
    ∃ f, (hash_syscall_core K name H vm vals_addr vals_len result_addr ret).status
      = K.FD_VM_ERR_FAULT f := by
  by_cases hcu : vm.cu < K.FD_VM_SHA256_BASE_COST
  · rw [core_base_budget K name H vm _ _ _ _ h hcu]; exact Or.inr (Or.inl rfl)
  · have hcu2 : K.FD_VM_SHA256_BASE_COST ≤ vm.cu := by omega
    cases hres : fd_vm_translate vm.regions result_addr 32 K.FD_VM_ALIGN_RUST_U8 true with
    | error f =>
      rw [core_result_fault K name H vm _ _ _ _ f h hcu2 hres]; exact Or.inr (Or.inr ⟨f, rfl⟩)
    | ok rh =>
      by_cases hn : vals_len = 0
      · subst hn
        rw [core_empty K name H vm _ _ _ rh hcu2 hres]; exact Or.inl rfl
      · have hpos : 0 < vals_len := by omega
        cases hvec : fd_vm_translate vm.regions vals_addr
            ((vals_len * sizeof_fd_vm_vec_t) % 2 ^ 64) K.FD_VM_VEC_ALIGN false with
        | error f =>
          rw [core_vec_fault K name H vm _ _ _ _ rh f h hpos hcu2 hres hvec]
          exact Or.inr (Or.inr ⟨f, rfl⟩)
        | ok vh =>
          rw [core_at_loop K name H vm _ _ _ _ rh vh h hpos hcu2 hres hvec]
          cases hl : sha256_loop K vh vals_len 0
              (vm_at_loop K vm vals_addr vals_len result_addr) [] with
          | ok s v => exact Or.inl rfl
          | fail e v =>
            obtain ⟨h1, _⟩ := sha256_loop_inv_fail K vh _ _ _ _ _ _ hl
            rcases h1 with h1 | ⟨f, h1⟩
            · exact Or.inr (Or.inl h1)
            · exact Or.inr (Or.inr ⟨f, h1⟩)

/-! ## Claims C1 - C10 -/

theorem store_digest_read (mem : Nat → Nat) (rh : Nat) (d : List Nat) (k : Nat) (hk : k < 32) :
    store_digest mem rh d (rh + k) = d.getD k 0 := by
  have h : rh ≤ rh + k ∧ rh + k < rh + 32 := ⟨by omega, by omega⟩
  simp [store_digest, h]

/-- The successful path of the common body with at least one slice. -/
theorem core_success (K : fd_vm_params) (name : String) (H : List Nat → List Nat)
    (vm : fd_vm_t) (vals_addr vals_len result_addr ret rh vh : Nat) (ha : Nat → Nat)
    (h1 : 1 ≤ vals_len) (hmax : vals_len ≤ K.FD_VM_SHA256_MAX_SLICES)
    (hres : fd_vm_translate vm.regions result_addr 32 K.FD_VM_ALIGN_RUST_U8 true = .ok rh)
    (hvec : fd_vm_translate vm.regions vals_addr ((vals_len * sizeof_fd_vm_vec_t) % 2 ^ 64)
      K.FD_VM_VEC_ALIGN false = .ok vh)
    (hdata : ∀ j, j < vals_len → slice_xlat K vm vh j = .ok (ha j))
    (hcu : K.FD_VM_SHA256_BASE_COST + slices_cost K vm.mem vh 0 vals_len ≤ vm.cu) :
    hash_syscall_core K name H vm vals_addr vals_len result_addr ret
      = ⟨FD_VM_SUCCESS,
          { vm with
            cu := vm.cu - K.FD_VM_SHA256_BASE_COST - slices_cost K vm.mem vh 0 vals_len,
            mem := store_digest vm.mem rh (H (slices_concat vm.mem vh ha 0 vals_len)),
            trace := vm.trace ++
              [ .cu_update K.FD_VM_SHA256_BASE_COST,
                .translate result_addr K.FD_VM_ALIGN_RUST_U8 32 true,
                .translate vals_addr K.FD_VM_VEC_ALIGN
                  ((vals_len * sizeof_fd_vm_vec_t) % 2 ^ 64) false ]
              ++ slices_events K vm.mem vh ha 0 vals_len ++ [.hash_fini rh] }, 0⟩ := by
  rw [core_at_loop K name H vm _ _ _ _ rh vh hmax (by omega) (by omega) hres hvec]
  rw [sha256_loop_ok K vh ha vals_len 0 (vm_at_loop K vm vals_addr vals_len result_addr) []]
  · simp [vm_at_loop]
  · intro j _ hj
    have := hdata j (by omega)
    simpa [slice_xlat, vm_at_loop] using this
  · simp only [vm_at_loop]
    omega

/-- C1: for each of the three hash syscalls, for every slice count
`1 <= vals_len <= FD_VM_SHA256_MAX_SLICES`, every descriptor array and every
guest memory in which all translations succeed and the budget covers all
charges, the call succeeds and the 32 bytes at the translated result address
are the reference digest (SHA-256, BLAKE3, Keccak-256 respectively) of the
concatenation, in descriptor order `0 .. vals_len-1`, of the slice bytes as
they were in memory before the call. -/
theorem C1_digest_of_concatenated_slices (K : fd_vm_params) (vm : fd_vm_t)
    (vals_addr vals_len result_addr r4 r5 ret rh vh : Nat) (ha : Nat → Nat)
    (h1 : 1 ≤ vals_len) (hmax : vals_len ≤ K.FD_VM_SHA256_MAX_SLICES)
    (hres : fd_vm_translate vm.regions result_addr 32 K.FD_VM_ALIGN_RUST_U8 true = .ok rh)
    (hvec : fd_vm_translate vm.regions vals_addr ((vals_len * sizeof_fd_vm_vec_t) % 2 ^ 64)
      K.FD_VM_VEC_ALIGN false = .ok vh)
    (hdata : ∀ j, j < vals_len → slice_xlat K vm vh j = .ok (ha j))
    (hcu : K.FD_VM_SHA256_BASE_COST + slices_cost K vm.mem vh 0 vals_len ≤ vm.cu) :
    hashed_outcome (fd_vm_syscall_sol_sha256 K vm vals_addr vals_len result_addr r4 r5 ret) rh
        (K.sha256 (slices_concat vm.mem vh ha 0 vals_len)) ∧
    hashed_outcome (fd_vm_syscall_sol_blake3 K vm vals_addr vals_len result_addr r4 r5 ret) rh
        (K.blake3 (slices_concat vm.mem vh ha 0 vals_len)) ∧
    hashed_outcome (fd_vm_syscall_sol_keccak256 K vm vals_addr vals_len result_addr r4 r5 ret) rh
        (K.keccak256 (slices_concat vm.mem vh ha 0 vals_len)) := by
  rw [sha256_eq_core, blake3_eq_core, keccak256_eq_core]
  rw [core_success K "Sha256" K.sha256 vm _ _ _ _ rh vh ha h1 hmax hres hvec hdata hcu,
    core_success K "Blake3" K.blake3 vm _ _ _ _ rh vh ha h1 hmax hres hvec hdata hcu,
    core_success K "Keccak256" K.keccak256 vm _ _ _ _ rh vh ha h1 hmax hres hvec hdata hcu]
  exact ⟨⟨rfl, rfl, fun k hk => store_digest_read _ _ _ k hk⟩,
    ⟨rfl, rfl, fun k hk => store_digest_read _ _ _ k hk⟩,
    ⟨rfl, rfl, fun k hk => store_digest_read _ _ _ k hk⟩⟩

/-- C1 at a concrete input: three descriptors of lengths 0, 3 and 5 over the
bytes `1 .. 8`; the Keccak-256 syscall leaves the digest of `[1, .., 8]` in the
output buffer. -/
theorem C1_digest_of_concatenated_slices_witness :
    (1 ≤ 3 ∧ 3 ≤ K0.FD_VM_SHA256_MAX_SLICES ∧
      fd_vm_translate vm0.regions 3000 32 K0.FD_VM_ALIGN_RUST_U8 true = .ok 7000 ∧
      fd_vm_translate vm0.regions 1000 ((3 * sizeof_fd_vm_vec_t) % 2 ^ 64)
        K0.FD_VM_VEC_ALIGN false = .ok 5000 ∧
      (∀ j, j < 3 → slice_xlat K0 vm0 5000 j = .ok (ha0 j)) ∧
      K0.FD_VM_SHA256_BASE_COST + slices_cost K0 vm0.mem 5000 0 3 ≤ vm0.cu ∧
      [vec_len vm0.mem 5000 0, vec_len vm0.mem 5000 1, vec_len vm0.mem 5000 2] = [0, 3, 5] ∧
      slices_concat vm0.mem 5000 ha0 0 3 = [1, 2, 3, 4, 5, 6, 7, 8]) ∧
    hashed_outcome (fd_vm_syscall_sol_keccak256 K0 vm0 1000 3 3000 0 0 7) 7000
      (K0.keccak256 (slices_concat vm0.mem 5000 ha0 0 3)) :=
  ⟨⟨by decide, by decide, by decide, by decide, by decide, by decide, by decide, by decide⟩,
    (C1_digest_of_concatenated_slices K0 vm0 1000 3 3000 0 0 7 7000 5000 ha0
      (by decide) (by decide) (by decide) (by decide) (by decide) (by decide)).2.2⟩

theorem K0_codes_distinct : K0.codes_distinct := by
  refine ⟨by decide, by decide, ?_, by decide, ?_, ?_⟩ <;> intro f <;> cases f <;> decide

theorem core_too_many_iff (K : fd_vm_params) (name : String) (H : List Nat → List Nat)
    (vm : fd_vm_t) (vals_addr vals_len result_addr ret : Nat) (hK : K.codes_distinct) :
    (hash_syscall_core K name H vm vals_addr vals_len result_addr ret).status
        = K.FD_VM_SYSCALL_ERR_TOO_MANY_SLICES
      ↔ K.FD_VM_SHA256_MAX_SLICES < vals_len := by
  obtain ⟨h0, _, _, hb, hf, _⟩ := hK
  constructor
  · intro hs
    by_contra hn
    rcases core_status K name H vm vals_addr vals_len result_addr ret (by omega) with h | h | ⟨f, h⟩
    · rw [h] at hs; exact h0 hs.symm
    · rw [h] at hs; exact hb hs
    · rw [h] at hs; exact hf f hs
  · intro h
    rw [core_too_many K name H vm _ _ _ _ h]

/-- C2: each of the three hash syscalls returns
`FD_VM_SYSCALL_ERR_TOO_MANY_SLICES` if and only if
`vals_len > FD_VM_SHA256_MAX_SLICES`, for every VM state (every remaining
budget, 0 included) and every `vals_addr` and `result_addr` (translatable or
not); in particular `vals_len == FD_VM_SHA256_MAX_SLICES` is not rejected.  The
status codes are parameters, taken to be distinguishable as sections 6 and 7
of the specification say. -/
theorem C2_too_many_slices_iff (K : fd_vm_params) (vm : fd_vm_t)
    (vals_addr vals_len result_addr r4 r5 ret : Nat) (hK : K.codes_distinct) :
    ((fd_vm_syscall_sol_sha256 K vm vals_addr vals_len result_addr r4 r5 ret).status
        = K.FD_VM_SYSCALL_ERR_TOO_MANY_SLICES ↔ K.FD_VM_SHA256_MAX_SLICES < vals_len) ∧
    ((fd_vm_syscall_sol_blake3 K vm vals_addr vals_len result_addr r4 r5 ret).status
        = K.FD_VM_SYSCALL_ERR_TOO_MANY_SLICES ↔ K.FD_VM_SHA256_MAX_SLICES < vals_len) ∧
    ((fd_vm_syscall_sol_keccak256 K vm vals_addr vals_len result_addr r4 r5 ret).status
        = K.FD_VM_SYSCALL_ERR_TOO_MANY_SLICES ↔ K.FD_VM_SHA256_MAX_SLICES < vals_len) := by
  rw [sha256_eq_core, blake3_eq_core, keccak256_eq_core]
  exact ⟨core_too_many_iff K _ _ vm _ _ _ _ hK, core_too_many_iff K _ _ vm _ _ _ _ hK,
    core_too_many_iff K _ _ vm _ _ _ _ hK⟩

/-- C2 at concrete inputs: with a budget of 0 and unmapped addresses, 20001
slices are rejected and exactly 20000 slices are not. -/
theorem C2_too_many_slices_iff_witness :
    K0.codes_distinct ∧
    (fd_vm_syscall_sol_sha256 K0 { vm0 with cu := 0 } 9999 20001 9999 0 0 7).status
      = K0.FD_VM_SYSCALL_ERR_TOO_MANY_SLICES ∧
    (fd_vm_syscall_sol_sha256 K0 { vm0 with cu := 0 } 9999 20000 9999 0 0 7).status
      ≠ K0.FD_VM_SYSCALL_ERR_TOO_MANY_SLICES :=
  ⟨K0_codes_distinct,
    (C2_too_many_slices_iff K0 { vm0 with cu := 0 } 9999 20001 9999 0 0 7 K0_codes_distinct).1.2
      (by decide),
    fun h => absurd
      ((C2_too_many_slices_iff K0 { vm0 with cu := 0 } 9999 20000 9999 0 0 7 K0_codes_distinct).1.1 h)
      (by decide)⟩

theorem core_rejected (K : fd_vm_params) (name : String) (H : List Nat → List Nat)
    (vm : fd_vm_t) (vals_addr vals_len result_addr ret : Nat)
    (h : K.FD_VM_SHA256_MAX_SLICES < vals_len) :
    rejected_outcome K vm ret (too_many_slices_msg name vals_len K.FD_VM_SHA256_MAX_SLICES)
      (hash_syscall_core K name H vm vals_addr vals_len result_addr ret) := by
  rw [core_too_many K name H vm _ _ _ _ h]
  exact ⟨rfl, rfl, rfl, rfl, rfl, rfl, rfl, rfl⟩

/-- C3: a hash syscall called with `vals_len > FD_VM_SHA256_MAX_SLICES` leaves
the execution context uncorrupted: the remaining budget is what it was (no
charge is made), memory and memory map are unchanged, no translation is
performed and `*_ret` is not written; the only effects are one message handed
to the log collector and the recorded syscall error. -/
theorem C3_too_many_slices_frame (K : fd_vm_params) (vm : fd_vm_t)
    (vals_addr vals_len result_addr r4 r5 ret : Nat)
    (h : K.FD_VM_SHA256_MAX_SLICES < vals_len) :
    rejected_outcome K vm ret (too_many_slices_msg "Sha256" vals_len K.FD_VM_SHA256_MAX_SLICES)
      (fd_vm_syscall_sol_sha256 K vm vals_addr vals_len result_addr r4 r5 ret) ∧
    rejected_outcome K vm ret (too_many_slices_msg "Blake3" vals_len K.FD_VM_SHA256_MAX_SLICES)
      (fd_vm_syscall_sol_blake3 K vm vals_addr vals_len result_addr r4 r5 ret) ∧
    rejected_outcome K vm ret (too_many_slices_msg "Keccak256" vals_len K.FD_VM_SHA256_MAX_SLICES)
      (fd_vm_syscall_sol_keccak256 K vm vals_addr vals_len result_addr r4 r5 ret) := by
  rw [sha256_eq_core, blake3_eq_core, keccak256_eq_core]
  exact ⟨core_rejected K _ _ vm _ _ _ _ h, core_rejected K _ _ vm _ _ _ _ h,
    core_rejected K _ _ vm _ _ _ _ h⟩

/-- C3 at a concrete input: 20001 slices against the limit 20000. -/
theorem C3_too_many_slices_frame_witness :
    K0.FD_VM_SHA256_MAX_SLICES < 20001 ∧
    rejected_outcome K0 vm0 7
      "Blake3 Hashing 20001 sequences in one syscall is over the limit 20000"
      (fd_vm_syscall_sol_blake3 K0 vm0 1000 20001 3000 0 0 7) :=
  ⟨by decide, (C3_too_many_slices_frame K0 vm0 1000 20001 3000 0 0 7 (by decide)).2.1⟩

theorem core_empty_outcome (K : fd_vm_params) (name : String) (H : List Nat → List Nat)
    (vm : fd_vm_t) (vals_addr result_addr ret rh : Nat)
    (hcu : K.FD_VM_SHA256_BASE_COST ≤ vm.cu)
    (hres : fd_vm_translate vm.regions result_addr 32 K.FD_VM_ALIGN_RUST_U8 true = .ok rh) :
    empty_outcome K vm result_addr rh (H [])
      (hash_syscall_core K name H vm vals_addr 0 result_addr ret) := by
  rw [core_empty K name H vm _ _ _ rh hcu hres]
  refine ⟨⟨rfl, rfl, fun k hk => store_digest_read _ _ _ k hk⟩, ?_, rfl⟩
  show vm.cu - K.FD_VM_SHA256_BASE_COST + K.FD_VM_SHA256_BASE_COST = vm.cu
  omega

/-- C4: for each of the three hash syscalls, when `vals_len == 0`, the
remaining budget is at least `FD_VM_SHA256_BASE_COST` and `result_addr`
translates as a writable 32-byte buffer, then for every value of `vals_addr`
(which is never translated) the call returns success, writes the algorithm's
digest of the empty message to the output buffer and charges exactly
`FD_VM_SHA256_BASE_COST`. -/
theorem C4_no_slices (K : fd_vm_params) (vm : fd_vm_t)
    (vals_addr result_addr r4 r5 ret rh : Nat)
    (hcu : K.FD_VM_SHA256_BASE_COST ≤ vm.cu)
    (hres : fd_vm_translate vm.regions result_addr 32 K.FD_VM_ALIGN_RUST_U8 true = .ok rh) :
    empty_outcome K vm result_addr rh (K.sha256 [])
      (fd_vm_syscall_sol_sha256 K vm vals_addr 0 result_addr r4 r5 ret) ∧
    empty_outcome K vm result_addr rh (K.blake3 [])
      (fd_vm_syscall_sol_blake3 K vm vals_addr 0 result_addr r4 r5 ret) ∧
    empty_outcome K vm result_addr rh (K.keccak256 [])
      (fd_vm_syscall_sol_keccak256 K vm vals_addr 0 result_addr r4 r5 ret) := by
  rw [sha256_eq_core, blake3_eq_core, keccak256_eq_core]
  exact ⟨core_empty_outcome K _ _ vm _ _ _ rh hcu hres, core_empty_outcome K _ _ vm _ _ _ rh hcu hres,
    core_empty_outcome K _ _ vm _ _ _ rh hcu hres⟩

/-- C4 at a concrete input: no slices, an unmapped and misaligned `vals_addr`
(9999), and a budget equal to the base cost. -/
theorem C4_no_slices_witness :
    (K0.FD_VM_SHA256_BASE_COST ≤ ({ vm0 with cu := 85 } : fd_vm_t).cu ∧
      fd_vm_translate vm0.regions 3000 32 K0.FD_VM_ALIGN_RUST_U8 true = .ok 7000 ∧
      fd_vm_translate vm0.regions 9999 0 K0.FD_VM_VEC_ALIGN false = .error .OutOfBounds) ∧
    empty_outcome K0 { vm0 with cu := 85 } 3000 7000 (K0.sha256 [])
      (fd_vm_syscall_sol_sha256 K0 { vm0 with cu := 85 } 9999 0 3000 0 0 7) :=
  ⟨⟨by decide, by decide, by decide⟩,
    (C4_no_slices K0 { vm0 with cu := 85 } 9999 3000 0 0 7 7000 (by decide) (by decide)).1⟩

theorem sha256_loop_iteration (K : fd_vm_params) (vm : fd_vm_t) (vh i n val_len hd : Nat)
    (sha : List Nat)
    (hlen : vec_len vm.mem vh i = val_len) (hx : slice_xlat K vm vh i = .ok hd) :
    sha256_loop K vh (n + 1) i vm sha
      = (iteration_outcome K vm sha (vec_addr vm.mem vh i) val_len hd).andThen
          (fun s v => sha256_loop K vh n (i + 1) v s) := by
  subst hlen
  simp only [slice_xlat, vec_addr, vec_len] at hx
  simp only [sha256_loop, FD_VM_MEM_SLICE_HADDR_LD, FD_VM_MEM_HADDR_LD, sizeof_fd_vm_vec_t, hx,
    FD_VM_CU_UPDATE, fd_vm_t.emit, fd_sha256_append, iteration_outcome, vec_len, vec_addr,
    slice_cost_eq_claimed]
  by_cases hc : claimed_slice_cost K (load_ulong vm.mem (vh + 16 * i + 8)) ≤ vm.cu
  · have hc2 : ¬ claimed_slice_cost K (load_ulong vm.mem (vh + 16 * i + 8)) > vm.cu := by omega
    simp [hc, hc2, fd_vm_res.andThen]
  · have hc2 : claimed_slice_cost K (load_ulong vm.mem (vh + 16 * i + 8)) > vm.cu := by omega
    simp [hc, hc2, fd_vm_res.andThen]

/-- C5: in each of the three hash syscalls, for every slice length `val_len`
(the 64-bit `len` field of descriptor `i`), the amount charged for that slice
by a loop iteration is exactly
`max(FD_VM_MEM_OP_BASE_COST, satmul64(FD_VM_SHA256_BYTE_COST, val_len / 2))`,
with floor division and the product clamped to `2^64-1`: every iteration whose
data translation succeeded is `iteration_outcome` followed by the remaining
iterations. -/
theorem C5_slice_charge (K : fd_vm_params) (vm : fd_vm_t) (vh i n val_len hd : Nat)
    (sha : List Nat)
    (hlen : vec_len vm.mem vh i = val_len) (hx : slice_xlat K vm vh i = .ok hd) :
    sha256_loop K vh (n + 1) i vm sha
      = (iteration_outcome K vm sha (vec_addr vm.mem vh i) val_len hd).andThen
          (fun s v => sha256_loop K vh n (i + 1) v s) ∧
    blake3_loop K vh (n + 1) i vm sha
      = (iteration_outcome K vm sha (vec_addr vm.mem vh i) val_len hd).andThen
          (fun s v => blake3_loop K vh n (i + 1) v s) ∧
    keccak256_loop K vh (n + 1) i vm sha
      = (iteration_outcome K vm sha (vec_addr vm.mem vh i) val_len hd).andThen
          (fun s v => keccak256_loop K vh n (i + 1) v s) := by
  refine ⟨sha256_loop_iteration K vm vh i n val_len hd sha hlen hx, ?_, ?_⟩
  · rw [blake3_loop_eq, sha256_loop_iteration K vm vh i n val_len hd sha hlen hx]
    congr 1
    funext s v
    rw [blake3_loop_eq]
  · rw [keccak256_loop_eq, sha256_loop_iteration K vm vh i n val_len hd sha hlen hx]
    congr 1
    funext s v
    rw [keccak256_loop_eq]

/-- C5 at a concrete input: slice 2 of `vm0` has length 5, so
`max(10, 1 * (5 / 2)) = 10` units are charged. -/
theorem C5_slice_charge_witness :
    (vec_len vm0.mem 5000 2 = 5 ∧ slice_xlat K0 vm0 5000 2 = .ok 5051 ∧
      claimed_slice_cost K0 5 = 10) ∧
    keccak256_loop K0 5000 1 2 vm0 []
      = (iteration_outcome K0 vm0 [] (vec_addr vm0.mem 5000 2) 5 5051).andThen
          (fun s v => keccak256_loop K0 5000 0 3 v s) :=
  ⟨⟨by decide, by decide, by decide⟩,
    (C5_slice_charge K0 vm0 5000 2 0 5 5051 [] (by decide) (by decide)).2.2⟩

theorem slices_cost_eq_claimed (K : fd_vm_params) (mem : Nat → Nat) (vh n : Nat) :
    slices_cost K mem vh 0 n = ((slice_lens mem vh n).map (claimed_slice_cost K)).sum := by
  simp only [slices_cost, slice_lens, List.range_eq_range', List.map_map]
  congr 1
  apply List.map_congr_left
  intro j _
  simp [slice_cost_eq_claimed]

theorem charges_loop_events (K : fd_vm_params) (mem : Nat → Nat) (vh : Nat) (ha : Nat → Nat)
    (n : Nat) :
    charges (slices_events K mem vh ha 0 n) = (slice_lens mem vh n).map (claimed_slice_cost K) := by
  rw [charges_slices_events]
  simp only [slice_lens, List.range_eq_range', List.map_map]
  apply List.map_congr_left
  intro j _
  simp [slice_cost_eq_claimed]

theorem core_charged (K : fd_vm_params) (name : String) (H : List Nat → List Nat)
    (vm : fd_vm_t) (vals_addr vals_len result_addr ret vh : Nat) (hK : K.codes_distinct)
    (hvec : 0 < vals_len →
      fd_vm_translate vm.regions vals_addr ((vals_len * sizeof_fd_vm_vec_t) % 2 ^ 64)
        K.FD_VM_VEC_ALIGN false = .ok vh)
    (hs : (hash_syscall_core K name H vm vals_addr vals_len result_addr ret).status
      = FD_VM_SUCCESS) :
    charged_exactly K vm (slice_lens vm.mem vh vals_len)
      (hash_syscall_core K name H vm vals_addr vals_len result_addr ret) := by
  obtain ⟨h0, hb, hf, _, _, _⟩ := hK
  by_cases hmax : K.FD_VM_SHA256_MAX_SLICES < vals_len
  · rw [core_too_many K name H vm _ _ _ _ hmax] at hs
    exact absurd hs h0
  have hmax2 : vals_len ≤ K.FD_VM_SHA256_MAX_SLICES := by omega
  by_cases hcu : vm.cu < K.FD_VM_SHA256_BASE_COST
  · rw [core_base_budget K name H vm _ _ _ _ hmax2 hcu] at hs
    exact absurd hs hb
  have hcu2 : K.FD_VM_SHA256_BASE_COST ≤ vm.cu := by omega
  cases hres : fd_vm_translate vm.regions result_addr 32 K.FD_VM_ALIGN_RUST_U8 true with
  | error f =>
    rw [core_result_fault K name H vm _ _ _ _ f hmax2 hcu2 hres] at hs
    exact absurd hs (hf f)
  | ok rh =>
    by_cases hn : vals_len = 0
    · subst hn
      rw [core_empty K name H vm _ _ _ rh hcu2 hres]
      refine ⟨?_, ?_⟩
      · show vm.cu - K.FD_VM_SHA256_BASE_COST + (K.FD_VM_SHA256_BASE_COST + _) = vm.cu
        simp [slice_lens]
        omega
      · show charges (vm.trace ++ _) = _
        rw [charges_append]
        simp [charges, slice_lens]
    · have hpos : 0 < vals_len := by omega
      have hv := hvec hpos
      have hl := core_at_loop K name H vm vals_addr vals_len result_addr ret rh vh hmax2 hpos
        hcu2 hres hv
      cases hloop : sha256_loop K vh vals_len 0
          (vm_at_loop K vm vals_addr vals_len result_addr) [] with
      | fail e v =>
        rw [hl, hloop] at hs
        obtain ⟨h1, _⟩ := sha256_loop_inv_fail K vh _ _ _ _ _ _ hloop
        rcases h1 with h1 | ⟨f, h1⟩
        · exact absurd (h1 ▸ hs) hb
        · exact absurd (h1 ▸ hs) (hf f)
      | ok s v =>
        obtain ⟨hx, hc⟩ := sha256_loop_inv_ok K vh _ _ _ _ _ _ hloop
        have hdata : ∀ j, j < vals_len → slice_xlat K vm vh j = .ok (slice_haddr K vm vh j) := by
          intro j hj
          apply slice_xlat_haddr
          obtain ⟨hd, hh⟩ := hx j (Nat.zero_le j) (by omega)
          exact ⟨hd, by simpa [slice_xlat, vm_at_loop] using hh⟩
        have hc2 : K.FD_VM_SHA256_BASE_COST + slices_cost K vm.mem vh 0 vals_len ≤ vm.cu := by
          simp only [vm_at_loop] at hc
          omega
        rw [core_success K name H vm _ _ _ _ rh vh (slice_haddr K vm vh) hpos hmax2 hres hv
          hdata hc2]
        refine ⟨?_, ?_⟩
        · show vm.cu - K.FD_VM_SHA256_BASE_COST - slices_cost K vm.mem vh 0 vals_len
              + (K.FD_VM_SHA256_BASE_COST + _) = vm.cu
          rw [← slices_cost_eq_claimed]
          omega
        · show charges (vm.trace ++ _ ++ _ ++ _) = _
          rw [charges_append, charges_append, charges_append, charges_loop_events]
          simp [charges]

/-- C6: for every successful call of a hash syscall with slice lengths
`len_0 .. len_{n-1}` (`n = vals_len`, the lengths being the `len` fields of the
translated descriptor array), the total amount taken from the compute budget is
exactly `FD_VM_SHA256_BASE_COST` plus the sum over `i` of
`max(FD_VM_MEM_OP_BASE_COST, satmul64(FD_VM_SHA256_BYTE_COST, len_i / 2))`: the
base cost is charged exactly once, each slice exactly once, and the total is an
expression in the slice count and the slice lengths only.  The status codes are
parameters, taken to be distinguishable from success. -/
theorem C6_total_charge (K : fd_vm_params) (vm : fd_vm_t)
    (vals_addr vals_len result_addr r4 r5 ret vh : Nat) (hK : K.codes_distinct)
    (hvec : 0 < vals_len →
      fd_vm_translate vm.regions vals_addr ((vals_len * sizeof_fd_vm_vec_t) % 2 ^ 64)
        K.FD_VM_VEC_ALIGN false = .ok vh) :
    ((fd_vm_syscall_sol_sha256 K vm vals_addr vals_len result_addr r4 r5 ret).status
        = FD_VM_SUCCESS →
      charged_exactly K vm (slice_lens vm.mem vh vals_len)
        (fd_vm_syscall_sol_sha256 K vm vals_addr vals_len result_addr r4 r5 ret)) ∧
    ((fd_vm_syscall_sol_blake3 K vm vals_addr vals_len result_addr r4 r5 ret).status
        = FD_VM_SUCCESS →
      charged_exactly K vm (slice_lens vm.mem vh vals_len)
        (fd_vm_syscall_sol_blake3 K vm vals_addr vals_len result_addr r4 r5 ret)) ∧
    ((fd_vm_syscall_sol_keccak256 K vm vals_addr vals_len result_addr r4 r5 ret).status
        = FD_VM_SUCCESS →
      charged_exactly K vm (slice_lens vm.mem vh vals_len)
        (fd_vm_syscall_sol_keccak256 K vm vals_addr vals_len result_addr r4 r5 ret)) := by
  rw [sha256_eq_core, blake3_eq_core, keccak256_eq_core]
  exact ⟨core_charged K _ _ vm _ _ _ _ vh hK hvec, core_charged K _ _ vm _ _ _ _ vh hK hvec,
    core_charged K _ _ vm _ _ _ _ vh hK hvec⟩

/-- C6 at a concrete input: the successful SHA-256 call on the three slices of
`vm0` (lengths 0, 3, 5) is charged `85 + 10 + 10 + 10`. -/
theorem C6_total_charge_witness :
    (K0.codes_distinct ∧
      (0 < 3 → fd_vm_translate vm0.regions 1000 ((3 * sizeof_fd_vm_vec_t) % 2 ^ 64)
        K0.FD_VM_VEC_ALIGN false = .ok 5000) ∧
      (fd_vm_syscall_sol_sha256 K0 vm0 1000 3 3000 0 0 7).status = FD_VM_SUCCESS ∧
      slice_lens vm0.mem 5000 3 = [0, 3, 5] ∧
      K0.FD_VM_SHA256_BASE_COST + ((slice_lens vm0.mem 5000 3).map (claimed_slice_cost K0)).sum
        = 115) ∧
    charged_exactly K0 vm0 (slice_lens vm0.mem 5000 3)
      (fd_vm_syscall_sol_sha256 K0 vm0 1000 3 3000 0 0 7) :=
  ⟨⟨K0_codes_distinct, by decide, by decide, by decide, by decide⟩,
    (C6_total_charge K0 vm0 1000 3 3000 0 0 7 5000 K0_codes_distinct (by decide)).1 (by decide)⟩

/-- C7 fails as stated: two SHA-256 calls with the same budget (200), the same
`vals_len` (1), the same slice length (3) and the same arguments, whose guest
memories differ only in the data address held by the descriptor (1048, which
translates, against 9000, which does not), are charged 95 and 85 compute units:
the cost of a slice is charged after the translation of its data. -/
theorem C7_counterexample :
    vm0.cu = vm1.cu ∧
    slice_lens vm0.mem 5016 1 = [3] ∧ slice_lens vm1.mem 5016 1 = [3] ∧
    vec_addr vm0.mem 5016 0 = 1048 ∧ vec_addr vm1.mem 5016 0 = 9000 ∧
    (fd_vm_syscall_sol_sha256 K0 vm0 1016 1 3000 0 0 7).status = FD_VM_SUCCESS ∧
    (fd_vm_syscall_sol_sha256 K0 vm1 1016 1 3000 0 0 7).status
      = K0.FD_VM_ERR_FAULT .OutOfBounds ∧
    vm0.cu - (fd_vm_syscall_sol_sha256 K0 vm0 1016 1 3000 0 0 7).vm.cu = 95 ∧
    vm1.cu - (fd_vm_syscall_sol_sha256 K0 vm1 1016 1 3000 0 0 7).vm.cu = 85 := by
  decide

theorem xlat_ok_true (x : Except fd_vm_fault Nat) (h : xlat_ok x = true) : ∃ hd, x = .ok hd := by
  cases x with
  | ok hd => exact ⟨hd, rfl⟩
  | error f => simp [xlat_ok] at h

theorem xlat_ok_false (x : Except fd_vm_fault Nat) (h : xlat_ok x = false) : ∃ f, x = .error f := by
  cases x with
  | ok hd => simp [xlat_ok] at h
  | error f => exact ⟨f, rfl⟩

/-- The budget left by the loop when the data of slices `i .. i+m-1` translate
and the loop either ends there (`m = n`) or meets a fault at slice `i+m`: the
costs of those `m` slices are taken, with saturation at zero. -/
theorem sha256_loop_cu (K : fd_vm_params) (vh : Nat) :
    ∀ (m n i : Nat) (vm : fd_vm_t) (sha : List Nat),
      m ≤ n →
      (∀ j, i ≤ j → j < i + m → xlat_ok (slice_xlat K vm vh j) = true) →
      (m < n → xlat_ok (slice_xlat K vm vh (i + m)) = false) →
      (sha256_loop K vh n i vm sha).vm.cu = vm.cu - slices_cost K vm.mem vh i m := by
  intro m
  induction m with
  | zero =>
    intro n i vm sha _ _ hf
    cases n with
    | zero => simp [sha256_loop, fd_vm_res.vm, slices_cost]
    | succ n =>
      obtain ⟨f, hf⟩ := xlat_ok_false _ (hf (by omega))
      simp only [slice_xlat, vec_addr, vec_len, Nat.add_zero] at hf
      simp [sha256_loop, FD_VM_MEM_SLICE_HADDR_LD, FD_VM_MEM_HADDR_LD, sizeof_fd_vm_vec_t, hf,
        fd_vm_res.vm, fd_vm_t.emit, slices_cost]
  | succ m ih =>
    intro n i vm sha hmn hx hf
    obtain ⟨n, rfl⟩ : ∃ k, n = k + 1 := ⟨n - 1, by omega⟩
    obtain ⟨hd, h0⟩ := xlat_ok_true _ (hx i (Nat.le_refl i) (by omega))
    simp only [slice_xlat, vec_addr, vec_len] at h0
    simp only [sha256_loop, FD_VM_MEM_SLICE_HADDR_LD, FD_VM_MEM_HADDR_LD, sizeof_fd_vm_vec_t, h0,
      FD_VM_CU_UPDATE, fd_vm_t.emit, fd_sha256_append]
    rw [slices_cost_succ]
    by_cases hgt : slice_cost K (load_ulong vm.mem (vh + 16 * i + 8)) > vm.cu
    · simp only [hgt, if_true, fd_vm_res.vm, vec_len]
      omega
    · simp only [hgt, if_false]
      rw [ih n (i + 1)]
      · simp only [vec_len]
        omega
      · omega
      · intro j h1 h2
        have := hx j (by omega) (by omega)
        simpa [slice_xlat] using this
      · intro h
        have := hf (by omega)
        have e : i + 1 + m = i + (m + 1) := by omega
        rw [e]
        simpa [slice_xlat] using this

/-- The budget left by the common body, as a function of the initial budget,
the stop and the slice costs before the stop. -/
theorem core_final_cu (K : fd_vm_params) (name : String) (H : List Nat → List Nat)
    (vm : fd_vm_t) (vals_addr vals_len result_addr ret : Nat) (p : fd_vm_stop)
    (hmax : vals_len ≤ K.FD_VM_SHA256_MAX_SLICES)
    (hp : stops_at K vm vals_addr vals_len result_addr p) :
    (hash_syscall_core K name H vm vals_addr vals_len result_addr ret).vm.cu
      = vm.cu - K.FD_VM_SHA256_BASE_COST - stop_cost K vm vals_addr vals_len p := by
  by_cases hcu : vm.cu < K.FD_VM_SHA256_BASE_COST
  · rw [core_base_budget K name H vm _ _ _ _ hmax hcu]
    show 0 = _
    omega
  have hcu2 : K.FD_VM_SHA256_BASE_COST ≤ vm.cu := by omega
  have loop_case : ∀ (m : Nat), m ≤ vals_len → 0 < vals_len →
      xlat_ok (result_xlat K vm result_addr) = true →
      xlat_ok (vec_xlat K vm vals_addr vals_len) = true →
      (∀ j, j < m → xlat_ok (slice_xlat K vm (vec_haddr K vm vals_addr vals_len) j) = true) →
      (m < vals_len → xlat_ok (slice_xlat K vm (vec_haddr K vm vals_addr vals_len) m) = false) →
      (hash_syscall_core K name H vm vals_addr vals_len result_addr ret).vm.cu
        = vm.cu - K.FD_VM_SHA256_BASE_COST
            - slices_cost K vm.mem (vec_haddr K vm vals_addr vals_len) 0 m := by
    intro m hm hpos hr hv hx hf
    obtain ⟨rh, hres⟩ := xlat_ok_true _ hr
    obtain ⟨vh, hvec⟩ := xlat_ok_true _ hv
    have hvh : vec_haddr K vm vals_addr vals_len = vh := by simp [vec_haddr, hvec]
    rw [hvh] at hx hf ⊢
    rw [core_at_loop K name H vm _ _ _ _ rh vh hmax hpos hcu2 hres hvec]
    have hl := sha256_loop_cu K vh m vals_len 0 (vm_at_loop K vm vals_addr vals_len result_addr) []
      hm (fun j _ hj => by
        have := hx j (by omega)
        simpa [slice_xlat, vm_at_loop] using this)
      (fun h => by
        have := hf h
        simpa [slice_xlat, vm_at_loop] using this)
    cases hloop : sha256_loop K vh vals_len 0
        (vm_at_loop K vm vals_addr vals_len result_addr) [] with
    | fail e v =>
      rw [hloop] at hl
      simpa [fd_vm_res.vm, vm_at_loop] using hl
    | ok s v =>
      rw [hloop] at hl
      simpa [fd_vm_res.vm, vm_at_loop] using hl
  cases p with
  | result =>
    obtain ⟨f, hres⟩ := xlat_ok_false _ hp
    rw [core_result_fault K name H vm _ _ _ _ f hmax hcu2 hres]
    rfl
  | descriptors =>
    obtain ⟨hr, hpos, hv⟩ := hp
    obtain ⟨rh, hres⟩ := xlat_ok_true _ hr
    obtain ⟨f, hvec⟩ := xlat_ok_false _ hv
    rw [core_vec_fault K name H vm _ _ _ _ rh f hmax hpos hcu2 hres hvec]
    rfl
  | slice m =>
    obtain ⟨hr, hm, hv, hx, hf⟩ := hp
    exact loop_case m (by omega) (by omega) hr hv hx (fun _ => hf)
  | none =>
    obtain ⟨hr, hrest⟩ := hp
    by_cases hn : vals_len = 0
    · subst hn
      obtain ⟨rh, hres⟩ := xlat_ok_true _ hr
      rw [core_empty K name H vm _ _ _ rh hcu2 hres]
      simp [stop_cost, slices_cost]
    · obtain ⟨hv, hx⟩ := hrest (by omega)
      exact loop_case vals_len (Nat.le_refl _) (by omega) hr hv hx (fun h => absurd h (by omega))

theorem slices_cost_congr (K : fd_vm_params) (mem1 mem2 : Nat → Nat) (vh1 vh2 m : Nat)
    (h : ∀ j, j < m → vec_len mem1 vh1 j = vec_len mem2 vh2 j) :
    slices_cost K mem1 vh1 0 m = slices_cost K mem2 vh2 0 m := by
  unfold slices_cost
  congr 1
  apply List.map_congr_left
  intro j hj
  rw [h j (by simpa using (List.mem_range'_1.mp hj).2)]

theorem core_same_charge (K : fd_vm_params) (name : String) (H : List Nat → List Nat)
    (vm1 vm2 : fd_vm_t) (vals_addr1 vals_addr2 vals_len result_addr1 result_addr2 ret1 ret2 : Nat)
    (p : fd_vm_stop)
    (hcu : vm1.cu = vm2.cu)
    (hlens : ∀ j, j < vals_len →
      vec_len vm1.mem (vec_haddr K vm1 vals_addr1 vals_len) j
        = vec_len vm2.mem (vec_haddr K vm2 vals_addr2 vals_len) j)
    (h1 : stops_at K vm1 vals_addr1 vals_len result_addr1 p)
    (h2 : stops_at K vm2 vals_addr2 vals_len result_addr2 p) :
    vm1.cu - (hash_syscall_core K name H vm1 vals_addr1 vals_len result_addr1 ret1).vm.cu
      = vm2.cu - (hash_syscall_core K name H vm2 vals_addr2 vals_len result_addr2 ret2).vm.cu := by
  by_cases hmax : K.FD_VM_SHA256_MAX_SLICES < vals_len
  · rw [core_too_many K name H vm1 _ _ _ _ hmax, core_too_many K name H vm2 _ _ _ _ hmax]
    simp
  · have hmax2 : vals_len ≤ K.FD_VM_SHA256_MAX_SLICES := by omega
    rw [core_final_cu K name H vm1 _ _ _ _ p hmax2 h1, core_final_cu K name H vm2 _ _ _ _ p hmax2 h2,
      hcu]
    have hsc : stop_cost K vm1 vals_addr1 vals_len p = stop_cost K vm2 vals_addr2 vals_len p := by
      cases p with
      | result => rfl
      | descriptors => rfl
      | slice m =>
        have hm : m < vals_len := h1.2.1
        exact slices_cost_congr K _ _ _ _ m (fun j hj => hlens j (by omega))
      | none => exact slices_cost_congr K _ _ _ _ vals_len hlens
    rw [hsc]

theorem slices_cost_le (K : fd_vm_params) (mem : Nat → Nat) (vh a b : Nat) (h : a ≤ b) :
    slices_cost K mem vh 0 a ≤ slices_cost K mem vh 0 b := by
  obtain ⟨d, rfl⟩ := Nat.exists_eq_add_of_le h
  unfold slices_cost
  rw [Nat.add_comm a d, ← List.range'_append_1 0 a d, List.map_append, List.sum_append]
  exact Nat.le_add_right _ _

theorem stop_cost_eq (K : fd_vm_params) (vm : fd_vm_t) (vals_addr vals_len : Nat)
    (p : fd_vm_stop) :
    stop_cost K vm vals_addr vals_len p
      = slices_cost K vm.mem (vec_haddr K vm vals_addr vals_len) 0 (stop_slices vals_len p) := by
  cases p <;> simp [stop_cost, stop_slices, slices_cost]

theorem stop_slices_le (K : fd_vm_params) (vm : fd_vm_t) (vals_addr vals_len result_addr : Nat)
    (p : fd_vm_stop) (hp : stops_at K vm vals_addr vals_len result_addr p) :
    stop_slices vals_len p ≤ vals_len := by
  cases p with
  | result => exact Nat.zero_le _
  | descriptors => exact Nat.zero_le _
  | slice m => exact Nat.le_of_lt hp.2.1
  | none => exact Nat.le_refl _

/-- The amount taken from the budget by the common body: nothing over the
slice limit, else the base cost and the slice costs before the stop, up to the
whole budget. -/
theorem core_charge (K : fd_vm_params) (name : String) (H : List Nat → List Nat)
    (vm : fd_vm_t) (vals_addr vals_len result_addr ret : Nat) (p : fd_vm_stop)
    (hp : stops_at K vm vals_addr vals_len result_addr p) :
    (K.FD_VM_SHA256_MAX_SLICES < vals_len →
      vm.cu - (hash_syscall_core K name H vm vals_addr vals_len result_addr ret).vm.cu = 0) ∧
    (vals_len ≤ K.FD_VM_SHA256_MAX_SLICES →
      vm.cu - (hash_syscall_core K name H vm vals_addr vals_len result_addr ret).vm.cu
        = min vm.cu (K.FD_VM_SHA256_BASE_COST + stop_cost K vm vals_addr vals_len p)) := by
  constructor
  · intro hmax
    rw [core_too_many K name H vm _ _ _ _ hmax]
    simp
  · intro hmax
    rw [core_final_cu K name H vm _ _ _ _ p hmax hp]
    omega

/-- A call that reaches no more slices than another, with the same budget and
the same slice lengths, is charged no more. -/
theorem core_charge_mono (K : fd_vm_params) (name : String) (H : List Nat → List Nat)
    (vm1 vm2 : fd_vm_t) (vals_addr1 vals_addr2 vals_len result_addr1 result_addr2 ret1 ret2 : Nat)
    (p1 p2 : fd_vm_stop)
    (hcu : vm1.cu = vm2.cu)
    (hlens : ∀ j, j < vals_len →
      vec_len vm1.mem (vec_haddr K vm1 vals_addr1 vals_len) j
        = vec_len vm2.mem (vec_haddr K vm2 vals_addr2 vals_len) j)
    (h1 : stops_at K vm1 vals_addr1 vals_len result_addr1 p1)
    (h2 : stops_at K vm2 vals_addr2 vals_len result_addr2 p2)
    (hle : stop_slices vals_len p1 ≤ stop_slices vals_len p2) :
    vm1.cu - (hash_syscall_core K name H vm1 vals_addr1 vals_len result_addr1 ret1).vm.cu
      ≤ vm2.cu - (hash_syscall_core K name H vm2 vals_addr2 vals_len result_addr2 ret2).vm.cu := by
  by_cases hmax : K.FD_VM_SHA256_MAX_SLICES < vals_len
  · rw [(core_charge K name H vm1 _ _ _ ret1 p1 h1).1 hmax]
    exact Nat.zero_le _
  · have hmax2 : vals_len ≤ K.FD_VM_SHA256_MAX_SLICES := by omega
    rw [(core_charge K name H vm1 _ _ _ ret1 p1 h1).2 hmax2,
      (core_charge K name H vm2 _ _ _ ret2 p2 h2).2 hmax2, hcu,
      stop_cost_eq K vm1, stop_cost_eq K vm2]
    have hb1 := stop_slices_le K vm1 _ _ _ p1 h1
    have hc : slices_cost K vm1.mem (vec_haddr K vm1 vals_addr1 vals_len) 0
          (stop_slices vals_len p1)
        = slices_cost K vm2.mem (vec_haddr K vm2 vals_addr2 vals_len) 0
          (stop_slices vals_len p1) :=
      slices_cost_congr K _ _ _ _ _ (fun j hj => hlens j (by omega))
    have hm := slices_cost_le K vm2.mem (vec_haddr K vm2 vals_addr2 vals_len) _ _ hle
    rw [hc]
    omega

theorem core_charged_by_stop (K : fd_vm_params) (name : String) (H : List Nat → List Nat)
    (vm1 vm2 : fd_vm_t) (vals_addr1 vals_addr2 vals_len result_addr1 result_addr2 ret1 ret2 : Nat)
    (p1 p2 : fd_vm_stop)
    (hcu : vm1.cu = vm2.cu)
    (hlens : ∀ j, j < vals_len →
      vec_len vm1.mem (vec_haddr K vm1 vals_addr1 vals_len) j
        = vec_len vm2.mem (vec_haddr K vm2 vals_addr2 vals_len) j)
    (h1 : stops_at K vm1 vals_addr1 vals_len result_addr1 p1)
    (h2 : stops_at K vm2 vals_addr2 vals_len result_addr2 p2) :
    charged_by_stop K vm1 vm2 vals_addr1 vals_addr2 vals_len p1 p2
      (hash_syscall_core K name H vm1 vals_addr1 vals_len result_addr1 ret1)
      (hash_syscall_core K name H vm2 vals_addr2 vals_len result_addr2 ret2) := by
  refine ⟨fun hmax => ⟨(core_charge K name H vm1 _ _ _ ret1 p1 h1).1 hmax,
      (core_charge K name H vm2 _ _ _ ret2 p2 h2).1 hmax⟩,
    fun hmax => ⟨(core_charge K name H vm1 _ _ _ ret1 p1 h1).2 hmax,
      (core_charge K name H vm2 _ _ _ ret2 p2 h2).2 hmax⟩, ?_, ?_⟩
  · intro heq
    exact Nat.le_antisymm
      (core_charge_mono K name H vm1 vm2 _ _ _ _ _ ret1 ret2 p1 p2 hcu hlens h1 h2
        (Nat.le_of_eq heq))
      (core_charge_mono K name H vm2 vm1 _ _ _ _ _ ret2 ret1 p2 p1 hcu.symm
        (fun j hj => (hlens j hj).symm) h2 h1 (Nat.le_of_eq heq.symm))
  · exact core_charge_mono K name H vm1 vm2 _ _ _ _ _ ret1 ret2 p1 p2 hcu hlens h1 h2

/-- C7, amended: for each hash syscall, what a call is charged is fixed by the
remaining budget, `vals_len`, the slice lengths and the first translation that
faults.  Only the base charge precedes the translations: a call that faults at
`result_addr` or at the descriptor array is charged the base cost alone; the
cost of a slice is charged after the data of that slice has been translated,
so a call that faults first at the data of slice `m` is charged the base cost
and the costs of slices `0 .. m-1`, and a call with no fault the base cost and
the costs of all slices (in each case no more than the whole budget, and
nothing when `vals_len` is over the limit).  Hence two calls made with the
same remaining budget, the same `vals_len` and the same slice lengths are
charged the same when they reach the same number of slices, and a call whose
addresses fault is never charged more than one whose addresses are valid. -/
theorem C7_charge_fixed_by_first_fault (K : fd_vm_params) (vm1 vm2 : fd_vm_t)
    (vals_addr1 vals_addr2 vals_len result_addr1 result_addr2 r4 r5 ret1 ret2 : Nat)
    (p1 p2 : fd_vm_stop)
    (hcu : vm1.cu = vm2.cu)
    (hlens : ∀ j, j < vals_len →
      vec_len vm1.mem (vec_haddr K vm1 vals_addr1 vals_len) j
        = vec_len vm2.mem (vec_haddr K vm2 vals_addr2 vals_len) j)
    (h1 : stops_at K vm1 vals_addr1 vals_len result_addr1 p1)
    (h2 : stops_at K vm2 vals_addr2 vals_len result_addr2 p2) :
    charged_by_stop K vm1 vm2 vals_addr1 vals_addr2 vals_len p1 p2
      (fd_vm_syscall_sol_sha256 K vm1 vals_addr1 vals_len result_addr1 r4 r5 ret1)
      (fd_vm_syscall_sol_sha256 K vm2 vals_addr2 vals_len result_addr2 r4 r5 ret2) ∧
    charged_by_stop K vm1 vm2 vals_addr1 vals_addr2 vals_len p1 p2
      (fd_vm_syscall_sol_blake3 K vm1 vals_addr1 vals_len result_addr1 r4 r5 ret1)
      (fd_vm_syscall_sol_blake3 K vm2 vals_addr2 vals_len result_addr2 r4 r5 ret2) ∧
    charged_by_stop K vm1 vm2 vals_addr1 vals_addr2 vals_len p1 p2
      (fd_vm_syscall_sol_keccak256 K vm1 vals_addr1 vals_len result_addr1 r4 r5 ret1)
      (fd_vm_syscall_sol_keccak256 K vm2 vals_addr2 vals_len result_addr2 r4 r5 ret2) := by
  simp only [sha256_eq_core, blake3_eq_core, keccak256_eq_core]
  exact ⟨core_charged_by_stop K _ _ vm1 vm2 _ _ _ _ _ _ _ p1 p2 hcu hlens h1 h2,
    core_charged_by_stop K _ _ vm1 vm2 _ _ _ _ _ _ _ p1 p2 hcu hlens h1 h2,
    core_charged_by_stop K _ _ vm1 vm2 _ _ _ _ _ _ _ p1 p2 hcu hlens h1 h2⟩

/-- C7 amended, at concrete inputs.  A call whose only slice (length 3) has
the unmapped data address 9000 stops at the data of slice 0 and is charged the
base cost 85; the call with the data address 1048 has no fault and is charged
`85 + 10`.  A call with the unmapped output address 9999 is charged 85 as
well. -/
theorem C7_charge_fixed_by_first_fault_witness :
    (vm1.cu = vm0.cu ∧
      (∀ j, j < 1 → vec_len vm1.mem (vec_haddr K0 vm1 1016 1) j
        = vec_len vm0.mem (vec_haddr K0 vm0 1016 1) j) ∧
      stops_at K0 vm1 1016 1 3000 (.slice 0) ∧
      stops_at K0 vm0 1016 1 3000 .none ∧
      stops_at K0 vm0 1016 1 9999 .result ∧
      vm1.cu - (fd_vm_syscall_sol_sha256 K0 vm1 1016 1 3000 0 0 7).vm.cu = 85 ∧
      vm0.cu - (fd_vm_syscall_sol_sha256 K0 vm0 1016 1 3000 0 0 7).vm.cu = 95 ∧
      vm0.cu - (fd_vm_syscall_sol_sha256 K0 vm0 1016 1 9999 0 0 7).vm.cu = 85 ∧
      stop_cost K0 vm1 1016 1 (.slice 0) = 0 ∧ stop_cost K0 vm0 1016 1 .none = 10) ∧
    charged_by_stop K0 vm1 vm0 1016 1016 1 (.slice 0) .none
      (fd_vm_syscall_sol_sha256 K0 vm1 1016 1 3000 0 0 7)
      (fd_vm_syscall_sol_sha256 K0 vm0 1016 1 3000 0 0 7) :=
  ⟨⟨by decide, by decide, by decide, by decide, by decide, by decide, by decide, by decide,
      by decide, by decide⟩,
    (C7_charge_fixed_by_first_fault K0 vm1 vm0 1016 1016 1 3000 3000 0 0 7 7 (.slice 0) .none
      (by decide) (by decide) (by decide) (by decide)).1⟩

theorem core_slice_fault (K : fd_vm_params) (name : String) (H : List Nat → List Nat)
    (vm : fd_vm_t) (vals_addr vals_len result_addr ret rh vh : Nat) (ha : Nat → Nat) (i : Nat)
    (f : fd_vm_fault)
    (hmax : vals_len ≤ K.FD_VM_SHA256_MAX_SLICES) (hi : i < vals_len)
    (hcu : K.FD_VM_SHA256_BASE_COST + slices_cost K vm.mem vh 0 i ≤ vm.cu)
    (hres : fd_vm_translate vm.regions result_addr 32 K.FD_VM_ALIGN_RUST_U8 true = .ok rh)
    (hvec : fd_vm_translate vm.regions vals_addr ((vals_len * sizeof_fd_vm_vec_t) % 2 ^ 64)
      K.FD_VM_VEC_ALIGN false = .ok vh)
    (hdata : ∀ j, j < i → slice_xlat K vm vh j = .ok (ha j))
    (hfault : slice_xlat K vm vh i = .error f) :
    slice_fault_outcome K vm vals_addr vals_len result_addr ret vh ha i f
      (hash_syscall_core K name H vm vals_addr vals_len result_addr ret) := by
  rw [core_at_loop K name H vm _ _ _ _ rh vh hmax (by omega) (by omega) hres hvec]
  rw [sha256_loop_fault K vh ha f i vals_len 0 (vm_at_loop K vm vals_addr vals_len result_addr) []
    hi]
  · refine ⟨rfl, ?_, rfl, rfl, ?_⟩
    · show vm.cu - K.FD_VM_SHA256_BASE_COST - slices_cost K vm.mem vh 0 i + _ = vm.cu
      omega
    · simp [loop_stop, vm_at_loop]
  · intro j _ hj
    have := hdata j (by omega)
    simpa [slice_xlat, vm_at_loop] using this
  · simpa [slice_xlat, vm_at_loop] using hfault
  · simp only [vm_at_loop]
    omega

/-- C8: for each hash syscall, if the shape check, the base charge, the output
translation, the descriptor-array translation and slices `0 .. i-1` all succeed
but the data translation of slice `i` faults, the call returns the translation
fault at once: the remaining budget is the initial budget minus
`FD_VM_SHA256_BASE_COST` minus the costs of slices `0 .. i-1` only (not rolled
back; neither slice `i` nor a later slice is charged), no later slice is
translated or hashed, the output buffer is not written and `*_ret` is not
written. -/
theorem C8_slice_fault (K : fd_vm_params) (vm : fd_vm_t)
    (vals_addr vals_len result_addr r4 r5 ret rh vh : Nat) (ha : Nat → Nat) (i : Nat)
    (f : fd_vm_fault)
    (hmax : vals_len ≤ K.FD_VM_SHA256_MAX_SLICES) (hi : i < vals_len)
    (hcu : K.FD_VM_SHA256_BASE_COST + slices_cost K vm.mem vh 0 i ≤ vm.cu)
    (hres : fd_vm_translate vm.regions result_addr 32 K.FD_VM_ALIGN_RUST_U8 true = .ok rh)
    (hvec : fd_vm_translate vm.regions vals_addr ((vals_len * sizeof_fd_vm_vec_t) % 2 ^ 64)
      K.FD_VM_VEC_ALIGN false = .ok vh)
    (hdata : ∀ j, j < i → slice_xlat K vm vh j = .ok (ha j))
    (hfault : slice_xlat K vm vh i = .error f) :
    slice_fault_outcome K vm vals_addr vals_len result_addr ret vh ha i f
      (fd_vm_syscall_sol_sha256 K vm vals_addr vals_len result_addr r4 r5 ret) ∧
    slice_fault_outcome K vm vals_addr vals_len result_addr ret vh ha i f
      (fd_vm_syscall_sol_blake3 K vm vals_addr vals_len result_addr r4 r5 ret) ∧
    slice_fault_outcome K vm vals_addr vals_len result_addr ret vh ha i f
      (fd_vm_syscall_sol_keccak256 K vm vals_addr vals_len result_addr r4 r5 ret) := by
  rw [sha256_eq_core, blake3_eq_core, keccak256_eq_core]
  exact ⟨core_slice_fault K _ _ vm _ _ _ _ rh vh ha i f hmax hi hcu hres hvec hdata hfault,
    core_slice_fault K _ _ vm _ _ _ _ rh vh ha i f hmax hi hcu hres hvec hdata hfault,
    core_slice_fault K _ _ vm _ _ _ _ rh vh ha i f hmax hi hcu hres hvec hdata hfault⟩

/-- C8 at a concrete input: three slices, the data of slice 1 at the unmapped
address 9000; the call stops there, charged `85 + 10`. -/
theorem C8_slice_fault_witness :
    (3 ≤ K0.FD_VM_SHA256_MAX_SLICES ∧ 1 < 3 ∧
      K0.FD_VM_SHA256_BASE_COST + slices_cost K0 vm1.mem 5000 0 1 ≤ vm1.cu ∧
      fd_vm_translate vm1.regions 3000 32 K0.FD_VM_ALIGN_RUST_U8 true = .ok 7000 ∧
      fd_vm_translate vm1.regions 1000 ((3 * sizeof_fd_vm_vec_t) % 2 ^ 64)
        K0.FD_VM_VEC_ALIGN false = .ok 5000 ∧
      (∀ j, j < 1 → slice_xlat K0 vm1 5000 j = .ok (ha0 j)) ∧
      slice_xlat K0 vm1 5000 1 = .error .OutOfBounds ∧
      (fd_vm_syscall_sol_sha256 K0 vm1 1000 3 3000 0 0 7).vm.cu = 105) ∧
    slice_fault_outcome K0 vm1 1000 3 3000 7 5000 ha0 1 .OutOfBounds
      (fd_vm_syscall_sol_sha256 K0 vm1 1000 3 3000 0 0 7) :=
  ⟨⟨by decide, by decide, by decide, by decide, by decide, by decide, by decide, by decide⟩,
    (C8_slice_fault K0 vm1 1000 3 3000 0 0 7 7000 5000 ha0 1 .OutOfBounds
      (by decide) (by decide) (by decide) (by decide) (by decide) (by decide) (by decide)).1⟩

theorem core_result_fault_outcome (K : fd_vm_params) (name : String) (H : List Nat → List Nat)
    (vm : fd_vm_t) (vals_addr vals_len result_addr ret : Nat) (f : fd_vm_fault)
    (h : vals_len ≤ K.FD_VM_SHA256_MAX_SLICES) (hcu : K.FD_VM_SHA256_BASE_COST ≤ vm.cu)
    (hres : fd_vm_translate vm.regions result_addr 32 K.FD_VM_ALIGN_RUST_U8 true = .error f) :
    result_fault_outcome K vm result_addr ret f
      (hash_syscall_core K name H vm vals_addr vals_len result_addr ret) := by
  rw [core_result_fault K name H vm _ _ _ _ f h hcu hres]
  refine ⟨rfl, ?_, rfl, rfl, rfl⟩
  show vm.cu - K.FD_VM_SHA256_BASE_COST + K.FD_VM_SHA256_BASE_COST = vm.cu
  omega

/-- C9: for each hash syscall with `vals_len <= FD_VM_SHA256_MAX_SLICES` and a
budget of at least `FD_VM_SHA256_BASE_COST`: if `result_addr` does not
translate as 32 mutable bytes (for instance because it lies in a mapped region
that is not writable), the call returns the translation fault before the
descriptor array is translated or any slice is read, charged or hashed; no byte
of memory is changed and exactly the base cost has been charged. -/
theorem C9_output_fault (K : fd_vm_params) (vm : fd_vm_t)
    (vals_addr vals_len result_addr r4 r5 ret : Nat) (f : fd_vm_fault)
    (h : vals_len ≤ K.FD_VM_SHA256_MAX_SLICES) (hcu : K.FD_VM_SHA256_BASE_COST ≤ vm.cu)
    (hres : fd_vm_translate vm.regions result_addr 32 K.FD_VM_ALIGN_RUST_U8 true = .error f) :
    result_fault_outcome K vm result_addr ret f
      (fd_vm_syscall_sol_sha256 K vm vals_addr vals_len result_addr r4 r5 ret) ∧
    result_fault_outcome K vm result_addr ret f
      (fd_vm_syscall_sol_blake3 K vm vals_addr vals_len result_addr r4 r5 ret) ∧
    result_fault_outcome K vm result_addr ret f
      (fd_vm_syscall_sol_keccak256 K vm vals_addr vals_len result_addr r4 r5 ret) := by
  rw [sha256_eq_core, blake3_eq_core, keccak256_eq_core]
  exact ⟨core_result_fault_outcome K _ _ vm _ _ _ _ f h hcu hres,
    core_result_fault_outcome K _ _ vm _ _ _ _ f h hcu hres,
    core_result_fault_outcome K _ _ vm _ _ _ _ f h hcu hres⟩

/-- C9 at a concrete input: the output address 1000 lies in the mapped,
read-only input region of `vm0`. -/
theorem C9_output_fault_witness :
    (3 ≤ K0.FD_VM_SHA256_MAX_SLICES ∧ K0.FD_VM_SHA256_BASE_COST ≤ vm0.cu ∧
      fd_vm_translate vm0.regions 1000 32 K0.FD_VM_ALIGN_RUST_U8 false = .ok 5000 ∧
      fd_vm_translate vm0.regions 1000 32 K0.FD_VM_ALIGN_RUST_U8 true
        = .error .ReadOnlyViolation) ∧
    result_fault_outcome K0 vm0 1000 7 .ReadOnlyViolation
      (fd_vm_syscall_sol_keccak256 K0 vm0 1000 3 1000 0 0 7) :=
  ⟨⟨by decide, by decide, by decide, by decide⟩,
    (C9_output_fault K0 vm0 1000 3 1000 0 0 7 .ReadOnlyViolation
      (by decide) (by decide) (by decide)).2.2⟩

theorem slices_events_no_fini (K : fd_vm_params) (mem : Nat → Nat) (vh : Nat) (ha : Nat → Nat)
    (i n h : Nat) : fd_vm_event.hash_fini h ∉ slices_events K mem vh ha i n := by
  simp [slices_events, slice_events]

theorem core_budget (K : fd_vm_params) (name : String) (H : List Nat → List Nat)
    (vm : fd_vm_t) (vals_addr vals_len result_addr ret : Nat)
    (hmax : vals_len ≤ K.FD_VM_SHA256_MAX_SLICES)
    (hb : K.FD_VM_ERR_BUDGET ≠ FD_VM_SUCCESS)
    (h : budget_exhausted K vm vals_addr vals_len result_addr) :
    budget_outcome K vm ret (hash_syscall_core K name H vm vals_addr vals_len result_addr ret) := by
  rcases h with hlt | ⟨k, hk, hr, hv, hx, hle, hgt⟩
  · rw [core_base_budget K name H vm _ _ _ _ hmax hlt]
    exact ⟨rfl, hb, rfl, rfl, rfl, _, rfl, by simp⟩
  · obtain ⟨rh, hres⟩ := xlat_ok_true _ hr
    obtain ⟨vh, hvec⟩ := xlat_ok_true _ hv
    have hvh : vec_haddr K vm vals_addr vals_len = vh := by simp [vec_haddr, hvec]
    rw [hvh] at hx hle hgt
    rw [core_at_loop K name H vm _ _ _ _ rh vh hmax (by omega) (by omega) hres hvec]
    rw [sha256_loop_budget K vh (slice_haddr K vm vh) k vals_len 0
      (vm_at_loop K vm vals_addr vals_len result_addr) [] hk]
    · refine ⟨rfl, hb, rfl, rfl, rfl,
        [ .cu_update K.FD_VM_SHA256_BASE_COST,
          .translate result_addr K.FD_VM_ALIGN_RUST_U8 32 true,
          .translate vals_addr K.FD_VM_VEC_ALIGN ((vals_len * sizeof_fd_vm_vec_t) % 2 ^ 64) false ]
        ++ slices_events K vm.mem vh (slice_haddr K vm vh) 0 k
        ++ [ .translate (vec_addr vm.mem vh k) K.FD_VM_ALIGN_RUST_U8 (vec_len vm.mem vh k) false,
             .cu_update (slice_cost K (vec_len vm.mem vh k)) ], ?_, ?_⟩
      · simp [loop_stop, vm_at_loop]
      · intro h
        have := slices_events_no_fini K vm.mem vh (slice_haddr K vm vh) 0 k h
        simp [this]
    · intro j _ hj
      have := slice_xlat_haddr K vm vh j (xlat_ok_true _ (hx j (by omega)))
      simpa [slice_xlat, slice_haddr, vm_at_loop] using this
    · simp only [vm_at_loop]
      omega
    · simp only [vm_at_loop]
      omega

/-- C10: for each hash syscall (with the shape check passed), if the base cost
or any per-slice cost exceeds the budget remaining at the moment it is charged,
the call returns the budget-exhaustion status and not success, the hash is
never finalized into the output buffer (every byte of memory equals its value
before the call) and `*_ret` is not written; when the budget is below
`FD_VM_SHA256_BASE_COST` this holds whether or not `result_addr` translates.
The budget status is a parameter, taken to be nonzero. -/
theorem C10_budget_exhaustion (K : fd_vm_params) (vm : fd_vm_t)
    (vals_addr vals_len result_addr r4 r5 ret : Nat)
    (hmax : vals_len ≤ K.FD_VM_SHA256_MAX_SLICES)
    (hb : K.FD_VM_ERR_BUDGET ≠ FD_VM_SUCCESS)
    (h : budget_exhausted K vm vals_addr vals_len result_addr) :
    budget_outcome K vm ret
      (fd_vm_syscall_sol_sha256 K vm vals_addr vals_len result_addr r4 r5 ret) ∧
    budget_outcome K vm ret
      (fd_vm_syscall_sol_blake3 K vm vals_addr vals_len result_addr r4 r5 ret) ∧
    budget_outcome K vm ret
      (fd_vm_syscall_sol_keccak256 K vm vals_addr vals_len result_addr r4 r5 ret) := by
  rw [sha256_eq_core, blake3_eq_core, keccak256_eq_core]
  exact ⟨core_budget K _ _ vm _ _ _ _ hmax hb h, core_budget K _ _ vm _ _ _ _ hmax hb h,
    core_budget K _ _ vm _ _ _ _ hmax hb h⟩

/-- C10 at two concrete inputs: a budget of 50, below the base cost 85, with
the unmapped output address 9999; and a budget of 100, which covers the base
cost and slice 0 (`85 + 10`) but not slice 1. -/
theorem C10_budget_exhaustion_witness :
    (3 ≤ K0.FD_VM_SHA256_MAX_SLICES ∧ K0.FD_VM_ERR_BUDGET ≠ FD_VM_SUCCESS ∧
      ({ vm0 with cu := 50 } : fd_vm_t).cu < K0.FD_VM_SHA256_BASE_COST ∧
      xlat_ok (result_xlat K0 { vm0 with cu := 50 } 9999) = false ∧
      budget_exhausted K0 { vm0 with cu := 100 } 1000 3 3000) ∧
    budget_outcome K0 { vm0 with cu := 50 } 7
      (fd_vm_syscall_sol_sha256 K0 { vm0 with cu := 50 } 1000 3 9999 0 0 7) ∧
    budget_outcome K0 { vm0 with cu := 100 } 7
      (fd_vm_syscall_sol_sha256 K0 { vm0 with cu := 100 } 1000 3 3000 0 0 7) :=
  ⟨⟨by decide, by decide, by decide, by decide,
      Or.inr ⟨1, by decide, by decide, by decide, by decide, by decide, by decide⟩⟩,
    (C10_budget_exhaustion K0 { vm0 with cu := 50 } 1000 3 9999 0 0 7 (by decide) (by decide)
      (Or.inl (by decide))).1,
    (C10_budget_exhaustion K0 { vm0 with cu := 100 } 1000 3 3000 0 0 7 (by decide) (by decide)
      (Or.inr ⟨1, by decide, by decide, by decide, by decide, by decide, by decide⟩)).1⟩

/-! ## Claims C11 - C17 -/

theorem sha256_loop_cu_le (K : fd_vm_params) (vh : Nat) :
    ∀ (n i : Nat) (vm : fd_vm_t) (sha : List Nat),
      (sha256_loop K vh n i vm sha).vm.cu ≤ vm.cu := by
  intro n
  induction n with
  | zero => intro i vm sha; simp [sha256_loop, fd_vm_res.vm]
  | succ n ih =>
    intro i vm sha
    simp only [sha256_loop, FD_VM_MEM_SLICE_HADDR_LD, FD_VM_MEM_HADDR_LD, sizeof_fd_vm_vec_t,
      FD_VM_CU_UPDATE, fd_vm_t.emit, fd_sha256_append]
    cases hx : fd_vm_translate vm.regions (load_ulong vm.mem (vh + 16 * i))
        (load_ulong vm.mem (vh + 16 * i + 8)) K.FD_VM_ALIGN_RUST_U8 false with
    | error f => simp [fd_vm_res.vm]
    | ok hd =>
      by_cases hgt : slice_cost K (load_ulong vm.mem (vh + 16 * i + 8)) > vm.cu
      · simp [hgt, fd_vm_res.vm]
      · simp only [hgt, if_false]
        exact le_trans (ih _ _ _) (Nat.sub_le _ _)

theorem core_cu_le (K : fd_vm_params) (name : String) (H : List Nat → List Nat)
    (vm : fd_vm_t) (vals_addr vals_len result_addr ret : Nat) :
    (hash_syscall_core K name H vm vals_addr vals_len result_addr ret).vm.cu ≤ vm.cu := by
  by_cases hmax : K.FD_VM_SHA256_MAX_SLICES < vals_len
  · rw [core_too_many K name H vm _ _ _ _ hmax]
  have h : vals_len ≤ K.FD_VM_SHA256_MAX_SLICES := by omega
  by_cases hcu : vm.cu < K.FD_VM_SHA256_BASE_COST
  · rw [core_base_budget K name H vm _ _ _ _ h hcu]
    exact Nat.zero_le _
  have hcu2 : K.FD_VM_SHA256_BASE_COST ≤ vm.cu := by omega
  cases hres : fd_vm_translate vm.regions result_addr 32 K.FD_VM_ALIGN_RUST_U8 true with
  | error f =>
    rw [core_result_fault K name H vm _ _ _ _ f h hcu2 hres]
    exact Nat.sub_le _ _
  | ok rh =>
    by_cases hn : vals_len = 0
    · subst hn
      rw [core_empty K name H vm _ _ _ rh hcu2 hres]
      exact Nat.sub_le _ _
    · have hpos : 0 < vals_len := by omega
      cases hvec : fd_vm_translate vm.regions vals_addr
          ((vals_len * sizeof_fd_vm_vec_t) % 2 ^ 64) K.FD_VM_VEC_ALIGN false with
      | error f =>
        rw [core_vec_fault K name H vm _ _ _ _ rh f h hpos hcu2 hres hvec]
        exact Nat.sub_le _ _
      | ok vh =>
        rw [core_at_loop K name H vm _ _ _ _ rh vh h hpos hcu2 hres hvec]
        have hl := sha256_loop_cu_le K vh vals_len 0
          (vm_at_loop K vm vals_addr vals_len result_addr) []
        have hb : (vm_at_loop K vm vals_addr vals_len result_addr).cu ≤ vm.cu := Nat.sub_le _ _
        cases hloop : sha256_loop K vh vals_len 0
            (vm_at_loop K vm vals_addr vals_len result_addr) [] with
        | fail e v =>
          rw [hloop] at hl
          exact le_trans hl hb
        | ok s v =>
          rw [hloop] at hl
          exact le_trans hl hb

/-- C11: the compute budget is monotonically non-increasing across every call
of every hash syscall, whatever the outcome (success, too many slices,
translation fault, budget exhaustion): the budget after the call is at most
the budget before; and a charge never wraps the counter: `FD_VM_CU_UPDATE`
leaves `budget - cost`, or 0 when the cost is larger than the remaining
budget. -/
theorem C11_budget_never_increases (K : fd_vm_params) (vm : fd_vm_t)
    (vals_addr vals_len result_addr r4 r5 ret : Nat) :
    (fd_vm_syscall_sol_sha256 K vm vals_addr vals_len result_addr r4 r5 ret).vm.cu ≤ vm.cu ∧
    (fd_vm_syscall_sol_blake3 K vm vals_addr vals_len result_addr r4 r5 ret).vm.cu ≤ vm.cu ∧
    (fd_vm_syscall_sol_keccak256 K vm vals_addr vals_len result_addr r4 r5 ret).vm.cu ≤ vm.cu ∧
    ∀ cost, (FD_VM_CU_UPDATE K vm cost).vm.cu = (if vm.cu < cost then 0 else vm.cu - cost) := by
  rw [sha256_eq_core, blake3_eq_core, keccak256_eq_core]
  refine ⟨core_cu_le K _ _ vm _ _ _ _, core_cu_le K _ _ vm _ _ _ _, core_cu_le K _ _ vm _ _ _ _, ?_⟩
  intro cost
  simp only [FD_VM_CU_UPDATE, fd_vm_t.emit]
  by_cases h : vm.cu < cost
  · have h2 : cost > vm.cu := h
    simp [h, h2, fd_vm_res.vm]
  · have h2 : ¬ cost > vm.cu := h
    simp [h, h2, fd_vm_res.vm]

theorem slice_cost_mono (K : fd_vm_params) (len1 len2 : Nat) (h : len1 ≤ len2) :
    slice_cost K len1 ≤ slice_cost K len2 := by
  rw [slice_cost_eq_claimed, slice_cost_eq_claimed]
  unfold claimed_slice_cost
  have hd : len1 / 2 ≤ len2 / 2 := Nat.div_le_div_right h
  have hm : K.FD_VM_SHA256_BYTE_COST * (len1 / 2) ≤ K.FD_VM_SHA256_BYTE_COST * (len2 / 2) :=
    Nat.mul_le_mul_left _ hd
  exact max_le_max (le_refl _) (min_le_min hm (le_refl _))

/-- C12: the per-slice cost of lines 74-75 is monotonically non-decreasing in
the slice length, is never below `FD_VM_MEM_OP_BASE_COST`, and never wraps: for
every length and every per-byte rate it equals
`max(FD_VM_MEM_OP_BASE_COST, FD_VM_SHA256_BYTE_COST * (len / 2))` computed over
the unbounded naturals and clamped to `2^64-1` (the minimum cost being a
64-bit constant). -/
theorem C12_slice_cost_monotone_saturating (K : fd_vm_params) (len1 len2 : Nat)
    (h : len1 ≤ len2) (hm : K.FD_VM_MEM_OP_BASE_COST < 2 ^ 64) :
    slice_cost K len1 ≤ slice_cost K len2 ∧
    K.FD_VM_MEM_OP_BASE_COST ≤ slice_cost K len1 ∧
    slice_cost K len1 = clamped_slice_cost K len1 ∧
    slice_cost K len2 = clamped_slice_cost K len2 := by
  have hc : ∀ len, slice_cost K len = clamped_slice_cost K len := by
    intro len
    rw [slice_cost_eq_claimed]
    unfold claimed_slice_cost clamped_slice_cost
    have hp : (2 : Nat) ^ 64 = 18446744073709551616 := by norm_num
    rw [hp] at hm ⊢
    omega
  refine ⟨slice_cost_mono K len1 len2 h, ?_, hc len1, hc len2⟩
  rw [slice_cost_eq_claimed]
  exact le_max_left _ _

/-- C12 at concrete inputs: with the largest per-byte rate `2^64-1`, the
lengths `2^64-2` and `2^64-1` both cost `2^64-1`; with rate 1, length
`2^64-1` costs `2^63-1` and length 5 costs the minimum 10. -/
theorem C12_slice_cost_monotone_saturating_witness :
    ((2 ^ 64 - 2 : Nat) ≤ 2 ^ 64 - 1 ∧ K1.FD_VM_MEM_OP_BASE_COST < 2 ^ 64 ∧
      slice_cost K1 (2 ^ 64 - 1) = 2 ^ 64 - 1 ∧
      slice_cost K0 (2 ^ 64 - 1) = 2 ^ 63 - 1 ∧ slice_cost K0 5 = 10) ∧
    slice_cost K1 (2 ^ 64 - 2) ≤ slice_cost K1 (2 ^ 64 - 1) ∧
    K1.FD_VM_MEM_OP_BASE_COST ≤ slice_cost K1 (2 ^ 64 - 2) ∧
    slice_cost K1 (2 ^ 64 - 2) = clamped_slice_cost K1 (2 ^ 64 - 2) ∧
    slice_cost K1 (2 ^ 64 - 1) = clamped_slice_cost K1 (2 ^ 64 - 1) :=
  ⟨⟨by decide, by decide, by decide, by decide, by decide⟩,
    C12_slice_cost_monotone_saturating K1 (2 ^ 64 - 2) (2 ^ 64 - 1) (by decide) (by decide)⟩

/-- A successful call translated the output buffer, set `*_ret` to 0 and
changed memory only by storing there the digest of the message read before the
call. -/
theorem core_success_state (K : fd_vm_params) (name : String) (H : List Nat → List Nat)
    (vm : fd_vm_t) (vals_addr vals_len result_addr ret : Nat) (hK : K.codes_distinct)
    (hs : (hash_syscall_core K name H vm vals_addr vals_len result_addr ret).status
      = FD_VM_SUCCESS) :
    ∃ rh, result_xlat K vm result_addr = .ok rh ∧
      (hash_syscall_core K name H vm vals_addr vals_len result_addr ret).ret = 0 ∧
      (hash_syscall_core K name H vm vals_addr vals_len result_addr ret).vm.mem
        = store_digest vm.mem rh (H (hashed_message K vm vals_addr vals_len)) := by
  obtain ⟨h0, hb, hf, _, _, _⟩ := hK
  by_cases hmax : K.FD_VM_SHA256_MAX_SLICES < vals_len
  · rw [core_too_many K name H vm _ _ _ _ hmax] at hs
    exact absurd hs h0
  have hmax2 : vals_len ≤ K.FD_VM_SHA256_MAX_SLICES := by omega
  by_cases hcu : vm.cu < K.FD_VM_SHA256_BASE_COST
  · rw [core_base_budget K name H vm _ _ _ _ hmax2 hcu] at hs
    exact absurd hs hb
  have hcu2 : K.FD_VM_SHA256_BASE_COST ≤ vm.cu := by omega
  cases hres : fd_vm_translate vm.regions result_addr 32 K.FD_VM_ALIGN_RUST_U8 true with
  | error f =>
    rw [core_result_fault K name H vm _ _ _ _ f hmax2 hcu2 hres] at hs
    exact absurd hs (hf f)
  | ok rh =>
    refine ⟨rh, hres, ?_⟩
    by_cases hn : vals_len = 0
    · subst hn
      rw [core_empty K name H vm _ _ _ rh hcu2 hres]
      exact ⟨rfl, by simp [hashed_message, slices_concat]⟩
    · have hpos : 0 < vals_len := by omega
      cases hvec : fd_vm_translate vm.regions vals_addr
          ((vals_len * sizeof_fd_vm_vec_t) % 2 ^ 64) K.FD_VM_VEC_ALIGN false with
      | error f =>
        rw [core_vec_fault K name H vm _ _ _ _ rh f hmax2 hpos hcu2 hres hvec] at hs
        exact absurd hs (hf f)
      | ok vh =>
        have hl := core_at_loop K name H vm vals_addr vals_len result_addr ret rh vh hmax2 hpos
          hcu2 hres hvec
        have hvh : vec_haddr K vm vals_addr vals_len = vh := by
          simp only [vec_haddr, vec_xlat, hvec]
        cases hloop : sha256_loop K vh vals_len 0
            (vm_at_loop K vm vals_addr vals_len result_addr) [] with
        | fail e v =>
          rw [hl, hloop] at hs
          obtain ⟨h1, _⟩ := sha256_loop_inv_fail K vh _ _ _ _ _ _ hloop
          rcases h1 with h1 | ⟨f, h1⟩
          · exact absurd (h1 ▸ hs) hb
          · exact absurd (h1 ▸ hs) (hf f)
        | ok s v =>
          obtain ⟨hx, hc⟩ := sha256_loop_inv_ok K vh _ _ _ _ _ _ hloop
          have hdata : ∀ j, j < vals_len → slice_xlat K vm vh j = .ok (slice_haddr K vm vh j) := by
            intro j hj
            apply slice_xlat_haddr
            obtain ⟨hd, hh⟩ := hx j (Nat.zero_le j) (by omega)
            exact ⟨hd, by simpa [slice_xlat, vm_at_loop] using hh⟩
          have hc2 : K.FD_VM_SHA256_BASE_COST + slices_cost K vm.mem vh 0 vals_len ≤ vm.cu := by
            simp only [vm_at_loop] at hc
            omega
          rw [core_success K name H vm _ _ _ _ rh vh (slice_haddr K vm vh) hpos hmax2 hres hvec
            hdata hc2]
          exact ⟨rfl, by simp [hashed_message, hvh]⟩

/-- A call that does not return success leaves `*_ret` and memory as they
were. -/
theorem core_failure_frame (K : fd_vm_params) (name : String) (H : List Nat → List Nat)
    (vm : fd_vm_t) (vals_addr vals_len result_addr ret : Nat)
    (hs : (hash_syscall_core K name H vm vals_addr vals_len result_addr ret).status
      ≠ FD_VM_SUCCESS) :
    (hash_syscall_core K name H vm vals_addr vals_len result_addr ret).ret = ret ∧
    (hash_syscall_core K name H vm vals_addr vals_len result_addr ret).vm.mem = vm.mem := by
  by_cases hmax : K.FD_VM_SHA256_MAX_SLICES < vals_len
  · rw [core_too_many K name H vm _ _ _ _ hmax]
    exact ⟨rfl, rfl⟩
  have hmax2 : vals_len ≤ K.FD_VM_SHA256_MAX_SLICES := by omega
  by_cases hcu : vm.cu < K.FD_VM_SHA256_BASE_COST
  · rw [core_base_budget K name H vm _ _ _ _ hmax2 hcu]
    exact ⟨rfl, rfl⟩
  have hcu2 : K.FD_VM_SHA256_BASE_COST ≤ vm.cu := by omega
  cases hres : fd_vm_translate vm.regions result_addr 32 K.FD_VM_ALIGN_RUST_U8 true with
  | error f =>
    rw [core_result_fault K name H vm _ _ _ _ f hmax2 hcu2 hres]
    exact ⟨rfl, rfl⟩
  | ok rh =>
    by_cases hn : vals_len = 0
    · subst hn
      rw [core_empty K name H vm _ _ _ rh hcu2 hres] at hs
      exact absurd rfl hs
    · have hpos : 0 < vals_len := by omega
      cases hvec : fd_vm_translate vm.regions vals_addr
          ((vals_len * sizeof_fd_vm_vec_t) % 2 ^ 64) K.FD_VM_VEC_ALIGN false with
      | error f =>
        rw [core_vec_fault K name H vm _ _ _ _ rh f hmax2 hpos hcu2 hres hvec]
        exact ⟨rfl, rfl⟩
      | ok vh =>
        have hl := core_at_loop K name H vm vals_addr vals_len result_addr ret rh vh hmax2 hpos
          hcu2 hres hvec
        cases hloop : sha256_loop K vh vals_len 0
            (vm_at_loop K vm vals_addr vals_len result_addr) [] with
        | fail e v =>
          rw [hl, hloop]
          obtain ⟨_, h2, _⟩ := sha256_loop_inv_fail K vh _ _ _ _ _ _ hloop
          exact ⟨rfl, h2⟩
        | ok s v =>
          rw [hl, hloop] at hs
          exact absurd rfl hs

theorem core_ret (K : fd_vm_params) (name : String) (H : List Nat → List Nat)
    (vm : fd_vm_t) (vals_addr vals_len result_addr ret : Nat) (hK : K.codes_distinct) :
    ret_written_on_success_only ret
      (hash_syscall_core K name H vm vals_addr vals_len result_addr ret) := by
  refine ⟨fun hs => ⟨hs, ?_⟩, fun hs => (core_failure_frame K name H vm _ _ _ _ hs).1⟩
  obtain ⟨rh, _, h, _⟩ := core_success_state K name H vm _ _ _ _ hK hs
  exact h

/-- C13: for each of the three hash syscalls, whenever the call returns
`FD_VM_SUCCESS` the status is 0 and the result register `*_ret` has been set to
0; and `*_ret` is written on no path other than the success path (on every
other status it keeps the value it had).  The error codes are parameters,
taken to be nonzero. -/
theorem C13_ret_written_on_success_only (K : fd_vm_params) (vm : fd_vm_t)
    (vals_addr vals_len result_addr r4 r5 ret : Nat) (hK : K.codes_distinct) :
    ret_written_on_success_only ret
      (fd_vm_syscall_sol_sha256 K vm vals_addr vals_len result_addr r4 r5 ret) ∧
    ret_written_on_success_only ret
      (fd_vm_syscall_sol_blake3 K vm vals_addr vals_len result_addr r4 r5 ret) ∧
    ret_written_on_success_only ret
      (fd_vm_syscall_sol_keccak256 K vm vals_addr vals_len result_addr r4 r5 ret) := by
  rw [sha256_eq_core, blake3_eq_core, keccak256_eq_core]
  exact ⟨core_ret K _ _ vm _ _ _ _ hK, core_ret K _ _ vm _ _ _ _ hK, core_ret K _ _ vm _ _ _ _ hK⟩

/-- C13 at concrete inputs, entered with `*_ret = 7`: the successful call on
the three slices of `vm0` leaves 0, the call that faults at slice 1 of `vm1`
leaves 7. -/
theorem C13_ret_written_on_success_only_witness :
    (K0.codes_distinct ∧
      (fd_vm_syscall_sol_sha256 K0 vm0 1000 3 3000 0 0 7).status = 0 ∧
      (fd_vm_syscall_sol_sha256 K0 vm0 1000 3 3000 0 0 7).ret = 0 ∧
      (fd_vm_syscall_sol_sha256 K0 vm1 1000 3 3000 0 0 7).status = -1 ∧
      (fd_vm_syscall_sol_sha256 K0 vm1 1000 3 3000 0 0 7).ret = 7) ∧
    ret_written_on_success_only 7 (fd_vm_syscall_sol_sha256 K0 vm0 1000 3 3000 0 0 7) ∧
    ret_written_on_success_only 7 (fd_vm_syscall_sol_sha256 K0 vm1 1000 3 3000 0 0 7) :=
  ⟨⟨K0_codes_distinct, by decide, by decide, by decide, by decide⟩,
    (C13_ret_written_on_success_only K0 vm0 1000 3 3000 0 0 7 K0_codes_distinct).1,
    (C13_ret_written_on_success_only K0 vm1 1000 3 3000 0 0 7 K0_codes_distinct).1⟩

theorem core_overwrites (K : fd_vm_params) (name : String) (H : List Nat → List Nat)
    (vm : fd_vm_t) (vals_addr vals_len result_addr ret : Nat) (hK : K.codes_distinct)
    (hs : (hash_syscall_core K name H vm vals_addr vals_len result_addr ret).status
      = FD_VM_SUCCESS) :
    overwrites_exactly K vm result_addr (H (hashed_message K vm vals_addr vals_len))
      (hash_syscall_core K name H vm vals_addr vals_len result_addr ret) := by
  obtain ⟨rh, hres, _, hmem⟩ := core_success_state K name H vm _ _ _ _ hK hs
  refine ⟨rh, hres, ?_, ?_⟩
  · intro k hk
    rw [hmem]
    exact store_digest_read _ _ _ k hk
  · intro a ha
    rw [hmem]
    have : ¬ (rh ≤ a ∧ a < rh + 32) := by omega
    simp [store_digest, this]

/-- C14: on every successful call of a hash syscall, exactly the 32 bytes
starting at the translated result address are overwritten and every other byte
of memory keeps its value; no disjointness is assumed, so this holds also when
the output buffer overlaps input slices or the descriptor array, and the 32
bytes are then still the digest of the input as it was before the call.  The
error codes are parameters, taken to be nonzero. -/
theorem C14_exactly_32_bytes_overwritten (K : fd_vm_params) (vm : fd_vm_t)
    (vals_addr vals_len result_addr r4 r5 ret : Nat) (hK : K.codes_distinct) :
    ((fd_vm_syscall_sol_sha256 K vm vals_addr vals_len result_addr r4 r5 ret).status
        = FD_VM_SUCCESS →
      overwrites_exactly K vm result_addr (K.sha256 (hashed_message K vm vals_addr vals_len))
        (fd_vm_syscall_sol_sha256 K vm vals_addr vals_len result_addr r4 r5 ret)) ∧
    ((fd_vm_syscall_sol_blake3 K vm vals_addr vals_len result_addr r4 r5 ret).status
        = FD_VM_SUCCESS →
      overwrites_exactly K vm result_addr (K.blake3 (hashed_message K vm vals_addr vals_len))
        (fd_vm_syscall_sol_blake3 K vm vals_addr vals_len result_addr r4 r5 ret)) ∧
    ((fd_vm_syscall_sol_keccak256 K vm vals_addr vals_len result_addr r4 r5 ret).status
        = FD_VM_SUCCESS →
      overwrites_exactly K vm result_addr (K.keccak256 (hashed_message K vm vals_addr vals_len))
        (fd_vm_syscall_sol_keccak256 K vm vals_addr vals_len result_addr r4 r5 ret)) := by
  rw [sha256_eq_core, blake3_eq_core, keccak256_eq_core]
  exact ⟨core_overwrites K _ _ vm _ _ _ _ hK, core_overwrites K _ _ vm _ _ _ _ hK,
    core_overwrites K _ _ vm _ _ _ _ hK⟩

/-- C14 at a concrete input: in `vm3` the output buffer (virtual 3032 .. 3063)
overlaps descriptor 2 (3032 .. 3047) and all the data bytes (3048 .. 3055); the
call succeeds and stores the digest of `[1, .., 8]`. -/
theorem C14_exactly_32_bytes_overwritten_witness :
    (K0.codes_distinct ∧
      (fd_vm_syscall_sol_sha256 K0 vm3 3000 3 3032 0 0 7).status = FD_VM_SUCCESS ∧
      result_xlat K0 vm3 3032 = .ok 7032 ∧
      vec_xlat K0 vm3 3000 3 = .ok 7000 ∧
      slice_xlat K0 vm3 7000 2 = .ok 7051 ∧
      hashed_message K0 vm3 3000 3 = [1, 2, 3, 4, 5, 6, 7, 8]) ∧
    overwrites_exactly K0 vm3 3032 (K0.sha256 (hashed_message K0 vm3 3000 3))
      (fd_vm_syscall_sol_sha256 K0 vm3 3000 3 3032 0 0 7) :=
  ⟨⟨K0_codes_distinct, by decide, by decide, by decide, by decide, by decide⟩,
    (C14_exactly_32_bytes_overwritten K0 vm3 3000 3 3032 0 0 7 K0_codes_distinct).1 (by decide)⟩

theorem sha256_loop_frame (K : fd_vm_params) (vh : Nat) :
    ∀ (n i : Nat) (vm : fd_vm_t) (sha : List Nat),
      (sha256_loop K vh n i vm sha).vm.log = vm.log ∧
      (sha256_loop K vh n i vm sha).vm.mem = vm.mem := by
  intro n
  induction n with
  | zero => intro i vm sha; simp [sha256_loop, fd_vm_res.vm]
  | succ n ih =>
    intro i vm sha
    simp only [sha256_loop, FD_VM_MEM_SLICE_HADDR_LD, FD_VM_MEM_HADDR_LD, sizeof_fd_vm_vec_t,
      FD_VM_CU_UPDATE, fd_vm_t.emit, fd_sha256_append]
    cases hx : fd_vm_translate vm.regions (load_ulong vm.mem (vh + 16 * i))
        (load_ulong vm.mem (vh + 16 * i + 8)) K.FD_VM_ALIGN_RUST_U8 false with
    | error f => simp [fd_vm_res.vm]
    | ok hd =>
      by_cases hgt : slice_cost K (load_ulong vm.mem (vh + 16 * i + 8)) > vm.cu
      · simp [hgt, fd_vm_res.vm]
      · simp only [hgt, if_false]
        exact ih _ _ _

theorem core_same_dispatch (K : fd_vm_params) (name1 name2 : String)
    (H1 H2 : List Nat → List Nat) (vm : fd_vm_t) (vals_addr vals_len result_addr ret : Nat) :
    same_dispatch K vm result_addr
      (hash_syscall_core K name1 H1 vm vals_addr vals_len result_addr ret)
      (hash_syscall_core K name2 H2 vm vals_addr vals_len result_addr ret) := by
  by_cases hmax : K.FD_VM_SHA256_MAX_SLICES < vals_len
  · rw [core_too_many K name1 H1 vm _ _ _ _ hmax, core_too_many K name2 H2 vm _ _ _ _ hmax]
    exact ⟨rfl, rfl, rfl, rfl, rfl, rfl, fun _ _ => rfl⟩
  have h : vals_len ≤ K.FD_VM_SHA256_MAX_SLICES := by omega
  by_cases hcu : vm.cu < K.FD_VM_SHA256_BASE_COST
  · rw [core_base_budget K name1 H1 vm _ _ _ _ h hcu, core_base_budget K name2 H2 vm _ _ _ _ h hcu]
    exact ⟨rfl, rfl, rfl, rfl, rfl, rfl, fun _ _ => rfl⟩
  have hcu2 : K.FD_VM_SHA256_BASE_COST ≤ vm.cu := by omega
  cases hres : fd_vm_translate vm.regions result_addr 32 K.FD_VM_ALIGN_RUST_U8 true with
  | error f =>
    rw [core_result_fault K name1 H1 vm _ _ _ _ f h hcu2 hres,
      core_result_fault K name2 H2 vm _ _ _ _ f h hcu2 hres]
    exact ⟨rfl, rfl, rfl, rfl, rfl, rfl, fun _ _ => rfl⟩
  | ok rh =>
    have hout : ∀ (m : Nat → Nat) (d1 d2 : List Nat) (addr : Nat),
        (∀ r, result_xlat K vm result_addr = .ok r → addr < r ∨ r + 32 ≤ addr) →
        store_digest m rh d1 addr = store_digest m rh d2 addr := by
      intro m d1 d2 addr ha
      have := ha rh hres
      have hn : ¬ (rh ≤ addr ∧ addr < rh + 32) := by omega
      simp [store_digest, hn]
    by_cases hn : vals_len = 0
    · subst hn
      rw [core_empty K name1 H1 vm _ _ _ rh hcu2 hres, core_empty K name2 H2 vm _ _ _ rh hcu2 hres]
      exact ⟨rfl, rfl, rfl, rfl, rfl, rfl, fun addr ha => hout _ _ _ addr ha⟩
    · have hpos : 0 < vals_len := by omega
      cases hvec : fd_vm_translate vm.regions vals_addr
          ((vals_len * sizeof_fd_vm_vec_t) % 2 ^ 64) K.FD_VM_VEC_ALIGN false with
      | error f =>
        rw [core_vec_fault K name1 H1 vm _ _ _ _ rh f h hpos hcu2 hres hvec,
          core_vec_fault K name2 H2 vm _ _ _ _ rh f h hpos hcu2 hres hvec]
        exact ⟨rfl, rfl, rfl, rfl, rfl, rfl, fun _ _ => rfl⟩
      | ok vh =>
        rw [core_at_loop K name1 H1 vm _ _ _ _ rh vh h hpos hcu2 hres hvec,
          core_at_loop K name2 H2 vm _ _ _ _ rh vh h hpos hcu2 hres hvec]
        cases hloop : sha256_loop K vh vals_len 0
            (vm_at_loop K vm vals_addr vals_len result_addr) [] with
        | fail e v => exact ⟨rfl, rfl, rfl, rfl, rfl, rfl, fun _ _ => rfl⟩
        | ok s v => exact ⟨rfl, rfl, rfl, rfl, rfl, rfl, fun addr ha => hout _ _ _ addr ha⟩

theorem core_logged (K : fd_vm_params) (name : String) (H : List Nat → List Nat)
    (vm : fd_vm_t) (vals_addr vals_len result_addr ret : Nat) :
    logged K vm name vals_len
      (hash_syscall_core K name H vm vals_addr vals_len result_addr ret) := by
  unfold logged
  by_cases hmax : K.FD_VM_SHA256_MAX_SLICES < vals_len
  · rw [core_too_many K name H vm _ _ _ _ hmax, if_pos hmax]
  rw [if_neg hmax]
  have h : vals_len ≤ K.FD_VM_SHA256_MAX_SLICES := by omega
  by_cases hcu : vm.cu < K.FD_VM_SHA256_BASE_COST
  · rw [core_base_budget K name H vm _ _ _ _ h hcu]
  have hcu2 : K.FD_VM_SHA256_BASE_COST ≤ vm.cu := by omega
  cases hres : fd_vm_translate vm.regions result_addr 32 K.FD_VM_ALIGN_RUST_U8 true with
  | error f => rw [core_result_fault K name H vm _ _ _ _ f h hcu2 hres]
  | ok rh =>
    by_cases hn : vals_len = 0
    · subst hn
      rw [core_empty K name H vm _ _ _ rh hcu2 hres]
    · have hpos : 0 < vals_len := by omega
      cases hvec : fd_vm_translate vm.regions vals_addr
          ((vals_len * sizeof_fd_vm_vec_t) % 2 ^ 64) K.FD_VM_VEC_ALIGN false with
      | error f =>
        rw [core_vec_fault K name H vm _ _ _ _ rh f h hpos hcu2 hres hvec]
        rfl
      | ok vh =>
        rw [core_at_loop K name H vm _ _ _ _ rh vh h hpos hcu2 hres hvec]
        have hl := (sha256_loop_frame K vh vals_len 0
          (vm_at_loop K vm vals_addr vals_len result_addr) []).1
        cases hloop : sha256_loop K vh vals_len 0
            (vm_at_loop K vm vals_addr vals_len result_addr) [] with
        | fail e v =>
          rw [hloop] at hl
          exact hl
        | ok s v =>
          rw [hloop] at hl
          exact hl

/-- C15: the three hash syscalls are the same dispatch with a different hash.
Each is the common body `hash_syscall_core` instantiated with its display name
and digest (same slice limit, base cost and per-byte cost); for every VM state
and argument tuple the three return the same status, leave the same remaining
budget, perform the same sequence of charges and translations and write the
same value (or nothing) to `*_ret`; they differ only in the 32 digest bytes
written and in the algorithm name embedded in the too-many-slices message. -/
theorem C15_same_dispatch (K : fd_vm_params) (vm : fd_vm_t)
    (vals_addr vals_len result_addr r4 r5 ret : Nat) :
    (fd_vm_syscall_sol_sha256 K vm vals_addr vals_len result_addr r4 r5 ret
        = hash_syscall_core K "Sha256" K.sha256 vm vals_addr vals_len result_addr ret ∧
      fd_vm_syscall_sol_blake3 K vm vals_addr vals_len result_addr r4 r5 ret
        = hash_syscall_core K "Blake3" K.blake3 vm vals_addr vals_len result_addr ret ∧
      fd_vm_syscall_sol_keccak256 K vm vals_addr vals_len result_addr r4 r5 ret
        = hash_syscall_core K "Keccak256" K.keccak256 vm vals_addr vals_len result_addr ret) ∧
    same_dispatch K vm result_addr
      (fd_vm_syscall_sol_sha256 K vm vals_addr vals_len result_addr r4 r5 ret)
      (fd_vm_syscall_sol_blake3 K vm vals_addr vals_len result_addr r4 r5 ret) ∧
    same_dispatch K vm result_addr
      (fd_vm_syscall_sol_sha256 K vm vals_addr vals_len result_addr r4 r5 ret)
      (fd_vm_syscall_sol_keccak256 K vm vals_addr vals_len result_addr r4 r5 ret) ∧
    same_dispatch K vm result_addr
      (fd_vm_syscall_sol_blake3 K vm vals_addr vals_len result_addr r4 r5 ret)
      (fd_vm_syscall_sol_keccak256 K vm vals_addr vals_len result_addr r4 r5 ret) ∧
    logged K vm "Sha256" vals_len
      (fd_vm_syscall_sol_sha256 K vm vals_addr vals_len result_addr r4 r5 ret) ∧
    logged K vm "Blake3" vals_len
      (fd_vm_syscall_sol_blake3 K vm vals_addr vals_len result_addr r4 r5 ret) ∧
    logged K vm "Keccak256" vals_len
      (fd_vm_syscall_sol_keccak256 K vm vals_addr vals_len result_addr r4 r5 ret) := by
  refine ⟨⟨sha256_eq_core K vm _ _ _ r4 r5 _, blake3_eq_core K vm _ _ _ r4 r5 _,
    keccak256_eq_core K vm _ _ _ r4 r5 _⟩, ?_⟩
  rw [sha256_eq_core, blake3_eq_core, keccak256_eq_core]
  exact ⟨core_same_dispatch K _ _ _ _ vm _ _ _ _, core_same_dispatch K _ _ _ _ vm _ _ _ _,
    core_same_dispatch K _ _ _ _ vm _ _ _ _, core_logged K _ _ vm _ _ _ _,
    core_logged K _ _ vm _ _ _ _, core_logged K _ _ vm _ _ _ _⟩

theorem too_many_slices_msg_length (name : String) (vals_len limit : Nat)
    (hv : vals_len < 2 ^ 64) (hl : limit < 2 ^ 64) :
    (too_many_slices_msg name vals_len limit).length ≤ name.length + 93 := by
  have h1 : (Nat.repr vals_len).length ≤ 20 :=
    Nat.repr_length vals_len 20 (by norm_num) (lt_trans hv (by norm_num))
  have h2 : (Nat.repr limit).length ≤ 20 :=
    Nat.repr_length limit 20 (by norm_num) (lt_trans hl (by norm_num))
  have ha : (" Hashing " : String).length = 9 := by decide
  have hb : (" sequences in one syscall is over the limit " : String).length = 44 := by decide
  simp only [too_many_slices_msg, String.length_append, ha, hb]
  omega

theorem too_many_slices_msg_bounded (name : String) (bound vals_len limit : Nat)
    (hn : name.length + 93 ≤ bound) (hb : bound < 127)
    (hv : vals_len < 2 ^ 64) (hl : limit < 2 ^ 64) :
    bounded_msg name bound (too_many_slices_msg name vals_len limit) := by
  have h := too_many_slices_msg_length name vals_len limit hv hl
  refine ⟨⟨" Hashing " ++ Nat.repr vals_len ++ " sequences in one syscall is over the limit "
    ++ Nat.repr limit, ?_⟩, by omega, by omega⟩
  simp only [too_many_slices_msg, String.append_assoc]

/-- C16: the too-many-slices diagnostic is bounded and names the algorithm:
for every 64-bit `vals_len` and every 64-bit limit, the message
`"<Name> Hashing <vals_len> sequences in one syscall is over the limit <limit>"`
(decimal numbers) starts with the display name of the syscall and has at most
99 characters for `Sha256` and `Blake3` and at most 102 for `Keccak256`, hence
fewer than the 127 of the log collector call. -/
theorem C16_message_bounded (vals_len limit : Nat)
    (hv : vals_len < 2 ^ 64) (hl : limit < 2 ^ 64) :
    bounded_msg "Sha256" 99 (too_many_slices_msg "Sha256" vals_len limit) ∧
    bounded_msg "Blake3" 99 (too_many_slices_msg "Blake3" vals_len limit) ∧
    bounded_msg "Keccak256" 102 (too_many_slices_msg "Keccak256" vals_len limit) :=
  ⟨too_many_slices_msg_bounded _ _ _ _ (by decide) (by decide) hv hl,
    too_many_slices_msg_bounded _ _ _ _ (by decide) (by decide) hv hl,
    too_many_slices_msg_bounded _ _ _ _ (by decide) (by decide) hv hl⟩

/-- C16 at the largest inputs: with `vals_len = limit = 2^64-1` the messages
have exactly 99 and 102 characters. -/
theorem C16_message_bounded_witness :
    ((2 ^ 64 - 1 : Nat) < 2 ^ 64 ∧
      (too_many_slices_msg "Sha256" (2 ^ 64 - 1) (2 ^ 64 - 1)).length = 99 ∧
      (too_many_slices_msg "Keccak256" (2 ^ 64 - 1) (2 ^ 64 - 1)).length = 102 ∧
      too_many_slices_msg "Blake3" 20001 20000
        = "Blake3 Hashing 20001 sequences in one syscall is over the limit 20000") ∧
    bounded_msg "Sha256" 99 (too_many_slices_msg "Sha256" (2 ^ 64 - 1) (2 ^ 64 - 1)) ∧
    bounded_msg "Blake3" 99 (too_many_slices_msg "Blake3" (2 ^ 64 - 1) (2 ^ 64 - 1)) ∧
    bounded_msg "Keccak256" 102 (too_many_slices_msg "Keccak256" (2 ^ 64 - 1) (2 ^ 64 - 1)) :=
  ⟨⟨by decide, by decide, by decide, by decide⟩,
    C16_message_bounded (2 ^ 64 - 1) (2 ^ 64 - 1) (by decide) (by decide)⟩

theorem syscall_sol_eq_core (alg : hash_alg) (K : fd_vm_params) (vm : fd_vm_t)
    (vals_addr vals_len result_addr r4 r5 ret : Nat) :
    ∃ name H, fd_vm_syscall_sol alg K vm vals_addr vals_len result_addr r4 r5 ret
      = hash_syscall_core K name H vm vals_addr vals_len result_addr ret := by
  cases alg with
  | sha256 => exact ⟨_, _, sha256_eq_core K vm _ _ _ r4 r5 _⟩
  | blake3 => exact ⟨_, _, blake3_eq_core K vm _ _ _ r4 r5 _⟩
  | keccak256 => exact ⟨_, _, keccak256_eq_core K vm _ _ _ r4 r5 _⟩

theorem core_fault_status (K : fd_vm_params) (name : String) (H : List Nat → List Nat)
    (vm : fd_vm_t) (vals_addr vals_len result_addr ret : Nat)
    (hmax : vals_len ≤ K.FD_VM_SHA256_MAX_SLICES)
    (h : fault_reached K vm vals_addr vals_len result_addr) :
    ∃ f, (hash_syscall_core K name H vm vals_addr vals_len result_addr ret).status
      = K.FD_VM_ERR_FAULT f := by
  obtain ⟨p, hp, hs, hcu⟩ := h
  cases p with
  | none => exact absurd rfl hp
  | result =>
    obtain ⟨f, hres⟩ := xlat_ok_false _ hs
    have hcu2 : K.FD_VM_SHA256_BASE_COST ≤ vm.cu := by simp only [stop_cost] at hcu; omega
    exact ⟨f, by rw [core_result_fault K name H vm _ _ _ _ f hmax hcu2 hres]⟩
  | descriptors =>
    obtain ⟨hr, hpos, hv⟩ := hs
    obtain ⟨rh, hres⟩ := xlat_ok_true _ hr
    obtain ⟨f, hvec⟩ := xlat_ok_false _ hv
    have hcu2 : K.FD_VM_SHA256_BASE_COST ≤ vm.cu := by simp only [stop_cost] at hcu; omega
    exact ⟨f, by rw [core_vec_fault K name H vm _ _ _ _ rh f hmax hpos hcu2 hres hvec]⟩
  | slice m =>
    obtain ⟨hr, hm, hv, hx, hf⟩ := hs
    obtain ⟨rh, hres⟩ := xlat_ok_true _ hr
    obtain ⟨vh, hvec⟩ := xlat_ok_true _ hv
    obtain ⟨f, hfault⟩ := xlat_ok_false _ hf
    have hvh : vec_haddr K vm vals_addr vals_len = vh := by
      simp only [vec_haddr, hvec]
    simp only [stop_cost] at hcu
    rw [hvh] at hx hfault hcu
    have hdata : ∀ j, j < m → slice_xlat K vm vh j = .ok (slice_haddr K vm vh j) :=
      fun j hj => slice_xlat_haddr K vm vh j (xlat_ok_true _ (hx j hj))
    exact ⟨f, (core_slice_fault K name H vm _ _ _ ret rh vh (slice_haddr K vm vh) m f hmax hm hcu
      hres hvec hdata hfault).1⟩

/-- C17: the three failure categories of a hash syscall are distinguishable
from each other and from success: for any call rejected for too many slices,
any call that returns at a translation fault and any call that returns at
budget exhaustion (of any of the three syscalls), the three statuses are
pairwise different and none of them is 0.  The values of the codes are declared
outside src; their distinctness is `codes_distinct`, taken from the
specification. -/
theorem C17_failures_distinguishable (K : fd_vm_params) (hK : K.codes_distinct)
    (alg1 alg2 alg3 : hash_alg) (vm1 vm2 vm3 : fd_vm_t)
    (vals_addr1 vals_len1 result_addr1 vals_addr2 vals_len2 result_addr2
      vals_addr3 vals_len3 result_addr3 r4 r5 ret : Nat)
    (h1 : K.FD_VM_SHA256_MAX_SLICES < vals_len1)
    (hmax2 : vals_len2 ≤ K.FD_VM_SHA256_MAX_SLICES)
    (h2 : fault_reached K vm2 vals_addr2 vals_len2 result_addr2)
    (hmax3 : vals_len3 ≤ K.FD_VM_SHA256_MAX_SLICES)
    (h3 : budget_exhausted K vm3 vals_addr3 vals_len3 result_addr3) :
    distinguishable
      (fd_vm_syscall_sol alg1 K vm1 vals_addr1 vals_len1 result_addr1 r4 r5 ret).status
      (fd_vm_syscall_sol alg2 K vm2 vals_addr2 vals_len2 result_addr2 r4 r5 ret).status
      (fd_vm_syscall_sol alg3 K vm3 vals_addr3 vals_len3 result_addr3 r4 r5 ret).status := by
  obtain ⟨n1, H1, e1⟩ := syscall_sol_eq_core alg1 K vm1 vals_addr1 vals_len1 result_addr1 r4 r5 ret
  obtain ⟨n2, H2, e2⟩ := syscall_sol_eq_core alg2 K vm2 vals_addr2 vals_len2 result_addr2 r4 r5 ret
  obtain ⟨n3, H3, e3⟩ := syscall_sol_eq_core alg3 K vm3 vals_addr3 vals_len3 result_addr3 r4 r5 ret
  obtain ⟨f, hf⟩ := core_fault_status K n2 H2 vm2 _ _ _ ret hmax2 h2
  have hb := (core_budget K n3 H3 vm3 _ _ _ ret hmax3 hK.2.1 h3).1
  rw [e1, e2, e3, core_too_many K n1 H1 vm1 _ _ _ _ h1, hf, hb]
  obtain ⟨k0, k1, k2, k3, k4, k5⟩ := hK
  exact ⟨fun h => k4 f h.symm, fun h => k3 h.symm, k5 f, k0, k2 f, k1⟩

/-- C17 at concrete inputs: 20001 slices (status -14), a fault at the data of
slice 1 of `vm1` (status -1) and a budget of 50 below the base cost
(status -2). -/
theorem C17_failures_distinguishable_witness :
    (K0.codes_distinct ∧ K0.FD_VM_SHA256_MAX_SLICES < 20001 ∧
      3 ≤ K0.FD_VM_SHA256_MAX_SLICES ∧
      fault_reached K0 vm1 1000 3 3000 ∧
      budget_exhausted K0 { vm0 with cu := 50 } 1000 3 3000 ∧
      (fd_vm_syscall_sol .sha256 K0 vm0 1000 20001 3000 0 0 7).status = -14 ∧
      (fd_vm_syscall_sol .blake3 K0 vm1 1000 3 3000 0 0 7).status = -1 ∧
      (fd_vm_syscall_sol .keccak256 K0 { vm0 with cu := 50 } 1000 3 3000 0 0 7).status = -2) ∧
    distinguishable
      (fd_vm_syscall_sol .sha256 K0 vm0 1000 20001 3000 0 0 7).status
      (fd_vm_syscall_sol .blake3 K0 vm1 1000 3 3000 0 0 7).status
      (fd_vm_syscall_sol .keccak256 K0 { vm0 with cu := 50 } 1000 3 3000 0 0 7).status :=
  ⟨⟨K0_codes_distinct, by decide, by decide,
      ⟨.slice 1, by decide, by decide, by decide⟩, Or.inl (by decide),
      by decide, by decide, by decide⟩,
    C17_failures_distinguishable K0 K0_codes_distinct .sha256 .blake3 .keccak256
      vm0 vm1 { vm0 with cu := 50 } 1000 20001 3000 1000 3 3000 1000 3 3000 0 0 7
      (by decide) (by decide) ⟨.slice 1, by decide, by decide, by decide⟩
      (by decide) (Or.inl (by decide))⟩

/-! ## Claim C20 -/

theorem sha256_loop_trace_ext (K : fd_vm_params) (vh : Nat) :
    ∀ (n i : Nat) (vm : fd_vm_t) (sha : List Nat),
      ∃ t, (sha256_loop K vh n i vm sha).vm.trace = vm.trace ++ t := by
  intro n
  induction n with
  | zero => intro i vm sha; exact ⟨[], by simp [sha256_loop, fd_vm_res.vm]⟩
  | succ n ih =>
    intro i vm sha
    simp only [sha256_loop, FD_VM_MEM_SLICE_HADDR_LD, FD_VM_MEM_HADDR_LD, sizeof_fd_vm_vec_t,
      FD_VM_CU_UPDATE, fd_vm_t.emit, fd_sha256_append]
    cases hx : fd_vm_translate vm.regions (load_ulong vm.mem (vh + 16 * i))
        (load_ulong vm.mem (vh + 16 * i + 8)) K.FD_VM_ALIGN_RUST_U8 false with
    | error f =>
      simp only [fd_vm_res.vm]
      exact ⟨_, rfl⟩
    | ok hd =>
      by_cases hgt : slice_cost K (load_ulong vm.mem (vh + 16 * i + 8)) > vm.cu
      · simp only [hgt, if_true, fd_vm_res.vm, List.append_assoc]
        exact ⟨_, rfl⟩
      · simp only [hgt, if_false]
        obtain ⟨t, ht⟩ := ih (i + 1) _
          (sha ++ read_bytes vm.mem hd (load_ulong vm.mem (vh + 16 * i + 8)))
        rw [ht]
        simp only [List.append_assoc]
        exact ⟨_, rfl⟩

theorem vec_block_size (K : fd_vm_params) (vals_len : Nat)
    (hlim : K.FD_VM_SHA256_MAX_SLICES < 2 ^ 60) (hmax : vals_len ≤ K.FD_VM_SHA256_MAX_SLICES) :
    (vals_len * sizeof_fd_vm_vec_t) % 2 ^ 64 = vals_len * 16 := by
  have hp : (2 : Nat) ^ 60 = 1152921504606846976 := by norm_num
  have hq : (2 : Nat) ^ 64 = 18446744073709551616 := by norm_num
  rw [hp] at hlim
  rw [hq, sizeof_fd_vm_vec_t]
  omega

theorem core_descriptors_requested (K : fd_vm_params) (name : String) (H : List Nat → List Nat)
    (vm : fd_vm_t) (vals_addr vals_len result_addr ret rh : Nat)
    (hlim : K.FD_VM_SHA256_MAX_SLICES < 2 ^ 60)
    (hmax : vals_len ≤ K.FD_VM_SHA256_MAX_SLICES) (hpos : 0 < vals_len)
    (hcu : K.FD_VM_SHA256_BASE_COST ≤ vm.cu)
    (hres : fd_vm_translate vm.regions result_addr 32 K.FD_VM_ALIGN_RUST_U8 true = .ok rh) :
    descriptors_requested K vm vals_addr vals_len result_addr
      (hash_syscall_core K name H vm vals_addr vals_len result_addr ret) := by
  have hsz := vec_block_size K vals_len hlim hmax
  have hvm : (vm_at_loop K vm vals_addr vals_len result_addr).trace
      = vm.trace ++ ops_to_descriptors K vals_addr result_addr (vals_len * 16) := by
    simp only [vm_at_loop, ops_to_descriptors, hsz]
  unfold descriptors_requested
  cases hvec : fd_vm_translate vm.regions vals_addr
      ((vals_len * sizeof_fd_vm_vec_t) % 2 ^ 64) K.FD_VM_VEC_ALIGN false with
  | error f =>
    rw [core_vec_fault K name H vm _ _ _ _ rh f hmax hpos hcu hres hvec]
    exact ⟨[], by rw [hvm, List.append_nil]⟩
  | ok vh =>
    rw [core_at_loop K name H vm _ _ _ _ rh vh hmax hpos hcu hres hvec]
    obtain ⟨t, ht⟩ := sha256_loop_trace_ext K vh vals_len 0
      (vm_at_loop K vm vals_addr vals_len result_addr) []
    cases hloop : sha256_loop K vh vals_len 0
        (vm_at_loop K vm vals_addr vals_len result_addr) [] with
    | fail e v =>
      rw [hloop] at ht
      exact ⟨t, by rw [← hvm]; exact ht⟩
    | ok s v =>
      rw [hloop] at ht
      refine ⟨t ++ [.hash_fini rh], ?_⟩
      show v.trace ++ [fd_vm_event.hash_fini rh] = _
      simp only [fd_vm_res.vm] at ht
      rw [ht, hvm]
      simp only [List.append_assoc]

theorem load_ulong_congr (m1 m2 : Nat → Nat) (a : Nat)
    (h : ∀ k, k < 8 → m1 (a + k) = m2 (a + k)) : load_ulong m1 a = load_ulong m2 a := by
  unfold load_ulong
  congr 1
  apply List.map_congr_left
  intro k hk
  rw [h k (List.mem_range.mp hk)]

/-- C20: in each hash syscall the descriptor array is translated as one
contiguous block of exactly `vals_len * 16` bytes (16 is
`sizeof(fd_vm_vec_t)`), and on every path that reaches this translation the
64-bit product does not wrap: the shape check has enforced
`vals_len <= FD_VM_SHA256_MAX_SLICES` and the limit is below `2^60`, so the
requested size is the mathematical product; every byte of a descriptor with
index `i < vals_len` lies inside the translated block, so the two fields the
loop loads for it depend on no memory outside the block. -/
theorem C20_descriptor_block (K : fd_vm_params) (vm : fd_vm_t)
    (vals_addr vals_len result_addr r4 r5 ret rh : Nat)
    (hlim : K.FD_VM_SHA256_MAX_SLICES < 2 ^ 60)
    (hmax : vals_len ≤ K.FD_VM_SHA256_MAX_SLICES) (hpos : 0 < vals_len)
    (hcu : K.FD_VM_SHA256_BASE_COST ≤ vm.cu)
    (hres : fd_vm_translate vm.regions result_addr 32 K.FD_VM_ALIGN_RUST_U8 true = .ok rh) :
    (descriptors_requested K vm vals_addr vals_len result_addr
        (fd_vm_syscall_sol_sha256 K vm vals_addr vals_len result_addr r4 r5 ret) ∧
      descriptors_requested K vm vals_addr vals_len result_addr
        (fd_vm_syscall_sol_blake3 K vm vals_addr vals_len result_addr r4 r5 ret) ∧
      descriptors_requested K vm vals_addr vals_len result_addr
        (fd_vm_syscall_sol_keccak256 K vm vals_addr vals_len result_addr r4 r5 ret)) ∧
    (vals_len * sizeof_fd_vm_vec_t) % 2 ^ 64 = vals_len * 16 ∧
    (∀ vh i k, i < vals_len → k < sizeof_fd_vm_vec_t →
      vh + sizeof_fd_vm_vec_t * i + k < vh + (vals_len * sizeof_fd_vm_vec_t) % 2 ^ 64) ∧
    (∀ vh (mem : Nat → Nat),
      (∀ a, vh ≤ a → a < vh + (vals_len * sizeof_fd_vm_vec_t) % 2 ^ 64 → mem a = vm.mem a) →
      ∀ i, i < vals_len →
        vec_addr mem vh i = vec_addr vm.mem vh i ∧ vec_len mem vh i = vec_len vm.mem vh i) := by
  have hsz := vec_block_size K vals_len hlim hmax
  refine ⟨?_, hsz, ?_, ?_⟩
  · rw [sha256_eq_core, blake3_eq_core, keccak256_eq_core]
    exact ⟨core_descriptors_requested K _ _ vm _ _ _ _ rh hlim hmax hpos hcu hres,
      core_descriptors_requested K _ _ vm _ _ _ _ rh hlim hmax hpos hcu hres,
      core_descriptors_requested K _ _ vm _ _ _ _ rh hlim hmax hpos hcu hres⟩
  · intro vh i k hi hk
    rw [hsz]
    simp only [sizeof_fd_vm_vec_t] at hk ⊢
    omega
  · intro vh mem hm i hi
    rw [hsz] at hm
    constructor
    · apply load_ulong_congr
      intro k hk
      exact hm _ (by omega) (by omega)
    · apply load_ulong_congr
      intro k hk
      exact hm _ (by omega) (by omega)

/-- C20 at a concrete input: three descriptors of `vm0` are requested as one
block of 48 bytes. -/
theorem C20_descriptor_block_witness :
    (K0.FD_VM_SHA256_MAX_SLICES < 2 ^ 60 ∧ 3 ≤ K0.FD_VM_SHA256_MAX_SLICES ∧ 0 < 3 ∧
      K0.FD_VM_SHA256_BASE_COST ≤ vm0.cu ∧
      fd_vm_translate vm0.regions 3000 32 K0.FD_VM_ALIGN_RUST_U8 true = .ok 7000 ∧
      (fd_vm_syscall_sol_sha256 K0 vm0 1000 3 3000 0 0 7).vm.trace.take 3
        = ops_to_descriptors K0 1000 3000 48) ∧
    descriptors_requested K0 vm0 1000 3 3000 (fd_vm_syscall_sol_sha256 K0 vm0 1000 3 3000 0 0 7) :=
  ⟨⟨by decide, by decide, by decide, by decide, by decide, by decide⟩,
    (C20_descriptor_block K0 vm0 1000 3 3000 0 0 7 7000
      (by decide) (by decide) (by decide) (by decide) (by decide)).1.1⟩

end FdVm

namespace FdMonitor

/-! ## Claims C18 and C19 (monitor) -/

/-- What `monitor_cmd_args` accepts: it returns exactly when
`0 <= dt_min <= dt_max` and `0 <= duration`, with the parsed values stored. -/
theorem monitor_cmd_args_accepts (env : fd_env_cmdline) :
    (∃ args, monitor_cmd_args env = .ok args) ↔
      0 ≤ env.strip_cmdline_long "--dt-min" 6666667 ∧
      env.strip_cmdline_long "--dt-min" 6666667 ≤ env.strip_cmdline_long "--dt-max" 133333333 ∧
      0 ≤ env.strip_cmdline_long "--duration" 0 := by
  unfold monitor_cmd_args
  simp only []
  split_ifs with h1 h2 h3
  · simp; intro h; omega
  · simp; intro _ h; omega
  · simp; intro _ _; omega
  · simp; omega

/-- C18 fails on the code at `--dt-min 0`: the message of the check is
"--dt-min should be positive", but the check is `dt_min<0L`, so a command line
with `--dt-min 0` (here with `--dt-max 133333333 --duration 0`) is accepted and
`args->monitor.dt_min` is 0; `--dt-min -1`, `--dt-max` below `--dt-min` and a
negative `--duration` are rejected as the messages say. -/
theorem C18_dt_min_zero_accepted :
    monitor_cmd_args (cmdline_of 0 133333333 0)
      = .ok { drain_output_fd := -1, dt_min := 0, dt_max := 133333333, duration := 0,
              seed := 42, with_bench := false, with_sankey := false } ∧
    monitor_cmd_args (cmdline_of (-1) 133333333 0) = .error "--dt-min should be positive" ∧
    monitor_cmd_args (cmdline_of 5 4 0) = .error "--dt-max should be at least --dt-min" ∧
    monitor_cmd_args (cmdline_of 5 5 (-1)) = .error "--duration should be non-negative" := by
  decide

/-- With `duration == 0`, no Ctrl-D, `stop1` clear and the wallclock in
`[0, LONG_MAX)`, the loop is never left: after any number of iterations it has
printed that many times and is still running. -/
theorem monitor_loop_unbounded (obs : Nat → monitor_obs)
    (hc : ∀ i, (obs i).c ≠ 4) (hnow : ∀ i, 0 ≤ (obs i).now ∧ (obs i).now < LONG_MAX) :
    ∀ (fuel iter prints : Nat),
      monitor_loop LONG_MAX false obs fuel iter prints = ⟨prints + fuel, false⟩ := by
  intro fuel
  induction fuel with
  | zero => intro iter prints; simp [monitor_loop]
  | succ n ih =>
    intro iter prints
    have h1 := hc iter
    obtain ⟨h2, h3⟩ := hnow iter
    have hw : ¬ (0 ≤ wrap_long ((obs iter).now - LONG_MAX)) := by
      simp only [wrap_long, LONG_MAX] at h3 ⊢
      norm_num at h3 ⊢
      omega
    simp only [monitor_loop, h1, if_false, hw, decide_False, Bool.or_self]
    rw [ih]
    simp only [Bool.false_eq_true, if_false]
    congr 1
    omega

/-- C19 fails on the code: called with `duration == 0` (and `then = 1000`,
`stop1` clear, no key pressed), `run_monitor` does not stop after one pretty
print: line 306 sets `stop = LONG_MAX`, so `(now-stop)>=0L` is false and after
5 iterations the loop has printed 5 times and is still running; with
`duration == 1` the same run stops after exactly one print. -/
theorem C19_duration_zero_keeps_printing :
    monitor_stop 1000 0 = LONG_MAX ∧
    run_monitor 0 1000 false quiet_obs 1 = ⟨1, false⟩ ∧
    run_monitor 0 1000 false quiet_obs 2 = ⟨2, false⟩ ∧
    run_monitor 0 1000 false quiet_obs 5 = ⟨5, false⟩ ∧
    run_monitor 1 1000 false quiet_obs 5 = ⟨1, true⟩ := by
  decide

/-! ## Claim C21 (`find_producer_out_idx`) -/

theorem scan_list_append (topo : fd_topo_t) (producer : fd_topo_tile_t)
    (consumer consumer_in_idx : Nat) :
    ∀ (a b : List triple_t) (cnt : Nat),
      scan_list topo producer consumer consumer_in_idx (a ++ b) cnt
        = match scan_list topo producer consumer consumer_in_idx a cnt with
          | .ret v => .ret v
          | .go c => scan_list topo producer consumer consumer_in_idx b c := by
  intro a
  induction a with
  | nil => intro b cnt; simp [scan_list]
  | cons t ts ih =>
    intro b cnt
    simp only [List.cons_append, scan_list]
    split_ifs
    · rfl
    · exact ih b _
    · exact ih b _

theorem find_loop_k_eq (topo : fd_topo_t) (producer : fd_topo_tile_t)
    (consumer consumer_in_idx i j : Nat) :
    ∀ (n k cnt : Nat),
      find_loop_k topo producer consumer consumer_in_idx i j n k cnt
        = scan_list topo producer consumer consumer_in_idx
            ((List.range' k n).map (fun k => (i, j, k))) cnt := by
  intro n
  induction n with
  | zero => intro k cnt; simp [find_loop_k, scan_list]
  | succ n ih =>
    intro k cnt
    simp only [find_loop_k, List.range'_succ, List.map_cons, scan_list, triple_matches,
      triple_of_input, decide_eq_true_eq, ih]

theorem find_loop_j_eq (topo : fd_topo_t) (producer : fd_topo_tile_t)
    (consumer consumer_in_idx i : Nat) :
    ∀ (n j cnt : Nat),
      find_loop_j topo producer consumer consumer_in_idx i n j cnt
        = scan_list topo producer consumer consumer_in_idx
            ((List.range' j n).flatMap (fun j =>
              (List.range producer.out_cnt).map (fun k => (i, j, k)))) cnt := by
  intro n
  induction n with
  | zero => intro j cnt; simp [find_loop_j, scan_list]
  | succ n ih =>
    intro j cnt
    simp only [find_loop_j, List.range'_succ, List.flatMap_cons, scan_list_append,
      find_loop_k_eq, List.range_eq_range', ih]

theorem find_loop_i_eq (topo : fd_topo_t) (producer : fd_topo_tile_t)
    (consumer consumer_in_idx : Nat) :
    ∀ (n i cnt : Nat),
      find_loop_i topo producer consumer consumer_in_idx n i cnt
        = scan_list topo producer consumer consumer_in_idx
            ((List.range' i n).flatMap (fun i =>
              (List.range (topo.tiles i).in_cnt).flatMap (fun j =>
                (List.range producer.out_cnt).map (fun k => (i, j, k))))) cnt := by
  intro n
  induction n with
  | zero => intro i cnt; simp [find_loop_i, scan_list]
  | succ n ih =>
    intro i cnt
    simp only [find_loop_i, List.range'_succ, List.flatMap_cons, scan_list_append,
      find_loop_j_eq, List.range_eq_range', ih]

/-- The function is the scan of all triples in order. -/
theorem find_producer_out_idx_eq_scan (topo : fd_topo_t) (producer : fd_topo_tile_t)
    (consumer consumer_in_idx : Nat) :
    find_producer_out_idx topo producer consumer consumer_in_idx
      = match scan_list topo producer consumer consumer_in_idx (topo_triples topo producer) 0 with
        | .ret v => v
        | .go _ => FdVm.ULONG_MAX := by
  simp only [find_producer_out_idx, find_loop_i_eq, topo_triples, List.range_eq_range']

/-- What the scan computes when the counter cannot wrap: the counter plus the
number of matching triples before the first match of the input, or no return
at all when the input has no match. -/
theorem scan_list_spec (topo : fd_topo_t) (producer : fd_topo_tile_t)
    (consumer consumer_in_idx : Nat) :
    ∀ (ts : List triple_t) (cnt : Nat),
      cnt + (ts.filter (triple_matches topo producer)).length < 2 ^ 64 →
      scan_list topo producer consumer consumer_in_idx ts cnt
        = if (ts.filter (triple_matches topo producer)).any
              (triple_of_input consumer consumer_in_idx) = true
          then .ret (cnt + ((ts.filter (triple_matches topo producer)).takeWhile
            (fun t => !triple_of_input consumer consumer_in_idx t)).length)
          else .go (cnt + (ts.filter (triple_matches topo producer)).length) := by
  intro ts
  induction ts with
  | nil => intro cnt _; simp [scan_list]
  | cons t ts ih =>
    intro cnt hb
    by_cases hm : triple_matches topo producer t = true
    · simp only [List.filter_cons_of_pos hm, List.length_cons] at hb
      by_cases ht : triple_of_input consumer consumer_in_idx t = true
      · simp [scan_list, hm, ht, List.filter_cons_of_pos hm]
      · have ht2 : triple_of_input consumer consumer_in_idx t = false := by simpa using ht
        have hw : (cnt + 1) % 2 ^ 64 = cnt + 1 := Nat.mod_eq_of_lt (by omega)
        simp only [scan_list, hm, ht2, if_true, Bool.false_eq_true, if_false, hw,
          List.filter_cons_of_pos hm, List.any_cons, Bool.false_or, List.takeWhile_cons,
          Bool.not_false, List.length_cons]
        rw [ih (cnt + 1) (by omega)]
        split_ifs
        · congr 1; omega
        · congr 1; omega
    · have hm2 : triple_matches topo producer t = false := by simpa using hm
      have hf : (t :: ts).filter (triple_matches topo producer)
          = ts.filter (triple_matches topo producer) := by
        simp [List.filter_cons, hm2]
      rw [hf] at hb ⊢
      simp only [scan_list, hm2, Bool.false_eq_true, if_false]
      exact ih cnt hb

theorem mem_topo_triples (topo : fd_topo_t) (producer : fd_topo_tile_t) (t : triple_t) :
    t ∈ topo_triples topo producer
      ↔ t.1 < topo.tile_cnt ∧ t.2.1 < (topo.tiles t.1).in_cnt ∧ t.2.2 < producer.out_cnt := by
  obtain ⟨i, j, k⟩ := t
  simp only [topo_triples, List.mem_flatMap, List.mem_range, List.mem_map, Prod.mk.injEq]
  constructor
  · rintro ⟨i', hi, j', hj, k', hk, rfl, rfl, rfl⟩
    exact ⟨hi, hj, hk⟩
  · rintro ⟨hi, hj, hk⟩
    exact ⟨i, hi, j, hj, k, hk, rfl, rfl, rfl⟩

theorem any_match_iff_reliable_input (topo : fd_topo_t) (producer : fd_topo_tile_t)
    (consumer consumer_in_idx : Nat) :
    (matching_triples topo producer).any (triple_of_input consumer consumer_in_idx) = true
      ↔ reliable_input_of topo producer consumer consumer_in_idx := by
  simp only [matching_triples, List.any_eq_true, List.mem_filter, mem_topo_triples,
    triple_matches, triple_of_input, decide_eq_true_eq, reliable_input_of]
  constructor
  · rintro ⟨⟨i, j, k⟩, ⟨⟨hi, hj, hk⟩, hid, hrel⟩, rfl, rfl⟩
    exact ⟨hi, hj, hrel, k, hk, hid⟩
  · rintro ⟨hi, hj, hrel, k, hk, hid⟩
    exact ⟨(consumer, consumer_in_idx, k), ⟨⟨hi, hj, hk⟩, hid, hrel⟩, rfl, rfl⟩

/-- The element at the position counted by `takeWhile` is the first one that
satisfies the predicate. -/
theorem first_match_at (l : List triple_t) (p : triple_t → Bool) (h : l.any p = true) :
    ∃ x, l[(l.takeWhile (fun t => !p t)).length]? = some x ∧ p x = true := by
  induction l with
  | nil => simp at h
  | cons t ts ih =>
    by_cases ht : p t = true
    · exact ⟨t, by simp [List.takeWhile_cons, ht], ht⟩
    · have ht2 : p t = false := by simpa using ht
      have h2 : ts.any p = true := by simpa [List.any_cons, ht2] using h
      obtain ⟨x, hx, hp⟩ := ih h2
      exact ⟨x, by simpa [List.takeWhile_cons, ht2] using hx, hp⟩

theorem first_match_lt (l : List triple_t) (p : triple_t → Bool) (h : l.any p = true) :
    (l.takeWhile (fun t => !p t)).length < l.length := by
  obtain ⟨x, hx, _⟩ := first_match_at l p h
  by_contra hn
  rw [List.getElem?_eq_none (by omega)] at hx
  exact absurd hx (by simp)

theorem find_producer_out_idx_value (topo : fd_topo_t) (producer : fd_topo_tile_t)
    (consumer consumer_in_idx : Nat)
    (hb : (matching_triples topo producer).length < FdVm.ULONG_MAX) :
    find_producer_out_idx topo producer consumer consumer_in_idx
      = if (matching_triples topo producer).any (triple_of_input consumer consumer_in_idx) = true
        then preceding_matches topo producer consumer consumer_in_idx
        else FdVm.ULONG_MAX := by
  have hb2 : 0 + ((topo_triples topo producer).filter (triple_matches topo producer)).length
      < 2 ^ 64 := by
    simp only [matching_triples, FdVm.ULONG_MAX] at hb
    omega
  rw [find_producer_out_idx_eq_scan, scan_list_spec topo producer consumer consumer_in_idx _ 0 hb2]
  simp only [matching_triples, preceding_matches, Nat.zero_add]
  split_ifs <;> rfl

/-- C21: `find_producer_out_idx` assigns distinct indices to distinct reliable
consumers.  For every topology and producer (with fewer than `ULONG_MAX`
matching triples, so that the 64-bit counter cannot wrap): it returns
`ULONG_MAX` if and only if `(consumer, consumer_in_idx)` is not a reliable
input whose link id equals one of the producer's `out_link_id` entries;
otherwise it returns the number of matching (tile, in, out) triples that
precede the first match of that input in tile-then-input-then-output order;
so two different reliable inputs fed by the same producer never get the same
index. -/
theorem C21_find_producer_out_idx (topo : fd_topo_t) (producer : fd_topo_tile_t)
    (consumer consumer_in_idx : Nat)
    (hb : (matching_triples topo producer).length < FdVm.ULONG_MAX) :
    (find_producer_out_idx topo producer consumer consumer_in_idx = FdVm.ULONG_MAX
      ↔ ¬ reliable_input_of topo producer consumer consumer_in_idx) ∧
    (reliable_input_of topo producer consumer consumer_in_idx →
      find_producer_out_idx topo producer consumer consumer_in_idx
        = preceding_matches topo producer consumer consumer_in_idx) ∧
    (∀ consumer2 consumer_in_idx2,
      reliable_input_of topo producer consumer consumer_in_idx →
      reliable_input_of topo producer consumer2 consumer_in_idx2 →
      (consumer, consumer_in_idx) ≠ (consumer2, consumer_in_idx2) →
      find_producer_out_idx topo producer consumer consumer_in_idx
        ≠ find_producer_out_idx topo producer consumer2 consumer_in_idx2) := by
  have hval : ∀ c j, reliable_input_of topo producer c j →
      find_producer_out_idx topo producer c j = preceding_matches topo producer c j := by
    intro c j hr
    rw [find_producer_out_idx_value topo producer c j hb,
      if_pos ((any_match_iff_reliable_input topo producer c j).mpr hr)]
  refine ⟨⟨?_, ?_⟩, hval consumer consumer_in_idx, ?_⟩
  · intro heq hr
    have hany := (any_match_iff_reliable_input topo producer consumer consumer_in_idx).mpr hr
    have hlt := first_match_lt _ _ hany
    rw [hval _ _ hr] at heq
    simp only [preceding_matches] at heq
    omega
  · intro hr
    rw [find_producer_out_idx_value topo producer consumer consumer_in_idx hb, if_neg]
    exact fun h => hr ((any_match_iff_reliable_input topo producer _ _).mp h)
  · intro c2 j2 hr1 hr2 hne heq
    rw [hval _ _ hr1, hval _ _ hr2] at heq
    obtain ⟨x, hx, hpx⟩ := first_match_at _ _
      ((any_match_iff_reliable_input topo producer consumer consumer_in_idx).mpr hr1)
    obtain ⟨y, hy, hpy⟩ := first_match_at _ _
      ((any_match_iff_reliable_input topo producer c2 j2).mpr hr2)
    simp only [preceding_matches] at heq
    rw [heq, hy] at hx
    have hxy : y = x := Option.some.inj hx
    subst hxy
    simp only [triple_of_input, decide_eq_true_eq] at hpx hpy
    exact hne (by rw [hpx.1, hpx.2, hpy.1, hpy.2])

/-- C21 on the topology `topo0` with producer tile 0 (links 7 and 8): the
reliable inputs `(1, 0)` and `(2, 1)` of link 7 get the indices 0 and 1; input
`(1, 1)` (link 9) and the unreliable input `(2, 0)` get `ULONG_MAX`. -/
theorem C21_find_producer_out_idx_witness :
    ((matching_triples topo0 (topo0.tiles 0)).length < FdVm.ULONG_MAX ∧
      find_producer_out_idx topo0 (topo0.tiles 0) 1 0 = 0 ∧
      find_producer_out_idx topo0 (topo0.tiles 0) 2 1 = 1 ∧
      find_producer_out_idx topo0 (topo0.tiles 0) 1 1 = FdVm.ULONG_MAX ∧
      find_producer_out_idx topo0 (topo0.tiles 0) 2 0 = FdVm.ULONG_MAX ∧
      matching_triples topo0 (topo0.tiles 0) = [(1, 0, 0), (2, 1, 0)]) ∧
    (find_producer_out_idx topo0 (topo0.tiles 0) 2 1 = FdVm.ULONG_MAX
      ↔ ¬ reliable_input_of topo0 (topo0.tiles 0) 2 1) ∧
    (reliable_input_of topo0 (topo0.tiles 0) 2 1 →
      find_producer_out_idx topo0 (topo0.tiles 0) 2 1
        = preceding_matches topo0 (topo0.tiles 0) 2 1) ∧
    (∀ consumer2 consumer_in_idx2,
      reliable_input_of topo0 (topo0.tiles 0) 2 1 →
      reliable_input_of topo0 (topo0.tiles 0) consumer2 consumer_in_idx2 →
      ((2 : Nat), (1 : Nat)) ≠ (consumer2, consumer_in_idx2) →
      find_producer_out_idx topo0 (topo0.tiles 0) 2 1
        ≠ find_producer_out_idx topo0 (topo0.tiles 0) consumer2 consumer_in_idx2) :=
  ⟨⟨by decide, by decide, by decide, by decide, by decide, by decide⟩,
    C21_find_producer_out_idx topo0 (topo0.tiles 0) 2 1 (by decide)⟩

/-! ## Claim C22 (`drain_to_buffer`) -/

theorem sub_ulong_le (a b : Nat) (hb : b ≤ a) (ha : a ≤ FD_MONITOR_TEXT_BUF_SZ) :
    sub_ulong a b = a - b := by
  simp only [sub_ulong, FD_MONITOR_TEXT_BUF_SZ] at *
  have h : a + 2 ^ 64 - b = (a - b) + 2 ^ 64 := by omega
  rw [h, Nat.add_mod_right, Nat.mod_eq_of_lt]
  omega

/-- A found newline lies in the window searched. -/
theorem memchr_bound (s : List Nat) (ptr c n next : Nat) (h : memchr s ptr c n = some next) :
    ptr ≤ next ∧ next < ptr + n ∧ next < s.length := by
  unfold memchr at h
  split at h
  · rename_i hlt
    have hnext := Option.some.inj h
    have hlen : ((s.drop ptr).take n).length ≤ n ∧ ((s.drop ptr).take n).length ≤ s.length - ptr := by
      simp only [List.length_take, List.length_drop]
      omega
    omega
  · cases h

theorem drain_flush_ok (E : drain_env) (need : Nat) (st : drain_t)
    (hneed : need ≤ FD_MONITOR_TEXT_BUF_SZ) (h : drain_ok st) :
    drain_ok (drain_state_of (drain_flush E need st)) ∧
      ∀ s, drain_flush E need st = .ok s → need ≤ s.buf_sz := by
  unfold drain_flush
  by_cases hlt : st.buf_sz < need
  · rw [if_pos hlt]
    unfold write_stdout
    by_cases hw : E.wr st.stdout.length = true
    · rw [if_pos hw]
      refine ⟨⟨⟨le_refl _, (Nat.sub_self _).symm⟩, h.2⟩, ?_⟩
      intro s hs
      cases hs
      exact hneed
    · rw [if_neg hw]
      exact ⟨h, fun s hs => by cases hs⟩
  · rw [if_neg hlt]
    refine ⟨h, ?_⟩
    intro s hs
    cases hs
    omega

theorem drain_copy_ok (src : List Nat) (len : Nat) (st : drain_t)
    (hlen : len ≤ st.buf_sz) (h : drain_ok st) : drain_ok (drain_copy src len st) := by
  obtain ⟨⟨hsz, hbuf⟩, hev⟩ := h
  refine ⟨⟨?_, ?_⟩, ?_⟩
  · simp only [drain_copy]
    rw [sub_ulong_le _ _ hlen hsz]
    omega
  · simp only [drain_copy]
    rw [sub_ulong_le _ _ hlen hsz, hbuf]
    omega
  · intro e he
    simp only [drain_copy, List.mem_append, List.mem_singleton] at he
    rcases he with he | he
    · exact hev e he
    · subst he
      exact ⟨hlen, hsz, hbuf⟩

theorem drain_line_ok (E : drain_env) (chunk : List Nat) (ptr next : Nat) (st : drain_t)
    (hnl : E.TEXT_NEWLINE.length ≤ FD_MONITOR_TEXT_BUF_SZ)
    (hlen : next - ptr ≤ FD_MONITOR_TEXT_BUF_SZ) (h : drain_ok st) :
    drain_ok (drain_state_of (drain_line E chunk ptr next st)) := by
  unfold drain_line
  have h1 := drain_flush_ok E (next - ptr) st hlen h
  cases hf1 : drain_flush E (next - ptr) st with
  | error s =>
    rw [hf1] at h1
    exact h1.1
  | ok st1 =>
    rw [hf1] at h1
    dsimp only
    have hc1 := drain_copy_ok (chunk.drop ptr) (next - ptr) st1 (h1.2 st1 rfl) h1.1
    have h2 := drain_flush_ok E E.TEXT_NEWLINE.length _ hnl hc1
    cases hf2 : drain_flush E E.TEXT_NEWLINE.length
        (drain_copy (chunk.drop ptr) (next - ptr) st1) with
    | error s =>
      rw [hf2] at h2
      exact h2.1
    | ok st2 =>
      rw [hf2] at h2
      dsimp only
      have hc2 := drain_copy_ok E.TEXT_NEWLINE E.TEXT_NEWLINE.length st2 (h2.2 st2 rfl) h2.1
      refine ⟨hc2.1, ?_⟩
      intro e he
      simp only [drain_state_of, List.mem_append, List.mem_singleton] at he
      rcases he with he | he
      · exact hc2.2 e he
      · subst he
        exact hc2.1

theorem drain_lines_ok (E : drain_env) (chunk : List Nat)
    (hnl : E.TEXT_NEWLINE.length ≤ FD_MONITOR_TEXT_BUF_SZ)
    (hchunk : chunk.length ≤ FD_MONITOR_TEXT_BUF_SZ) :
    ∀ (fuel ptr : Nat) (st : drain_t), drain_ok st →
      drain_ok (drain_state_of (drain_lines E chunk fuel ptr st)) := by
  intro fuel
  induction fuel with
  | zero => intro ptr st h; exact h
  | succ fuel ih =>
    intro ptr st h
    unfold drain_lines
    cases hm : memchr chunk ptr 10 (chunk.length - ptr) with
    | none => exact h
    | some next =>
      dsimp only
      have hb := memchr_bound _ _ _ _ _ hm
      have hl := drain_line_ok E chunk ptr next st hnl (by omega) h
      cases hd : drain_line E chunk ptr next st with
      | error s =>
        rw [hd] at hl
        exact hl
      | ok st1 =>
        rw [hd] at hl
        dsimp only
        exact ih (next + 1) st1 hl

theorem drain_loop_ok (E : drain_env)
    (hnl : E.TEXT_NEWLINE.length ≤ FD_MONITOR_TEXT_BUF_SZ)
    (hread : ∀ call req bytes, E.rd call req = .data bytes → bytes.length ≤ req) :
    ∀ (fuel call : Nat) (st : drain_t), drain_ok st →
      drain_ok (drain_loop E fuel call st).2 := by
  intro fuel
  induction fuel with
  | zero => intro call st h; exact h
  | succ fuel ih =>
    intro call st h
    unfold drain_loop
    cases hr : E.rd call st.buf_sz with
    | eagain => exact h
    | failed => exact h
    | data chunk =>
      dsimp only
      have hc : chunk.length ≤ FD_MONITOR_TEXT_BUF_SZ :=
        le_trans (hread call st.buf_sz chunk hr) h.1.1
      have hl := drain_lines_ok E chunk hnl hc (chunk.length + 1) 0 st h
      cases hd : drain_lines E chunk (chunk.length + 1) 0 st with
      | error s =>
        rw [hd] at hl
        exact hl
      | ok st1 =>
        rw [hd] at hl
        dsimp only
        exact ih (call + 1) st1 hl

/-- The inner loop never uses up its fuel: once the fuel exceeds the number of
bytes left in the chunk, more fuel changes nothing. -/
theorem drain_lines_fuel (E : drain_env) (chunk : List Nat) :
    ∀ (fuel ptr : Nat) (st : drain_t), chunk.length < ptr + fuel →
      drain_lines E chunk (fuel + 1) ptr st = drain_lines E chunk fuel ptr st := by
  intro fuel
  induction fuel with
  | zero =>
    intro ptr st h
    have hm : memchr chunk ptr 10 (chunk.length - ptr) = none := by
      cases hm : memchr chunk ptr 10 (chunk.length - ptr) with
      | none => rfl
      | some next =>
        have := memchr_bound _ _ _ _ _ hm
        omega
    simp only [drain_lines, hm]
  | succ fuel ih =>
    intro ptr st h
    rw [drain_lines]
    conv_rhs => rw [drain_lines]
    cases hm : memchr chunk ptr 10 (chunk.length - ptr) with
    | none => rfl
    | some next =>
      dsimp only
      have hb := memchr_bound _ _ _ _ _ hm
      cases hd : drain_line E chunk ptr next st with
      | error s => rfl
      | ok st1 =>
        dsimp only
        exact ih (next + 1) st1 (by omega)

/-- With the fuel `nread + 1` used by `drain_loop`, the inner loop has run to
the end of the chunk: any additional fuel gives the same result. -/
theorem drain_lines_enough (E : drain_env) (chunk : List Nat) (st : drain_t) (extra : Nat) :
    drain_lines E chunk (chunk.length + 1 + extra) 0 st
      = drain_lines E chunk (chunk.length + 1) 0 st := by
  induction extra with
  | zero => rfl
  | succ extra ih =>
    rw [← ih]
    exact drain_lines_fuel E chunk (chunk.length + 1 + extra) 0 st (by omega)

/-- When the `n`-th read reports `EAGAIN`, a run allowed more than `n` reads
is over: it has returned or ended in `FD_LOG_ERR`. -/
theorem drain_loop_ends (E : drain_env) (n : Nat) (hn : ∀ req, E.rd n req = .eagain) :
    ∀ (fuel call : Nat) (st : drain_t), call ≤ n → n < call + fuel →
      (drain_loop E fuel call st).1 ≠ .running := by
  intro fuel
  induction fuel with
  | zero => intro call st h1 h2; omega
  | succ fuel ih =>
    intro call st h1 h2
    unfold drain_loop
    cases hr : E.rd call st.buf_sz with
    | eagain => simp
    | failed => simp
    | data chunk =>
      dsimp only
      have hne : call ≠ n := by
        intro heq
        rw [heq, hn] at hr
        cases hr
      cases hd : drain_lines E chunk (chunk.length + 1) 0 st with
      | error s => simp
      | ok st1 =>
        dsimp only
        exact ih (call + 1) st1 (by omega) (by omega)

/-- C22: `drain_to_buffer` keeps the output cursor inside the monitor text
buffer.  If on entry `*buf == buffer + (FD_MONITOR_TEXT_BUF_SZ - *buf_sz)` with
`*buf_sz <= FD_MONITOR_TEXT_BUF_SZ`, every read returns at most the requested
number of bytes, and `TEXT_NEWLINE` (from `helper.h`) is no longer than the
buffer, then at every point of the run, however many reads are made: every
copy recorded (a line, or `TEXT_NEWLINE`) has length `<= *buf_sz` and starts at
`buffer + (FD_MONITOR_TEXT_BUF_SZ - *buf_sz)`, so `*buf_sz` never underflows;
the cursor relation holds after every line; and it holds in the state
reached, in particular on return. -/
theorem C22_drain_to_buffer_cursor (E : drain_env) (fuel : Nat) (st : drain_t)
    (hnl : E.TEXT_NEWLINE.length ≤ FD_MONITOR_TEXT_BUF_SZ)
    (hsz : st.buf_sz ≤ FD_MONITOR_TEXT_BUF_SZ)
    (hbuf : st.buf = FD_MONITOR_TEXT_BUF_SZ - st.buf_sz)
    (hev : st.events = [])
    (hread : ∀ call req bytes, E.rd call req = .data bytes → bytes.length ≤ req) :
    (∀ off len buf_sz, .copy off len buf_sz ∈ (drain_to_buffer E fuel st).2.events →
      len ≤ buf_sz ∧ buf_sz ≤ FD_MONITOR_TEXT_BUF_SZ ∧ off = FD_MONITOR_TEXT_BUF_SZ - buf_sz
        ∧ sub_ulong buf_sz len = buf_sz - len) ∧
    (∀ buf buf_sz, .line_done buf buf_sz ∈ (drain_to_buffer E fuel st).2.events →
      buf_sz ≤ FD_MONITOR_TEXT_BUF_SZ ∧ buf = FD_MONITOR_TEXT_BUF_SZ - buf_sz) ∧
    ((drain_to_buffer E fuel st).2.buf_sz ≤ FD_MONITOR_TEXT_BUF_SZ ∧
      (drain_to_buffer E fuel st).2.buf
        = FD_MONITOR_TEXT_BUF_SZ - (drain_to_buffer E fuel st).2.buf_sz) := by
  have h0 : drain_ok st := ⟨⟨hsz, hbuf⟩, by rw [hev]; intro e he; cases he⟩
  have h := drain_loop_ok E hnl hread fuel 0 st h0
  refine ⟨?_, ?_, h.1⟩
  · intro off len buf_sz he
    have hc := h.2 _ he
    exact ⟨hc.1, hc.2.1, hc.2.2, sub_ulong_le _ _ hc.1 hc.2.1⟩
  · intro buf buf_sz he
    exact h.2 _ he

theorem env0_read_le (call req : Nat) (bytes : List Nat)
    (h : env0.rd call req = .data bytes) : bytes.length ≤ req := by
  simp only [env0] at h
  split at h
  · cases h
    simp
  · cases h

/-- C22 on a run that enters with 7 bytes left in the text buffer and reads
the two lines `ab` and `cde`: the first line and its `TEXT_NEWLINE` fill the
buffer exactly, the second line forces one `write_stdout` and restarts at
offset 0; the run returns on `EAGAIN`. -/
theorem C22_drain_to_buffer_cursor_witness :
    ((drain_to_buffer env0 5 drain1).1 = .returned ∧
      (drain_to_buffer env0 5 drain1).2.events
        = [.copy 131065 2 7, .copy 131067 5 5, .line_done 131072 0,
           .copy 0 3 131072, .copy 3 5 131069, .line_done 8 131064] ∧
      (drain_to_buffer env0 5 drain1).2.stdout.length = 1 ∧
      (drain_to_buffer env0 5 drain1).2.buf = 8) ∧
    (∀ off len buf_sz, .copy off len buf_sz ∈ (drain_to_buffer env0 5 drain1).2.events →
      len ≤ buf_sz ∧ buf_sz ≤ FD_MONITOR_TEXT_BUF_SZ ∧ off = FD_MONITOR_TEXT_BUF_SZ - buf_sz
        ∧ sub_ulong buf_sz len = buf_sz - len) ∧
    (∀ buf buf_sz, .line_done buf buf_sz ∈ (drain_to_buffer env0 5 drain1).2.events →
      buf_sz ≤ FD_MONITOR_TEXT_BUF_SZ ∧ buf = FD_MONITOR_TEXT_BUF_SZ - buf_sz) ∧
    ((drain_to_buffer env0 5 drain1).2.buf_sz ≤ FD_MONITOR_TEXT_BUF_SZ ∧
      (drain_to_buffer env0 5 drain1).2.buf
        = FD_MONITOR_TEXT_BUF_SZ - (drain_to_buffer env0 5 drain1).2.buf_sz) :=
  ⟨⟨by decide, by decide, by decide, by decide⟩,
    C22_drain_to_buffer_cursor env0 5 drain1 (by simp [env0, FD_MONITOR_TEXT_BUF_SZ])
      (by simp [drain1, FD_MONITOR_TEXT_BUF_SZ]) rfl rfl env0_read_le⟩

end FdMonitor
